import Mathlib

/-! # OpenDDL literal parsers

A shallow embedding of `src/MagnumPlugins/OpenGexImporter/OpenDdl/parsers.cpp`
(namespace `Magnum::OpenDdl::Implementation`) and theorems about it.

Conventions of the embedding.

* A byte is a `Nat` (0..255). A `std::string` is a `List Nat`.
* A `const char*` is an `Option Nat`: `none` is `nullptr`, `some p` is the
  address `p`.
* A `Containers::ArrayReference<const char>` is an `Option ArrayReference`:
  `none` is the null reference (`!data` holds), `some ⟨p, bytes⟩` is the view
  that starts at address `p` and holds `bytes`; its `end()` is
  `p + bytes.length`. `data.suffix(q)` is `⟨q, bytes.drop (q - p)⟩`,
  `data.prefix(q)` is `⟨p, bytes.take (q - p)⟩`.
* A pointer inside a view that a loop moves forward is carried together with
  the bytes that remain between it and `end()`.
* Reference parameters (`ParseError& error`, `std::string& buffer`, the output
  fields of `propertyValue`) are passed in and returned in the result.
* A call ends in an `Outcome`: a normal return, a C++ exception leaving the
  function, undefined behaviour (a read through a null pointer or outside the
  view), a failed assertion, or exhausted fuel for loops that are not known to
  advance.
* The profile is the desktop one (neither `MAGNUM_TARGET_WEBGL` nor
  `MAGNUM_TARGET_GLES`), `char` is signed and `unsigned long` has 64 bits.
-/

namespace OpenDdl

/-! ## Data model -/

/-- Error kinds, in the order of `operator<<(Debug, ParseErrorType)`. -/
inductive ParseErrorType where
  | NoError
  | InvalidEscapeSequence
  | InvalidIdentifier
  | InvalidName
  | InvalidCharacterLiteral
  | InvalidLiteral
  | InvalidPropertyValue
  | InvalidSubArraySize
  | LiteralOutOfRange
  | ExpectedIdentifier
  | ExpectedName
  | ExpectedLiteral
  | ExpectedSeparator
  | ExpectedListStart
  | ExpectedListEnd
  | ExpectedArraySizeEnd
  | ExpectedPropertyValue
  | ExpectedPropertyAssignment
  | ExpectedPropertyListEnd
  deriving DecidableEq, Repr

/-- Modelled from the spec: the enumeration `Type` of `OpenDdl/Type.h`, which is
not among the sources; the spec lists its values in this order. The value
`Type::Type` is written `Type_`. -/
inductive DdlType where
  | Bool
  | UnsignedByte
  | Byte
  | UnsignedShort
  | Short
  | UnsignedInt
  | Int
  | UnsignedLong
  | Long
  | Float
  | Double
  | String
  | Reference
  | Type_
  deriving DecidableEq, Repr

/-- Modelled from the spec: the enumeration `InternalPropertyType` of
`parsers.h`, which is not among the sources; the spec lists its values in this
order. The value `InternalPropertyType::Type` is written `Type_`. -/
inductive InternalPropertyType where
  | Bool
  | Character
  | Integral
  | Binary
  | Float
  | String
  | Reference
  | Type_
  deriving DecidableEq, Repr

/-- Modelled from the spec: the structure `ParseError` of `parsers.h`, which is
not among the sources: an error kind, an optional expected type and an optional
position; the default value is "no error". The three constructors used by the
parsers are `{kind}`, `{kind, position}` and `{kind, type, position}`. -/
structure ParseError where
  error : ParseErrorType := ParseErrorType.NoError
  type : Option DdlType := none
  position : Option Nat := none
  deriving DecidableEq, Repr

/-- A non-null `Containers::ArrayReference<const char>`: the address of its
first byte and the bytes it views. -/
structure ArrayReference where
  ptr : Nat
  bytes : List Nat
  deriving DecidableEq, Repr

/-- The exceptions of the standard conversion functions. -/
inductive StdException where
  | invalid_argument
  | out_of_range
  deriving DecidableEq, Repr

/-- How a call ends. -/
inductive Outcome (α : Type) where
  | ret (a : α)
  | throws (e : StdException)
  | undefinedBehaviour
  | assertion
  | outOfFuel
  deriving DecidableEq, Repr

/-- Sequencing of calls: everything but a normal return is passed on. -/
def Outcome.bind {α β : Type} (o : Outcome α) (f : α → Outcome β) : Outcome β :=
  match o with
  | Outcome.ret a => f a
  | Outcome.throws e => Outcome.throws e
  | Outcome.undefinedBehaviour => Outcome.undefinedBehaviour
  | Outcome.assertion => Outcome.assertion
  | Outcome.outOfFuel => Outcome.outOfFuel

/-- The result of a parser that returns `std::pair<const char*, T>` (or only a
position, with `Unit` for `T`) and may write the error slot. -/
structure Parsed (α : Type) where
  pos : Option Nat
  value : α
  error : ParseError
  deriving DecidableEq, Repr

/-! ## Character classes -/

/-- The bases for which `isBaseN` is specialised. -/
inductive Base where
  | b2
  | b8
  | b10
  | b16
  deriving DecidableEq, Repr

/-- The template argument as a number. -/
def Base.toNat : Base → Nat
  | Base.b2 => 2
  | Base.b8 => 8
  | Base.b10 => 10
  | Base.b16 => 16

/-- The function `isBaseN<base>(c)`. -/
def isBaseN (base : Base) (c : Nat) : Bool :=
  match base with
  | Base.b2 => c == 0x30 || c == 0x31
  | Base.b8 => decide (0x30 ≤ c) && decide (c ≤ 0x37)
  | Base.b10 => decide (0x30 ≤ c) && decide (c ≤ 0x39)
  | Base.b16 => (decide (0x30 ≤ c) && decide (c ≤ 0x39))
      || (decide (0x61 ≤ c) && decide (c ≤ 0x66))
      || (decide (0x41 ≤ c) && decide (c ≤ 0x46))

/-- The function `isBinaryPrefix(c)`: one of `b o x B O X`. -/
def isBinaryPrefix (c : Nat) : Bool :=
  c == 0x62 || c == 0x6F || c == 0x78 || c == 0x42 || c == 0x4F || c == 0x58

/-- The function `isAlpha(c)`. -/
def isAlpha (c : Nat) : Bool :=
  (decide (0x61 ≤ c) && decide (c ≤ 0x7A)) || (decide (0x41 ≤ c) && decide (c ≤ 0x5A))

/-- The function `isAlphaDecimal(c)`. -/
def isAlphaDecimal (c : Nat) : Bool :=
  isAlpha c || isBaseN Base.b10 c

/-- The value of a byte read as a (signed) `char`. -/
def charValue (c : Nat) : Int :=
  if c < 128 then (c : Int) else (c : Int) - 256

/-- Conversion of an `int` to `char`, given as the byte that represents it. -/
def toChar (x : Int) : Nat :=
  (x % 256).toNat

/-- The term `(data[i] >= 'a' ? 0xa - 'a' : (data[i] >= 'A' ? 0xA - 'A' : 0x0 - '0')) + data[i]`
of `parseHex`. -/
def parseHexTerm (c : Nat) : Int :=
  (if 0x61 ≤ c then (0xa : Int) - 0x61 else if 0x41 ≤ c then (0xA : Int) - 0x41 else (0x0 : Int) - 0x30)
    + (c : Int)

/-- One round of the loop of `parseHex<T>`:
`out |= term << (sizeof(T)*2 - i - 1)*8`, computed on `int` and converted back
to `T` (here `T` is `char`, the only instantiation). -/
def parseHexStep (sizeofT : Nat) (data : List Nat) (out : Nat) (i : Nat) : Nat :=
  toChar (Int.lor (charValue out) (parseHexTerm (data.getD i 0) * 2 ^ ((sizeofT * 2 - i - 1) * 8)))

/-- The function `parseHex<char>(data)`: `i` runs over `0 .. sizeof(T)*2 - 1`. -/
def parseHex (data : List Nat) : Nat :=
  (List.range (1 * 2)).foldl (parseHexStep 1 data) 0

/-! ## Prefix comparison -/

/-- The test `std::strncmp(a, b, n) == 0`: bytes are compared up to `n` of them
or up to a zero byte present in both. A byte missing from a list reads as the
terminating zero of a C string. -/
def strncmpEq : List Nat → List Nat → Nat → Bool
  | _, _, 0 => true
  | a, b, n + 1 =>
    let x := a.headD 0
    let y := b.headD 0
    if x ≠ y then false
    else if x = 0 then true
    else strncmpEq a.tail b.tail n

/-- The function `equalsPrefix(data, prefix)`. -/
def equalsPrefix (data : List Nat) (compare : List Nat) : Bool :=
  strncmpEq data compare data.length

/-- The function `prefix(data, compare)`, `compare` being a string literal of
`n - 1` characters: the position after the literal when `data` starts with it. -/
def prefixMatch (data : Option ArrayReference) (compare : List Nat) : Option Nat :=
  match data with
  | none => none
  | some d =>
    if d.bytes.length < compare.length then none
    else if equalsPrefix (d.bytes.take compare.length) compare then some (d.ptr + compare.length)
    else none

/-- The function `extractWithoutUnderscore(data, buffer)`: the new contents of
the buffer. -/
def extractWithoutUnderscore (data : List Nat) : List Nat :=
  data.filter (fun c => c != 0x5F)

/-- The function `equals(a, b)`. -/
def equals (a b : List Nat) : Bool :=
  a.length == b.length && equalsPrefix a b

/-! ## Whitespace and comments -/

/-- The inner loop of a single-line comment, `j` running from the given
position: the new `i` (after the first line feed) when the loop breaks. -/
def lineCommentEnd : Nat → List Nat → Option Nat
  | _, [] => none
  | j, c :: cs => if c = 0x0A then some (j + 1) else lineCommentEnd (j + 1) cs

/-- The inner loop of a multi-line comment, `j` running from the given
position: the new `i` (after the first `*/`) when the loop breaks. -/
def blockCommentEnd : Nat → List Nat → Option Nat
  | _, [] => none
  | j, c :: cs =>
    if c = 0x2A ∧ cs ≠ [] ∧ cs.headD 0 = 0x2F then some (j + 2) else blockCommentEnd (j + 1) cs

/-- The `while` loop of `whitespace`, at position `i` with the bytes from `i`
to `data.end()`; one unit of fuel per round. When the inner `for` loop of a
comment ends without `break`, `i` is left as it was and the round is run
again. -/
def whitespaceLoop : Nat → Nat → List Nat → Outcome Nat
  | 0, _, _ => Outcome.outOfFuel
  | _ + 1, i, [] => Outcome.ret i
  | fuel + 1, i, c :: cs =>
    if charValue c ≤ 32 then whitespaceLoop fuel (i + 1) cs
    else
      match cs with
      | c1 :: rest =>
        if c = 0x2F ∧ (c1 = 0x2A ∨ c1 = 0x2F) then
          match (if c1 = 0x2F then lineCommentEnd (i + 2) rest else blockCommentEnd (i + 2) rest) with
          | some i' => whitespaceLoop fuel i' ((c :: cs).drop (i' - i))
          | none => whitespaceLoop fuel i (c :: cs)
        else Outcome.ret i
      | [] => Outcome.ret i

/-- The function `whitespace(data)`. -/
def whitespace (fuel : Nat) (data : Option ArrayReference) : Outcome (Option Nat) :=
  match data with
  | none => Outcome.ret none
  | some d => (whitespaceLoop fuel d.ptr d.bytes).bind (fun i => Outcome.ret (some i))

/-! ## Escape sequences -/

/-- The function `escapedChar(data, error)`. -/
def escapedChar (data : Option ArrayReference) (error : ParseError) : Outcome (Parsed Nat) :=
  match data with
  | none => Outcome.assertion
  | some d =>
    match d.bytes with
    | [] => Outcome.assertion
    | c0 :: rest =>
      if c0 ≠ 0x5C then Outcome.assertion
      else
        match rest with
        | [] => Outcome.ret ⟨none, 0, { error := ParseErrorType.InvalidEscapeSequence, position := some d.ptr }⟩
        | c1 :: rest2 =>
          if c1 = 0x5C then Outcome.ret ⟨some (d.ptr + 2), 0x5C, error⟩
          else if c1 = 0x27 then Outcome.ret ⟨some (d.ptr + 2), 0x5C, error⟩
          else if c1 = 0x61 then Outcome.ret ⟨some (d.ptr + 2), 0x07, error⟩
          else if c1 = 0x62 then Outcome.ret ⟨some (d.ptr + 2), 0x08, error⟩
          else if c1 = 0x66 then Outcome.ret ⟨some (d.ptr + 2), 0x0C, error⟩
          else if c1 = 0x6E then Outcome.ret ⟨some (d.ptr + 2), 0x0A, error⟩
          else if c1 = 0x72 then Outcome.ret ⟨some (d.ptr + 2), 0x0D, error⟩
          else if c1 = 0x74 then Outcome.ret ⟨some (d.ptr + 2), 0x09, error⟩
          else if c1 = 0x76 then Outcome.ret ⟨some (d.ptr + 2), 0x0B, error⟩
          else if c1 = 0x3F ∨ c1 = 0x22 then Outcome.ret ⟨some (d.ptr + 2), c1, error⟩
          else if 4 ≤ d.bytes.length ∧ c1 = 0x78 ∧ isBaseN Base.b16 (rest2.getD 0 0) = true
              ∧ isBaseN Base.b16 (rest2.getD 1 0) = true then
            Outcome.ret ⟨some (d.ptr + 4), parseHex rest2, error⟩
          else Outcome.ret ⟨none, 0, { error := ParseErrorType.InvalidEscapeSequence, position := some d.ptr }⟩

/-- The function `escapedUnicode(data, out, error)`: the value of the result is
the string `out` after the call. -/
def escapedUnicode (data : Option ArrayReference) (out : List Nat) (error : ParseError) :
    Outcome (Parsed (List Nat)) :=
  match data with
  | none => Outcome.assertion
  | some d =>
    match d.bytes with
    | [] => Outcome.assertion
    | c0 :: rest =>
      if c0 ≠ 0x5C then Outcome.assertion
      else
        match rest with
        | [] => Outcome.ret ⟨none, out, { error := ParseErrorType.InvalidEscapeSequence, position := some d.ptr }⟩
        | c1 :: _ =>
          if 6 ≤ d.bytes.length ∧ c1 = 0x75 then Outcome.ret ⟨some (d.ptr + 6), out ++ [0x3F], error⟩
          else if 8 ≤ d.bytes.length ∧ c1 = 0x55 then Outcome.ret ⟨some (d.ptr + 8), out ++ [0x3F], error⟩
          else (escapedChar data error).bind (fun r => Outcome.ret ⟨r.pos, out ++ [r.value], r.error⟩)

/-! ## Identifiers, booleans, characters -/

/-- The `for` loop of `identifier`, at position `i` with the bytes from `i` to
`data.end()`. -/
def identifierLoop : Nat → List Nat → Nat
  | i, [] => i
  | i, c :: cs => if !isAlphaDecimal c && c != 0x5F then i else identifierLoop (i + 1) cs

/-- The function `identifier(data, error)`. -/
def identifier (data : Option ArrayReference) (error : ParseError) : Parsed Unit :=
  match data with
  | none => ⟨none, (), error⟩
  | some d =>
    match d.bytes with
    | [] => ⟨none, (), { error := ParseErrorType.ExpectedIdentifier }⟩
    | c :: cs =>
      if !isAlpha c && c != 0x5F then
        ⟨none, (), { error := ParseErrorType.InvalidIdentifier, position := some d.ptr }⟩
      else ⟨some (identifierLoop (d.ptr + 1) cs), (), error⟩

/-- The text `true`. -/
def kwTrue : List Nat := [0x74, 0x72, 0x75, 0x65]

/-- The text `false`. -/
def kwFalse : List Nat := [0x66, 0x61, 0x6C, 0x73, 0x65]

/-- The text `null`. -/
def kwNull : List Nat := [0x6E, 0x75, 0x6C, 0x6C]

/-- The function `boolLiteral(data, error)`. -/
def boolLiteral (data : Option ArrayReference) (error : ParseError) : Parsed Bool :=
  match data with
  | none => ⟨none, false, error⟩
  | some d =>
    match prefixMatch data kwTrue with
    | some e => ⟨some e, true, error⟩
    | none =>
      match prefixMatch data kwFalse with
      | some e => ⟨some e, false, error⟩
      | none => ⟨none, false,
          { error := ParseErrorType.InvalidLiteral, type := some DdlType.Bool, position := some d.ptr }⟩

/-- The statements that end `characterLiteral` when no shape matched:
`error = {InvalidCharacterLiteral, data}; return {}`. -/
def characterLiteralFail (data : Option ArrayReference) : Outcome (Parsed Nat) :=
  Outcome.ret ⟨none, 0,
    { error := ParseErrorType.InvalidCharacterLiteral, position := data.map (fun d => d.ptr) }⟩

/-- The function `characterLiteral(data, error)`. -/
def characterLiteral (data : Option ArrayReference) (error : ParseError) : Outcome (Parsed Nat) :=
  match data with
  | some ⟨p, c0 :: c1 :: c2 :: rest⟩ =>
    if c0 = 0x27 then
      if ((0x20 ≤ c1 ∧ c1 < 0x27) ∨ (0x27 < c1 ∧ c1 < 0x5C) ∨ (0x5C < c1 ∧ c1 ≤ 0x7E)) ∧ c2 = 0x27 then
        Outcome.ret ⟨some (p + 3), c1, error⟩
      else if c1 = 0x5C then
        (escapedChar (some ⟨p + 1, c1 :: c2 :: rest⟩) error).bind (fun r =>
          match r.pos with
          | some i =>
            match (c1 :: c2 :: rest).drop (i - (p + 1)) with
            | q :: _ => if q = 0x27 then Outcome.ret ⟨some (i + 1), r.value, r.error⟩
                else characterLiteralFail data
            | [] => characterLiteralFail data
          | none => characterLiteralFail data)
      else characterLiteralFail data
    else characterLiteralFail data
  | _ => characterLiteralFail data

/-! ## Numeric types and conversions -/

/-- The integer types `integralLiteral` is instantiated for. -/
inductive IntegralT where
  | UnsignedByte
  | Byte
  | UnsignedShort
  | Short
  | UnsignedInt
  | Int
  | UnsignedLong
  | Long
  deriving DecidableEq, Repr

/-- The width of the type in bits. -/
def IntegralT.bits : IntegralT → Nat
  | IntegralT.UnsignedByte => 8
  | IntegralT.Byte => 8
  | IntegralT.UnsignedShort => 16
  | IntegralT.Short => 16
  | IntegralT.UnsignedInt => 32
  | IntegralT.Int => 32
  | IntegralT.UnsignedLong => 64
  | IntegralT.Long => 64

/-- The constant `std::is_signed<T>`. -/
def IntegralT.isSigned : IntegralT → Bool
  | IntegralT.Byte => true
  | IntegralT.Short => true
  | IntegralT.Int => true
  | IntegralT.Long => true
  | _ => false

/-- The constant `std::numeric_limits<T>::max()`. -/
def IntegralT.max (T : IntegralT) : Nat :=
  if T.isSigned then 2 ^ (T.bits - 1) - 1 else 2 ^ T.bits - 1

/-- The function `typeFor<T>()` on the integer types. -/
def IntegralT.typeFor : IntegralT → DdlType
  | IntegralT.UnsignedByte => DdlType.UnsignedByte
  | IntegralT.Byte => DdlType.Byte
  | IntegralT.UnsignedShort => DdlType.UnsignedShort
  | IntegralT.Short => DdlType.Short
  | IntegralT.UnsignedInt => DdlType.UnsignedInt
  | IntegralT.Int => DdlType.Int
  | IntegralT.UnsignedLong => DdlType.UnsignedLong
  | IntegralT.Long => DdlType.Long

/-- Conversion of an integer to `T`: reduction modulo `2 ^ bits`, read as a
two's complement number when `T` is signed. -/
def wrapT (T : IntegralT) (x : Int) : Int :=
  if T.isSigned then (x + 2 ^ (T.bits - 1)) % 2 ^ T.bits - 2 ^ (T.bits - 1)
  else x % 2 ^ T.bits

/-- The floating-point types `floatingPointLiteral` is instantiated for. -/
inductive FloatT where
  | Float
  | Double
  deriving DecidableEq, Repr

/-- The type `IntegralTypeFor<T>`. -/
def FloatT.integralTypeFor : FloatT → IntegralT
  | FloatT.Float => IntegralT.UnsignedInt
  | FloatT.Double => IntegralT.UnsignedLong

/-- The function `typeFor<T>()` on the floating-point types. -/
def FloatT.typeFor : FloatT → DdlType
  | FloatT.Float => DdlType.Float
  | FloatT.Double => DdlType.Double

/-- A floating-point result. The arithmetic of `Float` and `Double` is not
modelled: a value is recorded by how the parser obtains it, either
`sign * reinterpret_cast<T&>(integralValue)` (`fromBits`, `negated` telling
whether `sign` is `-1`) or `ExtractToType<T>::extract(buffer)`, that is
`std::stof` or `std::stod` applied to the text (`fromText`). Which number the
text is converted to is not modelled; whether the conversion throws is, see
`FloatT.extract`. -/
inductive FloatValue where
  | fromBits (negated : Bool) (bits : Nat)
  | fromText (text : List Nat)
  deriving DecidableEq, Repr

/-- The value-initialised `T{}` of a floating-point type: all bits zero. -/
def FloatValue.zero : FloatValue := FloatValue.fromBits false 0

/-- The constant `ULONG_MAX` (64-bit `unsigned long`). -/
def ULONG_MAX : Nat := 2 ^ 64 - 1

/-- The value of a byte as a digit for `strtoul`: `0-9`, then letters of either
case from 10 on. -/
def strtoulDigit (c : Nat) : Option Nat :=
  if 0x30 ≤ c ∧ c ≤ 0x39 then some (c - 0x30)
  else if 0x61 ≤ c ∧ c ≤ 0x7A then some (c - 0x61 + 10)
  else if 0x41 ≤ c ∧ c ≤ 0x5A then some (c - 0x41 + 10)
  else none

/-- The digit loop of `strtoul`: the value of the longest run of digits of the
base at the start of the text, and how many digits were read. -/
def strtoulLoop (base : Nat) : List Nat → Nat → Nat → Nat × Nat
  | [], acc, n => (acc, n)
  | c :: cs, acc, n =>
    match strtoulDigit c with
    | some d => if d < base then strtoulLoop base cs (acc * base + d) (n + 1) else (acc, n)
    | none => (acc, n)

/-- The function `std::stoul(buffer, nullptr, base)`, for the texts
`baseNLiteral` hands to it, which start with neither white space, a sign nor
a base prefix: `std::invalid_argument` when no digit can be read,
`std::out_of_range` when the value does not fit `unsigned long`. -/
def stoul (buffer : List Nat) (base : Nat) : Except StdException Nat :=
  let r := strtoulLoop base buffer 0 0
  if r.2 = 0 then Except.error StdException.invalid_argument
  else if r.1 > ULONG_MAX then Except.error StdException.out_of_range
  else Except.ok r.1

/-- The number of bits of the significand of the type
(`numeric_limits<T>::digits`). -/
def FloatT.digits : FloatT → Nat
  | FloatT.Float => 24
  | FloatT.Double => 53

/-- The exponent `numeric_limits<T>::max_exponent`: the finite values of the
type are below `2 ^ max_exponent`. -/
def FloatT.max_exponent : FloatT → Nat
  | FloatT.Float => 128
  | FloatT.Double => 1024

/-- The exponent `k` for which `2 ^ (-k)` is the least normal number of the
type (`numeric_limits<T>::min()`), that is `1 - min_exponent`. -/
def FloatT.minNormal : FloatT → Nat
  | FloatT.Float => 126
  | FloatT.Double => 1022

/-- The exponent part that `strtof` and `strtod` read after the mantissa: `e`
or `E`, an optional sign and at least one decimal digit; its value, 0 when
there is no such part. -/
def strtodExponent (l : List Nat) : Int :=
  match l with
  | [] => 0
  | c :: tl =>
    if c = 0x65 ∨ c = 0x45 then
      match tl with
      | [] => 0
      | s :: tl2 =>
        if s = 0x2B then ((strtoulLoop 10 tl2 0 0).1 : Int)
        else if s = 0x2D then -((strtoulLoop 10 tl2 0 0).1 : Int)
        else ((strtoulLoop 10 tl 0 0).1 : Int)
    else 0

/-- The decimal number that `strtof` and `strtod` read at the start of a text:
an optional sign, decimal digits with at most one dot among them, and an
exponent part. The result is the number `m` written by all the digits of the
mantissa and the power of ten `e` that goes with it, the value read being
`m * 10 ^ e` up to the sign; `none` when the mantissa has no digit. -/
def strtodScan (text : List Nat) : Option (Nat × Int) :=
  let body : List Nat :=
    match text with
    | [] => []
    | c :: tl => if c = 0x2B ∨ c = 0x2D then tl else c :: tl
  let whole := body.takeWhile (isBaseN Base.b10)
  let r1 := body.drop whole.length
  let fraction : List Nat :=
    match r1 with
    | [] => []
    | c :: tl => if c = 0x2E then tl.takeWhile (isBaseN Base.b10) else []
  let r2 : List Nat :=
    match r1 with
    | [] => []
    | c :: tl => if c = 0x2E then tl.drop fraction.length else c :: tl
  if whole = [] ∧ fraction = [] then none
  else some ((strtoulLoop 10 (whole ++ fraction) 0 0).1,
    strtodExponent r2 - (fraction.length : Int))

/-- Whether `strtof` (for `Float`) or `strtod` (for `Double`) sets `ERANGE` on
the value `m * 10 ^ e`, rounding to nearest: the value rounds to infinity (it
is at least `2 ^ max_exponent - 2 ^ (max_exponent - digits - 1)`), or it is not
zero, rounds to less than the least normal number and is no multiple of the
least subnormal number (the rule of glibc for underflow). -/
def FloatT.rangeError (T : FloatT) (m : Nat) (e : Int) : Bool :=
  let num := if 0 ≤ e then m * 10 ^ e.toNat else m
  let den := if 0 ≤ e then 1 else 10 ^ (-e).toNat
  let overflow :=
    decide ((2 ^ (T.digits + 1) - 1) * 2 ^ T.max_exponent * den ≤ num * 2 ^ (T.digits + 1))
  let tiny :=
    decide (num * 2 ^ (T.minNormal + T.digits + 1) < (2 ^ (T.digits + 1) - 1) * den)
  let inexact := decide (num * 2 ^ (T.minNormal + T.digits - 1) % den ≠ 0)
  overflow || (decide (m ≠ 0) && tiny && inexact)

/-- The function `ExtractToType<T>::extract(buffer)`, that is
`std::stof(buffer)` for `Float` and `std::stod(buffer)` for `Double`, for the
texts `floatingPointLiteral` hands to it, which hold nothing but a sign,
decimal digits, a dot and an exponent part: `std::invalid_argument` when no
number can be read, `std::out_of_range` when `strtof` or `strtod` sets
`ERANGE`. The number returned is kept as the text. -/
def FloatT.extract (T : FloatT) (buffer : List Nat) : Except StdException FloatValue :=
  match strtodScan buffer with
  | none => Except.error StdException.invalid_argument
  | some (m, e) =>
    if T.rangeError m e then Except.error StdException.out_of_range
    else Except.ok (FloatValue.fromText buffer)

/-- The result of a parser that also takes the scratch `buffer`. -/
structure BufParsed (α : Type) where
  pos : Option Nat
  value : α
  buffer : List Nat
  error : ParseError
  deriving DecidableEq, Repr

/-- The result of `integralLiteral`: the tuple (position, value, base), the
scratch buffer and the error slot. -/
structure IntegralResult where
  pos : Option Nat
  value : Int
  base : Int
  buffer : List Nat
  error : ParseError
  deriving DecidableEq, Repr

/-! ## Digit runs -/

/-- The `while` loop of `possiblyNumericCharacters<base>`, at position `i` with
the bytes from `i` to `data.end()`; `first` tells whether `i == data`. -/
def possiblyNumericCharactersLoop (base : Base) : Bool → Nat → List Nat → Nat
  | _, i, [] => i
  | first, i, c :: cs =>
    if isBaseN base c || (!first && c == 0x5F) then possiblyNumericCharactersLoop base false (i + 1) cs
    else i

/-- The function `possiblyNumericCharacters<base>(data)`. -/
def possiblyNumericCharacters (base : Base) (data : Option ArrayReference) : Option Nat :=
  match data with
  | none => none
  | some d => some (possiblyNumericCharactersLoop base true d.ptr d.bytes)

/-- The function `numericCharacters<base, T>(data, error)`; `ty` is
`typeFor<T>()`. -/
def numericCharacters (base : Base) (ty : DdlType) (data : Option ArrayReference)
    (error : ParseError) : Parsed Unit :=
  match data with
  | none => ⟨none, (), error⟩
  | some d =>
    match possiblyNumericCharacters base data with
    | none => ⟨none, (), error⟩
    | some i =>
      if i = d.ptr then
        ⟨none, (), { error := ParseErrorType.InvalidLiteral, type := some ty, position := some d.ptr }⟩
      else ⟨some i, (), error⟩

/-- The function `baseNLiteral<base, T>(data, buffer, error)`. -/
def baseNLiteral (base : Base) (T : IntegralT) (data : Option ArrayReference)
    (buffer : List Nat) (error : ParseError) : Outcome (BufParsed Nat) :=
  match data with
  | none => Outcome.ret ⟨none, 0, buffer, error⟩
  | some d =>
    let n := numericCharacters base T.typeFor data error
    match n.pos with
    | none => Outcome.ret ⟨none, 0, buffer, n.error⟩
    | some i =>
      let buffer' := extractWithoutUnderscore (d.bytes.take (i - d.ptr))
      match stoul buffer' base.toNat with
      | Except.error e => Outcome.throws e
      | Except.ok out =>
        if out > T.max then
          Outcome.ret ⟨none, 0, buffer',
            { error := ParseErrorType.LiteralOutOfRange, type := some T.typeFor, position := some d.ptr }⟩
        else Outcome.ret ⟨some i, out, buffer', n.error⟩

/-! ## Integer literals -/

/-- The part of `integralLiteral` after the sign: `i` is the position after
the sign, `rest` the bytes from `i` to `data.end()`. -/
def integralLiteralBody (T : IntegralT) (sign : Int) (i : Nat) (rest : List Nat)
    (buffer : List Nat) (error : ParseError) : Outcome IntegralResult :=
  let finish (base : Int) (o : Outcome (BufParsed Nat)) : Outcome IntegralResult :=
    o.bind (fun r => Outcome.ret ⟨r.pos, wrapT T (sign * (r.value : Int)), base, r.buffer, r.error⟩)
  let decimal : Outcome IntegralResult :=
    finish 10 (baseNLiteral Base.b10 T (some ⟨i, rest⟩) buffer error)
  match rest with
  | [] => decimal
  | c0 :: tl =>
    if c0 = 0x27 then
      (characterLiteral (some ⟨i, rest⟩) error).bind (fun r =>
        Outcome.ret ⟨r.pos, wrapT T (sign * wrapT T (charValue r.value)), 256, buffer, r.error⟩)
    else
      match tl with
      | [] => decimal
      | c1 :: tl2 =>
        if c0 = 0x30 ∧ isBinaryPrefix c1 = true then
          if c1 = 0x78 ∨ c1 = 0x58 then
            finish 16 (baseNLiteral Base.b16 T (some ⟨i + 2, tl2⟩) buffer error)
          else if c1 = 0x6F ∨ c1 = 0x4F then
            finish 8 (baseNLiteral Base.b8 T (some ⟨i + 2, tl2⟩) buffer error)
          else if c1 = 0x62 ∨ c1 = 0x42 then
            finish 2 (baseNLiteral Base.b2 T (some ⟨i + 2, tl2⟩) buffer error)
          else Outcome.assertion
        else decimal

/-- The function `integralLiteral<T>(data, buffer, error)`. -/
def integralLiteral (T : IntegralT) (data : Option ArrayReference) (buffer : List Nat)
    (error : ParseError) : Outcome IntegralResult :=
  match data with
  | none => Outcome.ret ⟨none, 0, 0, buffer, error⟩
  | some d =>
    match d.bytes with
    | [] => Outcome.ret ⟨none, 0, 0, buffer,
        { error := ParseErrorType.ExpectedLiteral, type := some T.typeFor, position := some d.ptr }⟩
    | c :: cs =>
      if c = 0x2B then integralLiteralBody T 1 (d.ptr + 1) cs buffer error
      else if c = 0x2D then
        if !T.isSigned then
          Outcome.ret ⟨none, 0, 0, buffer,
            { error := ParseErrorType.LiteralOutOfRange, type := some T.typeFor, position := some d.ptr }⟩
        else integralLiteralBody T (-1) (d.ptr + 1) cs buffer error
      else integralLiteralBody T 1 d.ptr (c :: cs) buffer error

/-! ## Floating-point literals -/

/-- The end of `floatingPointLiteral`: `if(!i) return {}`, then the text up to
`i` goes to the buffer without its underscores and is converted by
`ExtractToType<T>::extract`, whose exception leaves the function. -/
def floatingPointFinish (T : FloatT) (d : ArrayReference) (buffer : List Nat)
    (pos : Option Nat) (error : ParseError) : Outcome (BufParsed FloatValue) :=
  match pos with
  | none => Outcome.ret ⟨none, FloatValue.zero, buffer, error⟩
  | some e =>
    let buffer' := extractWithoutUnderscore (d.bytes.take (e - d.ptr))
    match T.extract buffer' with
    | Except.error x => Outcome.throws x
    | Except.ok v => Outcome.ret ⟨some e, v, buffer', error⟩

/-- The exponent part of `floatingPointLiteral` and what follows it: `i` is the
position after the mantissa, `rest` the bytes from `i` to `data.end()`. After
`++i` the byte `*i` is read without a test against `data.end()`. -/
def floatingPointExponent (T : FloatT) (d : ArrayReference) (i : Nat) (rest : List Nat)
    (buffer : List Nat) (error : ParseError) : Outcome (BufParsed FloatValue) :=
  match rest with
  | [] => floatingPointFinish T d buffer (some i) error
  | c :: tl =>
    if c = 0x65 ∨ c = 0x45 then
      match tl with
      | [] => Outcome.undefinedBehaviour
      | s :: tl2 =>
        let n :=
          if s = 0x2B ∨ s = 0x2D then numericCharacters Base.b10 T.typeFor (some ⟨i + 2, tl2⟩) error
          else numericCharacters Base.b10 T.typeFor (some ⟨i + 1, tl⟩) error
        floatingPointFinish T d buffer n.pos n.error
    else floatingPointFinish T d buffer (some i) error

/-- The decimal part of `floatingPointLiteral` (from the comment "Decimal
before dot" on): `i` is the position after the sign, `rest` the bytes from `i`
to `data.end()`. -/
def floatingPointDecimal (T : FloatT) (d : ArrayReference) (i : Nat) (rest : List Nat)
    (buffer : List Nat) (error : ParseError) : Outcome (BufParsed FloatValue) :=
  let invalid : Outcome (BufParsed FloatValue) :=
    Outcome.ret ⟨none, FloatValue.zero, buffer,
      { error := ParseErrorType.InvalidLiteral, type := some T.typeFor, position := some d.ptr }⟩
  let before := i
  let i1 := possiblyNumericCharactersLoop Base.b10 true i rest
  let rest1 := rest.drop (i1 - i)
  match rest1 with
  | c :: c' :: tl =>
    if c = 0x2E then
      let i2 := possiblyNumericCharactersLoop Base.b10 true (i1 + 1) (c' :: tl)
      if before + 1 = i2 then invalid
      else floatingPointExponent T d i2 ((c' :: tl).drop (i2 - (i1 + 1))) buffer error
    else if before = i1 then invalid
    else floatingPointExponent T d i1 rest1 buffer error
  | _ =>
    if before = i1 then invalid
    else floatingPointExponent T d i1 rest1 buffer error

/-- The part of `floatingPointLiteral` after the sign: `i` is the position
after the sign, `rest` the bytes from `i` to `data.end()`; `negated` tells
whether `sign` is `-1`. -/
def floatingPointBody (T : FloatT) (d : ArrayReference) (negated : Bool) (i : Nat)
    (rest : List Nat) (buffer : List Nat) (error : ParseError) : Outcome (BufParsed FloatValue) :=
  let binary (o : Outcome (BufParsed Nat)) : Outcome (BufParsed FloatValue) :=
    o.bind (fun r => Outcome.ret ⟨r.pos, FloatValue.fromBits negated r.value, r.buffer, r.error⟩)
  match rest with
  | c0 :: c1 :: tl2 =>
    if c0 = 0x30 ∧ isBinaryPrefix c1 = true then
      if c1 = 0x78 ∨ c1 = 0x58 then
        binary (baseNLiteral Base.b16 T.integralTypeFor (some ⟨i + 2, tl2⟩) buffer error)
      else if c1 = 0x6F ∨ c1 = 0x4F then
        binary (baseNLiteral Base.b8 T.integralTypeFor (some ⟨i + 2, tl2⟩) buffer error)
      else if c1 = 0x62 ∨ c1 = 0x42 then
        binary (baseNLiteral Base.b2 T.integralTypeFor (some ⟨i + 2, tl2⟩) buffer error)
      else Outcome.assertion
    else floatingPointDecimal T d i rest buffer error
  | _ => floatingPointDecimal T d i rest buffer error

/-- The function `floatingPointLiteral<T>(data, buffer, error)`. -/
def floatingPointLiteral (T : FloatT) (data : Option ArrayReference) (buffer : List Nat)
    (error : ParseError) : Outcome (BufParsed FloatValue) :=
  match data with
  | none => Outcome.ret ⟨none, FloatValue.zero, buffer, error⟩
  | some d =>
    match d.bytes with
    | [] => Outcome.ret ⟨none, FloatValue.zero, buffer,
        { error := ParseErrorType.ExpectedLiteral, type := some DdlType.Float, position := some d.ptr }⟩
    | c :: cs =>
      if c = 0x2B then floatingPointBody T d false (d.ptr + 1) cs buffer error
      else if c = 0x2D then floatingPointBody T d true (d.ptr + 1) cs buffer error
      else floatingPointBody T d false d.ptr (c :: cs) buffer error

/-! ## String, name and reference literals -/

/-- The `for` loop of `stringLiteral`, at position `i` with the bytes from `i`
to `data.end()`, the string `out` built so far and the error slot; one unit of
fuel per round. A null `i` coming back from `escapedUnicode` is compared with
`data.end()` and then read through. -/
def stringLiteralLoop : Nat → Nat → List Nat → List Nat → ParseError → Outcome (Parsed (List Nat))
  | 0, _, _, _, _ => Outcome.outOfFuel
  | _ + 1, _, [], _, _ =>
    Outcome.ret ⟨none, [], { error := ParseErrorType.LiteralOutOfRange, type := some DdlType.String }⟩
  | fuel + 1, i, c :: cs, out, error =>
    if c < 0x20 then
      Outcome.ret ⟨none, [],
        { error := ParseErrorType.InvalidLiteral, type := some DdlType.String, position := some i }⟩
    else if c = 0x5C then
      (escapedUnicode (some ⟨i, c :: cs⟩) out error).bind (fun r =>
        match r.pos with
        | none => Outcome.undefinedBehaviour
        | some i' => stringLiteralLoop fuel i' ((c :: cs).drop (i' - i)) r.value r.error)
    else if c = 0x22 then
      (whitespace fuel (some ⟨i + 1, cs⟩)).bind (fun w =>
        match w with
        | none => Outcome.undefinedBehaviour
        | some j =>
          match cs.drop (j - (i + 1)) with
          | q :: q' :: tl =>
            if q ≠ 0x22 then Outcome.ret ⟨some j, out, error⟩
            else stringLiteralLoop fuel (j + 1) (q' :: tl) out error
          | _ => Outcome.ret ⟨some j, out, error⟩)
    else stringLiteralLoop fuel (i + 1) cs (out ++ [c]) error

/-- The function `stringLiteral(data, error)`. -/
def stringLiteral (fuel : Nat) (data : Option ArrayReference) (error : ParseError) :
    Outcome (Parsed (List Nat)) :=
  match data with
  | none => Outcome.ret ⟨none, [], error⟩
  | some d =>
    match d.bytes with
    | [] => Outcome.ret ⟨none, [],
        { error := ParseErrorType.ExpectedLiteral, type := some DdlType.String, position := some d.ptr }⟩
    | c :: cs =>
      if c ≠ 0x22 then
        Outcome.ret ⟨none, [],
          { error := ParseErrorType.ExpectedLiteral, type := some DdlType.String, position := some d.ptr }⟩
      else stringLiteralLoop fuel (d.ptr + 1) cs [] error

/-- The function `nameLiteral(data, error)`. -/
def nameLiteral (data : Option ArrayReference) (error : ParseError) : Parsed (List Nat) :=
  match data with
  | none => ⟨none, [], error⟩
  | some d =>
    match d.bytes with
    | [] => ⟨none, [], { error := ParseErrorType.ExpectedName, position := some d.ptr }⟩
    | c :: cs =>
      if c ≠ 0x24 ∧ c ≠ 0x25 then
        ⟨none, [], { error := ParseErrorType.InvalidName, position := some d.ptr }⟩
      else
        let r := identifier (some ⟨d.ptr + 1, cs⟩) error
        match r.pos with
        | none => ⟨none, [], r.error⟩
        | some i => ⟨some i, d.bytes.take (i - d.ptr), r.error⟩

/-- The `for` loop of `referenceLiteral`, entered with a non-null `i` and the
bytes from `i` to `data.end()`: the final `i` and the error slot; one unit of
fuel per round. -/
def referenceLiteralLoop : Nat → Nat → List Nat → ParseError → Outcome (Option Nat × ParseError)
  | 0, _, _, _ => Outcome.outOfFuel
  | _ + 1, i, [], error => Outcome.ret (some i, error)
  | fuel + 1, i, c :: cs, error =>
    if c ≠ 0x25 then Outcome.ret (some i, error)
    else
      let r := identifier (some ⟨i + 1, cs⟩) error
      match r.pos with
      | none => Outcome.ret (none, r.error)
      | some i' => referenceLiteralLoop fuel i' (cs.drop (i' - (i + 1))) r.error

/-- The function `referenceLiteral(data, error)`. -/
def referenceLiteral (fuel : Nat) (data : Option ArrayReference) (error : ParseError) :
    Outcome (Parsed (Option ArrayReference)) :=
  match data with
  | none => Outcome.ret ⟨none, none, error⟩
  | some d =>
    match d.bytes with
    | [] => Outcome.ret ⟨none, none,
        { error := ParseErrorType.ExpectedLiteral, type := some DdlType.Reference }⟩
    | c :: cs =>
      match prefixMatch data kwNull with
      | some e => Outcome.ret ⟨some e, none, error⟩
      | none =>
        if c ≠ 0x24 ∧ c ≠ 0x25 then
          Outcome.ret ⟨none, none,
            { error := ParseErrorType.InvalidLiteral, type := some DdlType.Reference, position := some d.ptr }⟩
        else
          let r := identifier (some ⟨d.ptr + 1, cs⟩) error
          let looped : Outcome (Option Nat × ParseError) :=
            match r.pos with
            | none => Outcome.ret (none, r.error)
            | some i => referenceLiteralLoop fuel i (cs.drop (i - (d.ptr + 1))) r.error
          looped.bind (fun l =>
            match l.1 with
            | none => Outcome.ret ⟨none, none, l.2⟩
            | some i => Outcome.ret ⟨some i, some ⟨d.ptr, d.bytes.take (i - d.ptr)⟩, l.2⟩)

/-! ## Type keywords -/

/-- The keywords of `possiblyTypeLiteral` with their types, in the order in
which they are tried. -/
def typeTable : List (List Nat × DdlType) :=
  [
    -- bool
    ([0x62, 0x6F, 0x6F, 0x6C], DdlType.Bool),
    -- unsigned_int8
    ([0x75, 0x6E, 0x73, 0x69, 0x67, 0x6E, 0x65, 0x64, 0x5F, 0x69, 0x6E, 0x74, 0x38], DdlType.UnsignedByte),
    -- int8
    ([0x69, 0x6E, 0x74, 0x38], DdlType.Byte),
    -- unsigned_int16
    ([0x75, 0x6E, 0x73, 0x69, 0x67, 0x6E, 0x65, 0x64, 0x5F, 0x69, 0x6E, 0x74, 0x31, 0x36], DdlType.UnsignedShort),
    -- int16
    ([0x69, 0x6E, 0x74, 0x31, 0x36], DdlType.Short),
    -- unsigned_int32
    ([0x75, 0x6E, 0x73, 0x69, 0x67, 0x6E, 0x65, 0x64, 0x5F, 0x69, 0x6E, 0x74, 0x33, 0x32], DdlType.UnsignedInt),
    -- int32
    ([0x69, 0x6E, 0x74, 0x33, 0x32], DdlType.Int),
    -- unsigned_int64
    ([0x75, 0x6E, 0x73, 0x69, 0x67, 0x6E, 0x65, 0x64, 0x5F, 0x69, 0x6E, 0x74, 0x36, 0x34], DdlType.UnsignedLong),
    -- int64
    ([0x69, 0x6E, 0x74, 0x36, 0x34], DdlType.Long),
    -- float
    ([0x66, 0x6C, 0x6F, 0x61, 0x74], DdlType.Float),
    -- double
    ([0x64, 0x6F, 0x75, 0x62, 0x6C, 0x65], DdlType.Double),
    -- string
    ([0x73, 0x74, 0x72, 0x69, 0x6E, 0x67], DdlType.String),
    -- ref
    ([0x72, 0x65, 0x66], DdlType.Reference),
    -- type
    ([0x74, 0x79, 0x70, 0x65], DdlType.Type_)
  ]

/-- The chain of `prefix` tests of `possiblyTypeLiteral` over a table. -/
def possiblyTypeLiteralFrom (data : Option ArrayReference) :
    List (List Nat × DdlType) → Option Nat × DdlType
  | [] => (none, DdlType.Bool)
  | (k, t) :: more =>
    match prefixMatch data k with
    | some c => (some c, t)
    | none => possiblyTypeLiteralFrom data more

/-- The function `possiblyTypeLiteral(data)`; `return {}` gives a null
position with the first value of `Type`. -/
def possiblyTypeLiteral (data : Option ArrayReference) : Option Nat × DdlType :=
  possiblyTypeLiteralFrom data typeTable

/-- The function `typeLiteral(data, error)`. -/
def typeLiteral (data : Option ArrayReference) (error : ParseError) : Parsed DdlType :=
  match data with
  | none => ⟨none, DdlType.Bool, error⟩
  | some d =>
    match d.bytes with
    | [] => ⟨none, DdlType.Bool,
        { error := ParseErrorType.ExpectedLiteral, type := some DdlType.Type_, position := some d.ptr }⟩
    | _ :: _ =>
      match possiblyTypeLiteral data with
      | (some i, t) => ⟨some i, t, error⟩
      | (none, _) => ⟨none, DdlType.Bool,
          { error := ParseErrorType.InvalidLiteral, type := some DdlType.Type_, position := some d.ptr }⟩

/-! ## Property values -/

/-- The reference parameters of `propertyValue`. -/
structure PropertyOutputs where
  boolValue : Bool
  integerValue : Int
  floatingPointValue : FloatValue
  stringValue : List Nat
  referenceValue : Option ArrayReference
  typeValue : DdlType
  buffer : List Nat
  error : ParseError
  deriving DecidableEq, Repr

/-- The result of `propertyValue`: the returned pair and the reference
parameters after the call. -/
structure PropertyResult where
  pos : Option Nat
  tag : InternalPropertyType
  out : PropertyOutputs
  deriving DecidableEq, Repr

/-- The `for` loop of the numeric branch of `propertyValue`: `true` when it
meets a dot, `false` when it breaks or reaches `data.end()`. -/
def floatScan : List Nat → Bool
  | [] => false
  | c :: cs =>
    if c = 0x2E then true
    else if c ≠ 0x2B ∧ c ≠ 0x2D ∧ c ≠ 0x5F ∧ isBaseN Base.b10 c = false then false
    else floatScan cs

/-- The function `propertyValue(data, boolValue, integerValue,
floatingPointValue, stringValue, referenceValue, typeValue, buffer, error)`;
`return {}` gives a null position with the first value of
`InternalPropertyType`. -/
def propertyValue (fuel : Nat) (data : Option ArrayReference) (o : PropertyOutputs) :
    Outcome PropertyResult :=
  match data with
  | none => Outcome.ret ⟨none, InternalPropertyType.Bool, o⟩
  | some d =>
    match d.bytes with
    | [] => Outcome.ret ⟨none, InternalPropertyType.Bool,
        { o with error := { error := ParseErrorType.ExpectedPropertyValue } }⟩
    | c :: _ =>
      if c = 0x22 then
        (stringLiteral fuel data o.error).bind (fun r =>
          Outcome.ret ⟨r.pos, InternalPropertyType.String,
            { o with stringValue := r.value, error := r.error }⟩)
      else if c = 0x25 ∨ c = 0x24 then
        (referenceLiteral fuel data o.error).bind (fun r =>
          Outcome.ret ⟨r.pos, InternalPropertyType.Reference,
            { o with referenceValue := r.value, error := r.error }⟩)
      else if (0x30 ≤ c ∧ c ≤ 0x39) ∨ c = 0x2E ∨ c = 0x27 then
        if floatScan d.bytes = true then
          (floatingPointLiteral FloatT.Float data o.buffer o.error).bind (fun r =>
            Outcome.ret ⟨r.pos, InternalPropertyType.Float,
              { o with floatingPointValue := r.value, buffer := r.buffer, error := r.error }⟩)
        else
          (integralLiteral IntegralT.Int data o.buffer o.error).bind (fun r =>
            let o' : PropertyOutputs :=
              { o with integerValue := r.value, buffer := r.buffer, error := r.error }
            if r.base = 2 ∨ r.base = 8 ∨ r.base = 16 then
              Outcome.ret ⟨r.pos, InternalPropertyType.Binary, o'⟩
            else if r.base = 10 then Outcome.ret ⟨r.pos, InternalPropertyType.Integral, o'⟩
            else if r.base = 256 then Outcome.ret ⟨r.pos, InternalPropertyType.Character, o'⟩
            else Outcome.assertion)
      else
        match prefixMatch data kwNull with
        | some e => Outcome.ret ⟨some e, InternalPropertyType.Reference, { o with stringValue := kwNull }⟩
        | none =>
          match prefixMatch data kwTrue with
          | some e => Outcome.ret ⟨some e, InternalPropertyType.Bool, { o with boolValue := true }⟩
          | none =>
            match prefixMatch data kwFalse with
            | some e => Outcome.ret ⟨some e, InternalPropertyType.Bool, { o with boolValue := false }⟩
            | none =>
              match possiblyTypeLiteral data with
              | (some i, t) => Outcome.ret ⟨some i, InternalPropertyType.Type_, { o with typeValue := t }⟩
              | (none, t) => Outcome.ret ⟨none, InternalPropertyType.Bool,
                  { o with typeValue := t,
                           error := { error := ParseErrorType.InvalidPropertyValue, position := some d.ptr } }⟩

/-! ## Vocabulary of the statements -/

/-- A digit run of the base: it starts with a digit of the base and goes on
with digits and underscores. -/
def isDigitRun (base : Base) (run : List Nat) : Bool :=
  match run with
  | [] => false
  | d :: ds => isBaseN base d && ds.all (fun c => isBaseN base c || c == 0x5F)

/-- The value of a digit `0-9`, `a-f`, `A-F`. -/
def digitValue (c : Nat) : Nat :=
  if c ≤ 0x39 then c - 0x30 else if c ≤ 0x46 then c - 0x41 + 10 else c - 0x61 + 10

/-- The positional value of a digit run in the base, underscores ignored. -/
def positionalValue (base : Nat) (run : List Nat) : Nat :=
  run.foldl (fun v c => if c = 0x5F then v else v * base + digitValue c) 0

/-- The prefix that announces the base: none for 10, `0x 0o 0b` in either case
for 16, 8, 2. -/
def basePrefix (base : Base) (upper : Bool) : List Nat :=
  match base with
  | Base.b10 => []
  | Base.b16 => [0x30, if upper then 0x58 else 0x78]
  | Base.b8 => [0x30, if upper then 0x4F else 0x6F]
  | Base.b2 => [0x30, if upper then 0x42 else 0x62]

/-- The factor a sign text stands for: `-1` for `-`, `1` for `+` or no sign. -/
def signValue (sgn : List Nat) : Int :=
  if sgn = [0x2D] then -1 else 1

/-- The bytes over which the numeric branch of the dispatcher scans on: decimal
digits, `+`, `-` and `_`. -/
def inScanSet (c : Nat) : Bool :=
  isBaseN Base.b10 c || c == 0x2B || c == 0x2D || c == 0x5F

/-- The tag the dispatcher gives to a detected base: `Binary` for 2, 8 and 16,
`Integral` for 10, `Character` for 256. -/
def tagOfBase (base : Int) : Option InternalPropertyType :=
  if base = 2 ∨ base = 8 ∨ base = 16 then some InternalPropertyType.Binary
  else if base = 10 then some InternalPropertyType.Integral
  else if base = 256 then some InternalPropertyType.Character
  else none

/-- Whether the first byte of a text is there and satisfies the test. -/
def headIs (l : List Nat) (f : Nat → Bool) : Bool :=
  match l with
  | [] => false
  | c :: _ => f c

/-- Whether a text (after the sign) starts with `0` and one of `b o x B O X`. -/
def hasBasePrefix (l : List Nat) : Bool :=
  match l with
  | c0 :: c1 :: _ => c0 == 0x30 && isBinaryPrefix c1
  | _ => false

/-- The text after the digits before the dot: the dot, the digits after it and
the rest when there is a dot, the rest alone otherwise. -/
def afterDigits (dot : Bool) (D2 rest : List Nat) : List Nat :=
  if dot then 0x2E :: (D2 ++ rest) else rest

/-- The decomposition of the text of a decimal floating-point literal: `sgn` is
the optional sign, `D1` the digit run before the dot (possibly empty), `dot`
tells whether a dot follows, `D2` is the digit run after the dot (possibly
empty, and empty without a dot), `rest` is what follows. The runs are the
longest ones: `rest` does not start with a digit, nor with an underscore after
a non-empty run; without a dot `rest` does not start with a dot; and when
`sgn` and `D1` are empty and there is no dot, `rest` does not start with a
sign. -/
def isFloatShape (sgn D1 : List Nat) (dot : Bool) (D2 rest : List Nat) : Bool :=
  (sgn == [] || sgn == [0x2B] || sgn == [0x2D])
  && (D1 == [] || isDigitRun Base.b10 D1)
  && (D2 == [] || isDigitRun Base.b10 D2)
  && (dot || D2 == [])
  && !(headIs rest (isBaseN Base.b10))
  && ((if dot then D2 else D1) == [] || !(headIs rest (fun c => c == 0x5F)))
  && (dot || !(headIs rest (fun c => c == 0x2E)))
  && (!(sgn == [] && D1 == [] && !dot) || !(headIs rest (fun c => c == 0x2B || c == 0x2D)))

/-- The position at which the mantissa of a decomposed decimal literal ends,
counted from the start of the text: after `D1`, and after the dot and `D2`
when the dot is followed by at least one byte. -/
def mantissaEnd (sgn D1 : List Nat) (dot : Bool) (D2 rest : List Nat) : Nat :=
  sgn.length + D1.length + (if dot = true ∧ D2 ++ rest ≠ [] then 1 + D2.length else 0)

/-- The bytes that may start an identifier: ASCII letters and `_`. -/
def isIdentStart (c : Nat) : Bool :=
  (decide (0x41 ≤ c) && decide (c ≤ 0x5A)) || (decide (0x61 ≤ c) && decide (c ≤ 0x7A)) || c == 0x5F

/-- The bytes of the set `[A-Za-z0-9_]`. -/
def isIdentByte (c : Nat) : Bool :=
  isIdentStart c || (decide (0x30 ≤ c) && decide (c ≤ 0x39))

/-- The two-character escapes: the byte after the backslash and the character
it stands for, in the order `\\ \' \a \b \f \n \r \t \v \? \"`. -/
def simpleEscapes : List (Nat × Nat) :=
  [(0x5C, 0x5C), (0x27, 0x5C), (0x61, 0x07), (0x62, 0x08), (0x66, 0x0C), (0x6E, 0x0A),
   (0x72, 0x0D), (0x74, 0x09), (0x76, 0x0B), (0x3F, 0x3F), (0x22, 0x22)]

/-- Whether a text starts with two hex digits. -/
def startsWithTwoHexDigits (l : List Nat) : Bool :=
  match l with
  | h :: l :: _ => isBaseN Base.b16 h && isBaseN Base.b16 l
  | _ => false

/-- The text of an identifier: a letter or `_`, then bytes of `[A-Za-z0-9_]`. -/
def isIdentifierText (s : List Nat) : Bool :=
  match s with
  | [] => false
  | c :: cs => isIdentStart c && cs.all isIdentByte

/-- The text of a chain of path segments, each a `%` and an identifier. -/
def segments : List (List Nat) → List Nat
  | [] => []
  | id :: more => 0x25 :: (id ++ segments more)

/-- The longest prefix of a text that starts with a digit of the base and goes
on with digits of the base and underscores; empty when the text does not start
with a digit. -/
def digitRunOf (base : Base) (l : List Nat) : List Nat :=
  match l with
  | [] => []
  | c :: cs =>
    if isBaseN base c then c :: cs.takeWhile (fun x => isBaseN base x || x == 0x5F) else []

/-- Whether the last byte of a text is there and is a digit of the base. -/
def endsWithDigit (base : Base) (l : List Nat) : Bool :=
  match l.getLast? with
  | none => false
  | some c => isBaseN base c

/-- What holds of a call: the property of the value on a normal return, and no
failed assertion. A throw, a read outside the data and an exhausted fuel
satisfy it. -/
def Outcome.Sat {α : Type} (P : α → Prop) : Outcome α → Prop
  | Outcome.ret a => P a
  | Outcome.assertion => False
  | _ => True

/-- The two ways a parser ends on a view of `len` bytes at `start` with the
error slot `error`: the null position with an error kind in the slot, or a
position after `start` and not after the end of the view with the slot as it
was. -/
def Advances (start len : Nat) (error : ParseError) (pos : Option Nat) (err : ParseError) :
    Prop :=
  match pos with
  | none => err.error ≠ ParseErrorType.NoError
  | some e => start < e ∧ e ≤ start + len ∧ err = error

/-! ## Digit runs -/

theorem isBaseN_strtoulDigit (base : Base) (c : Nat) (h : isBaseN base c = true) :
    strtoulDigit c = some (digitValue c) ∧ digitValue c < base.toNat := by
  have hc : (0x30 ≤ c ∧ c ≤ 0x39 ∧ (base = Base.b2 → c ≤ 0x31) ∧ (base = Base.b8 → c ≤ 0x37))
      ∨ (base = Base.b16 ∧ 0x61 ≤ c ∧ c ≤ 0x66) ∨ (base = Base.b16 ∧ 0x41 ≤ c ∧ c ≤ 0x46) := by
    cases base <;> simp [isBaseN] at h ⊢ <;> omega
  unfold strtoulDigit digitValue
  rcases hc with ⟨h1, h2, h3, h4⟩ | ⟨rfl, h1, h2⟩ | ⟨rfl, h1, h2⟩
  · rw [if_pos ⟨h1, h2⟩, if_pos h2]
    refine ⟨rfl, ?_⟩
    cases base <;> simp [Base.toNat] at h3 h4 ⊢ <;> omega
  · rw [if_neg (by omega), if_pos ⟨h1, by omega⟩, if_neg (by omega), if_neg (by omega)]
    refine ⟨rfl, ?_⟩
    simp [Base.toNat]; omega
  · rw [if_neg (by omega), if_neg (by omega), if_pos ⟨h1, by omega⟩, if_neg (by omega), if_pos h2]
    refine ⟨rfl, ?_⟩
    simp [Base.toNat]; omega

theorem isBaseN_ne_underscore (base : Base) (c : Nat) (h : isBaseN base c = true) : c ≠ 0x5F := by
  cases base <;> simp [isBaseN] at h <;> omega

theorem extractWithoutUnderscore_cons_digit (base : Base) (c : Nat) (cs : List Nat)
    (h : isBaseN base c = true) :
    extractWithoutUnderscore (c :: cs) = c :: extractWithoutUnderscore cs := by
  have := isBaseN_ne_underscore base c h
  simp [extractWithoutUnderscore, List.filter_cons, this]

theorem extractWithoutUnderscore_cons_underscore (cs : List Nat) :
    extractWithoutUnderscore (0x5F :: cs) = extractWithoutUnderscore cs := by
  simp [extractWithoutUnderscore, List.filter_cons]

theorem strtoulLoop_extract (base : Base) (ds : List Nat)
    (h : ∀ c ∈ ds, isBaseN base c = true ∨ c = 0x5F) (acc n : Nat) :
    strtoulLoop base.toNat (extractWithoutUnderscore ds) acc n
      = (ds.foldl (fun v c => if c = 0x5F then v else v * base.toNat + digitValue c) acc,
         n + (extractWithoutUnderscore ds).length) := by
  induction ds generalizing acc n with
  | nil => simp [extractWithoutUnderscore, strtoulLoop]
  | cons c cs ih =>
    have hcs : ∀ c ∈ cs, isBaseN base c = true ∨ c = 0x5F := fun x hx => h x (List.mem_cons_of_mem _ hx)
    rcases h c (List.mem_cons_self _ _) with hc | hc
    · obtain ⟨h1, h2⟩ := isBaseN_strtoulDigit base c hc
      have h3 := isBaseN_ne_underscore base c hc
      rw [extractWithoutUnderscore_cons_digit base c cs hc]
      simp only [strtoulLoop, h1, h2, if_true, List.foldl_cons, if_neg h3, List.length_cons]
      rw [ih hcs]
      congr 1
      omega
    · subst hc
      rw [extractWithoutUnderscore_cons_underscore]
      simp only [List.foldl_cons, if_true]
      exact ih hcs _ _

theorem possiblyNumericCharactersLoop_tail (base : Base) (ds rest : List Nat)
    (h : ∀ c ∈ ds, isBaseN base c = true ∨ c = 0x5F)
    (hrest : ∀ c, rest.head? = some c → isBaseN base c = false ∧ c ≠ 0x5F) (i : Nat) :
    possiblyNumericCharactersLoop base false i (ds ++ rest) = i + ds.length := by
  induction ds generalizing i with
  | nil =>
    cases rest with
    | nil => simp [possiblyNumericCharactersLoop]
    | cons c cs =>
      obtain ⟨h1, h2⟩ := hrest c rfl
      simp [possiblyNumericCharactersLoop, h1, h2]
  | cons c cs ih =>
    have hcs : ∀ c ∈ cs, isBaseN base c = true ∨ c = 0x5F := fun x hx => h x (List.mem_cons_of_mem _ hx)
    have hc : (isBaseN base c || (!false && c == 0x5F)) = true := by
      rcases h c (List.mem_cons_self _ _) with hc | hc <;> simp [hc]
    rw [List.cons_append, possiblyNumericCharactersLoop, if_pos hc, ih hcs, List.length_cons]
    omega

theorem isDigitRun_cons (base : Base) (run : List Nat) (h : isDigitRun base run = true) :
    ∃ d ds, run = d :: ds ∧ isBaseN base d = true ∧ ∀ c ∈ ds, isBaseN base c = true ∨ c = 0x5F := by
  cases run with
  | nil => simp [isDigitRun] at h
  | cons d ds =>
    simp only [isDigitRun, Bool.and_eq_true, List.all_eq_true, Bool.or_eq_true, beq_iff_eq] at h
    exact ⟨d, ds, rfl, h.1, h.2⟩

theorem possiblyNumericCharactersLoop_run (base : Base) (run rest : List Nat)
    (h : isDigitRun base run = true)
    (hrest : ∀ c, rest.head? = some c → isBaseN base c = false ∧ c ≠ 0x5F) (i : Nat) :
    possiblyNumericCharactersLoop base true i (run ++ rest) = i + run.length := by
  obtain ⟨d, ds, rfl, hd, hds⟩ := isDigitRun_cons base run h
  have hc : (isBaseN base d || (!true && d == 0x5F)) = true := by simp [hd]
  rw [List.cons_append, possiblyNumericCharactersLoop, if_pos hc,
    possiblyNumericCharactersLoop_tail base ds rest hds hrest, List.length_cons]
  omega

theorem possiblyNumericCharactersLoop_stop (base : Base) (rest : List Nat)
    (hrest : ∀ c, rest.head? = some c → isBaseN base c = false) (i : Nat) :
    possiblyNumericCharactersLoop base true i rest = i := by
  cases rest with
  | nil => simp [possiblyNumericCharactersLoop]
  | cons c cs => simp [possiblyNumericCharactersLoop, hrest c rfl]

theorem stoul_run (base : Base) (run : List Nat) (h : isDigitRun base run = true) :
    stoul (extractWithoutUnderscore run) base.toNat
      = if positionalValue base.toNat run > ULONG_MAX then Except.error StdException.out_of_range
        else Except.ok (positionalValue base.toNat run) := by
  obtain ⟨d, ds, rfl, hd, hds⟩ := isDigitRun_cons base run h
  have hall : ∀ c ∈ d :: ds, isBaseN base c = true ∨ c = 0x5F := by
    intro c hc
    rcases List.mem_cons.1 hc with rfl | hc
    · exact Or.inl hd
    · exact hds c hc
  unfold stoul
  rw [strtoulLoop_extract base (d :: ds) hall 0 0]
  rw [extractWithoutUnderscore_cons_digit base d ds hd]
  simp [positionalValue]

/-- What `baseNLiteral` does on a view that starts with a digit run followed by
a byte that does not continue it. -/
theorem baseNLiteral_run (base : Base) (T : IntegralT) (p : Nat) (run rest : List Nat)
    (buffer : List Nat) (error : ParseError) (h : isDigitRun base run = true)
    (hrest : ∀ c, rest.head? = some c → isBaseN base c = false ∧ c ≠ 0x5F) :
    baseNLiteral base T (some ⟨p, run ++ rest⟩) buffer error
      = if positionalValue base.toNat run > ULONG_MAX then Outcome.throws StdException.out_of_range
        else if positionalValue base.toNat run > T.max then
          Outcome.ret ⟨none, 0, extractWithoutUnderscore run,
            { error := ParseErrorType.LiteralOutOfRange, type := some T.typeFor, position := some p }⟩
        else Outcome.ret ⟨some (p + run.length), positionalValue base.toNat run,
            extractWithoutUnderscore run, error⟩ := by
  have hlen : 0 < run.length := by
    obtain ⟨d, ds, rfl, -, -⟩ := isDigitRun_cons base run h
    simp
  have hne : ¬ (p + run.length = p) := by omega
  simp only [baseNLiteral, numericCharacters, possiblyNumericCharacters,
    possiblyNumericCharactersLoop_run base run rest h hrest, hne, if_false,
    Nat.add_sub_cancel_left, List.take_left', stoul_run base run h]
  split_ifs <;> simp [*]

theorem wrapT_zero (T : IntegralT) : wrapT T 0 = 0 := by
  cases T <;> simp [wrapT, IntegralT.isSigned, IntegralT.bits]

theorem wrapT_of_le_max (T : IntegralT) (sign : Int) (v : Nat)
    (hs : sign = 1 ∨ (sign = -1 ∧ T.isSigned = true)) (hv : v ≤ T.max) :
    wrapT T (sign * (v : Int)) = sign * (v : Int) := by
  rcases hs with rfl | ⟨rfl, hT⟩
  · cases T <;> simp [wrapT, IntegralT.isSigned, IntegralT.bits, IntegralT.max] at hv ⊢ <;> omega
  · cases T <;> simp [wrapT, IntegralT.isSigned, IntegralT.bits, IntegralT.max] at hv hT ⊢ <;> omega

theorem bind_ret {α β : Type} (a : α) (f : α → Outcome β) : (Outcome.ret a).bind f = f a := rfl

theorem bind_throws {α β : Type} (e : StdException) (f : α → Outcome β) :
    (Outcome.throws e : Outcome α).bind f = Outcome.throws e := rfl

/-- What the part of `integralLiteral` after the sign does on a base prefix
followed by a digit run that ends the input. -/
theorem integralLiteralBody_run (T : IntegralT) (sign : Int) (i : Nat) (b : Base) (upper : Bool)
    (run buffer : List Nat) (error : ParseError) (h : isDigitRun b run = true) :
    integralLiteralBody T sign i (basePrefix b upper ++ run) buffer error
      = if positionalValue b.toNat run > ULONG_MAX then Outcome.throws StdException.out_of_range
        else if positionalValue b.toNat run > T.max then
          Outcome.ret ⟨none, 0, (b.toNat : Int), extractWithoutUnderscore run,
            { error := ParseErrorType.LiteralOutOfRange, type := some T.typeFor,
              position := some (i + (basePrefix b upper).length) }⟩
        else Outcome.ret ⟨some (i + (basePrefix b upper ++ run).length),
            wrapT T (sign * (positionalValue b.toNat run : Int)), (b.toNat : Int),
            extractWithoutUnderscore run, error⟩ := by
  have hnil : ∀ c, ([] : List Nat).head? = some c → isBaseN b c = false ∧ c ≠ 0x5F := by simp
  have key := fun q => baseNLiteral_run b T q run [] buffer error h hnil
  simp only [List.append_nil] at key
  cases b
  case b10 =>
    obtain ⟨d, ds, rfl, hd, hds⟩ := isDigitRun_cons _ run h
    have hd' : d ≠ 0x27 := by simp [isBaseN] at hd; omega
    have hpre : ∀ c1 tl2, ds = c1 :: tl2 → ¬ (d = 0x30 ∧ isBinaryPrefix c1 = true) := by
      rintro c1 tl2 rfl ⟨-, hb⟩
      rcases hds c1 (List.mem_cons_self _ _) with hc | hc
      · simp [isBaseN] at hc; simp [isBinaryPrefix] at hb; omega
      · subst hc; simp [isBinaryPrefix] at hb
    simp only [basePrefix, List.nil_append, integralLiteralBody, if_neg hd']
    cases ds with
    | nil =>
      simp only [key]
      split_ifs <;> simp [bind_ret, bind_throws, wrapT_zero, Base.toNat]
    | cons c1 tl2 =>
      simp only [if_neg (hpre c1 tl2 rfl), key]
      split_ifs <;> simp [bind_ret, bind_throws, wrapT_zero, Base.toNat]
  all_goals
    cases upper <;>
    simp [basePrefix, integralLiteralBody, isBinaryPrefix, key] <;>
    split_ifs <;> simp [bind_ret, bind_throws, wrapT_zero, Base.toNat] <;> omega

theorem basePrefix_run_cons (b : Base) (upper : Bool) (run : List Nat) (h : isDigitRun b run = true) :
    ∃ c cs, basePrefix b upper ++ run = c :: cs ∧ c ≠ 0x2B ∧ c ≠ 0x2D := by
  obtain ⟨d, ds, rfl, hd, -⟩ := isDigitRun_cons b run h
  cases b
  case b10 =>
    refine ⟨d, ds, rfl, ?_, ?_⟩ <;> simp [isBaseN] at hd <;> omega
  all_goals exact ⟨0x30, _, rfl, by decide, by decide⟩

/-- What `integralLiteral` does on an optional sign, a base prefix and a digit
run that ends the input. -/
theorem integralLiteral_run (T : IntegralT) (p : Nat) (sgn : List Nat) (b : Base) (upper : Bool)
    (run buffer : List Nat) (error : ParseError)
    (hsgn : sgn = [] ∨ sgn = [0x2B] ∨ (sgn = [0x2D] ∧ T.isSigned = true))
    (h : isDigitRun b run = true) :
    integralLiteral T (some ⟨p, sgn ++ basePrefix b upper ++ run⟩) buffer error
      = if positionalValue b.toNat run > ULONG_MAX then Outcome.throws StdException.out_of_range
        else if positionalValue b.toNat run > T.max then
          Outcome.ret ⟨none, 0, (b.toNat : Int), extractWithoutUnderscore run,
            { error := ParseErrorType.LiteralOutOfRange, type := some T.typeFor,
              position := some (p + sgn.length + (basePrefix b upper).length) }⟩
        else Outcome.ret ⟨some (p + (sgn ++ basePrefix b upper ++ run).length),
            signValue sgn * (positionalValue b.toNat run : Int), (b.toNat : Int),
            extractWithoutUnderscore run, error⟩ := by
  rcases hsgn with rfl | rfl | ⟨rfl, hT⟩
  · obtain ⟨c, cs, hcs, h1, h2⟩ := basePrefix_run_cons b upper run h
    have hw := fun hv => wrapT_of_le_max T 1 (positionalValue b.toNat run) (Or.inl rfl) hv
    unfold integralLiteral
    simp only [List.nil_append, hcs, if_neg h1, if_neg h2]
    rw [← hcs, integralLiteralBody_run T 1 p b upper run buffer error h]
    split_ifs with h3 h4
    · rfl
    · simp
    · rw [hw (by omega)]; simp [signValue]
  · have hw := fun hv => wrapT_of_le_max T 1 (positionalValue b.toNat run) (Or.inl rfl) hv
    unfold integralLiteral
    simp only [List.cons_append, List.nil_append, if_true]
    rw [integralLiteralBody_run T 1 (p + 1) b upper run buffer error h]
    split_ifs with h3 h4
    · rfl
    · simp
    · rw [hw (by omega)]; simp [signValue]; omega
  · have hw := fun hv => wrapT_of_le_max T (-1) (positionalValue b.toNat run) (Or.inr ⟨rfl, hT⟩) hv
    unfold integralLiteral
    simp only [List.cons_append, List.nil_append, hT, Bool.not_true, Bool.false_eq_true,
      if_false, if_true, show ¬ ((0x2D : Nat) = 0x2B) by decide]
    rw [integralLiteralBody_run T (-1) (p + 1) b upper run buffer error h]
    split_ifs with h3 h4
    · rfl
    · simp
    · rw [hw (by omega)]; simp [signValue]; omega

/-- C1. For every base in {2, 8, 10, 16}, every integer target type and every
input made of an optional `+`, the prefix of the base and a digit run of the
base (first a digit, then digits and underscores) whose positional value does
not exceed the maximum of the target type, `integralLiteral` returns the
position just after the run, the positional value and the base, leaves the
error slot as it was and leaves the run without its underscores in the
buffer. -/
theorem integralLiteral_digit_run (T : IntegralT) (p : Nat) (sgn : List Nat) (b : Base)
    (upper : Bool) (run buffer : List Nat) (error : ParseError)
    (hsgn : sgn = [] ∨ sgn = [0x2B]) (hrun : isDigitRun b run = true)
    (hv : positionalValue b.toNat run ≤ T.max) :
    integralLiteral T (some ⟨p, sgn ++ basePrefix b upper ++ run⟩) buffer error
      = Outcome.ret ⟨some (p + (sgn ++ basePrefix b upper ++ run).length),
          (positionalValue b.toNat run : Int), (b.toNat : Int),
          extractWithoutUnderscore run, error⟩ := by
  have hmax : T.max ≤ ULONG_MAX := by cases T <;> decide
  have hs : sgn = [] ∨ sgn = [0x2B] ∨ (sgn = [0x2D] ∧ T.isSigned = true) := by
    rcases hsgn with h | h
    · exact Or.inl h
    · exact Or.inr (Or.inl h)
  have hone : signValue sgn = 1 := by rcases hsgn with rfl | rfl <;> decide
  rw [integralLiteral_run T p sgn b upper run buffer error hs hrun,
    if_neg (by omega), if_neg (by omega), hone, one_mul]

/-- Witnesses of C1: `0x1F`, `0b101`, `0o17`, `123` and `1_000` parsed into
`Int` give 31 (base 16), 5 (base 2), 15 (base 8), 123 and 1000 (base 10). -/
theorem integralLiteral_digit_run_witness :
    integralLiteral IntegralT.Int (some ⟨0, [0x30, 0x78, 0x31, 0x46]⟩) [] {}
        = Outcome.ret ⟨some 4, 31, 16, [0x31, 0x46], {}⟩
    ∧ integralLiteral IntegralT.Int (some ⟨0, [0x30, 0x62, 0x31, 0x30, 0x31]⟩) [] {}
        = Outcome.ret ⟨some 5, 5, 2, [0x31, 0x30, 0x31], {}⟩
    ∧ integralLiteral IntegralT.Int (some ⟨0, [0x30, 0x6F, 0x31, 0x37]⟩) [] {}
        = Outcome.ret ⟨some 4, 15, 8, [0x31, 0x37], {}⟩
    ∧ integralLiteral IntegralT.Int (some ⟨0, [0x31, 0x32, 0x33]⟩) [] {}
        = Outcome.ret ⟨some 3, 123, 10, [0x31, 0x32, 0x33], {}⟩
    ∧ integralLiteral IntegralT.Int (some ⟨0, [0x31, 0x5F, 0x30, 0x30, 0x30]⟩) [] {}
        = Outcome.ret ⟨some 5, 1000, 10, [0x31, 0x30, 0x30, 0x30], {}⟩ :=
  ⟨integralLiteral_digit_run IntegralT.Int 0 [] Base.b16 false [0x31, 0x46] [] {}
      (Or.inl rfl) (by decide) (by decide),
   integralLiteral_digit_run IntegralT.Int 0 [] Base.b2 false [0x31, 0x30, 0x31] [] {}
      (Or.inl rfl) (by decide) (by decide),
   integralLiteral_digit_run IntegralT.Int 0 [] Base.b8 false [0x31, 0x37] [] {}
      (Or.inl rfl) (by decide) (by decide),
   integralLiteral_digit_run IntegralT.Int 0 [] Base.b10 false [0x31, 0x32, 0x33] [] {}
      (Or.inl rfl) (by decide) (by decide),
   integralLiteral_digit_run IntegralT.Int 0 [] Base.b10 false [0x31, 0x5F, 0x30, 0x30, 0x30] [] {}
      (Or.inl rfl) (by decide) (by decide)⟩

/-- Where `std::stoul` can represent the value of the run, `integralLiteral`
into an unsigned target reports a value above the maximum of the target as
`LiteralOutOfRange`. -/
theorem integralLiteral_above_max (T : IntegralT) (p : Nat) (sgn : List Nat) (b : Base)
    (upper : Bool) (run buffer : List Nat) (error : ParseError)
    (hsgn : sgn = [] ∨ sgn = [0x2B]) (hrun : isDigitRun b run = true)
    (hv : T.max < positionalValue b.toNat run) (hul : positionalValue b.toNat run ≤ ULONG_MAX) :
    integralLiteral T (some ⟨p, sgn ++ basePrefix b upper ++ run⟩) buffer error
      = Outcome.ret ⟨none, 0, (b.toNat : Int), extractWithoutUnderscore run,
          { error := ParseErrorType.LiteralOutOfRange, type := some T.typeFor,
            position := some (p + sgn.length + (basePrefix b upper).length) }⟩ := by
  have hs : sgn = [] ∨ sgn = [0x2B] ∨ (sgn = [0x2D] ∧ T.isSigned = true) := by
    rcases hsgn with h | h
    · exact Or.inl h
    · exact Or.inr (Or.inl h)
  rw [integralLiteral_run T p sgn b upper run buffer error hs hrun,
    if_neg (by omega), if_pos (by omega)]

/-- C2, at the failing input. The run of twenty digits `9` has a value above
`2 ^ 8 - 1`, and `integralLiteral<UnsignedByte>` on it does not return: the
exception `std::out_of_range` of `std::stoul` leaves the function, and no
`LiteralOutOfRange` is written. -/
theorem integralLiteral_stoul_overflow :
    2 ^ 8 - 1 < positionalValue 10 (List.replicate 20 0x39)
    ∧ integralLiteral IntegralT.UnsignedByte (some ⟨0, List.replicate 20 0x39⟩) []
        ({} : ParseError) = Outcome.throws StdException.out_of_range := by
  decide

/-- Counterexample to C3: the magnitude 200 is within the unsigned capacity
`2 ^ 8 - 1` of the 8-bit width, and `integralLiteral<Byte>` on `200` fails with
`LiteralOutOfRange`. -/
theorem integralLiteral_byte_200 :
    positionalValue 10 [0x32, 0x30, 0x30] ≤ 2 ^ IntegralT.Byte.bits - 1
    ∧ integralLiteral IntegralT.Byte (some ⟨0, [0x32, 0x30, 0x30]⟩) [] ({} : ParseError)
      = Outcome.ret ⟨none, 0, 10, [0x32, 0x30, 0x30],
          { error := ParseErrorType.LiteralOutOfRange, type := some DdlType.Byte,
            position := some 0 }⟩ := by
  decide

/-- C3, amended. The magnitude `m` of the digit run (within the range of
`std::stoul`) is checked against `std::numeric_limits<T>::max()`, which is
`2 ^ w - 1` for an unsigned and `2 ^ (w - 1) - 1` for a signed target, before
the sign is applied. With `m` at most that maximum, `integralLiteral` (no
sign, `+`, or `-` on a signed target) succeeds with the value `sign * m`; with
`m` above it, and above `2 ^ (w - 1)` when the sign is `-`, it fails with
`LiteralOutOfRange` tagged with the type of the target. -/
theorem integralLiteral_range_check (T : IntegralT) (p : Nat) (sgn : List Nat) (b : Base)
    (upper : Bool) (run buffer : List Nat) (error : ParseError)
    (hsgn : sgn = [] ∨ sgn = [0x2B] ∨ (sgn = [0x2D] ∧ T.isSigned = true))
    (hrun : isDigitRun b run = true) (hul : positionalValue b.toNat run ≤ ULONG_MAX) :
    (positionalValue b.toNat run ≤ T.max →
      integralLiteral T (some ⟨p, sgn ++ basePrefix b upper ++ run⟩) buffer error
        = Outcome.ret ⟨some (p + (sgn ++ basePrefix b upper ++ run).length),
            signValue sgn * (positionalValue b.toNat run : Int), (b.toNat : Int),
            extractWithoutUnderscore run, error⟩)
    ∧ (T.max < positionalValue b.toNat run →
        (sgn = [0x2D] → T.max + 1 < positionalValue b.toNat run) →
      integralLiteral T (some ⟨p, sgn ++ basePrefix b upper ++ run⟩) buffer error
        = Outcome.ret ⟨none, 0, (b.toNat : Int), extractWithoutUnderscore run,
            { error := ParseErrorType.LiteralOutOfRange, type := some T.typeFor,
              position := some (p + sgn.length + (basePrefix b upper).length) }⟩) := by
  rw [integralLiteral_run T p sgn b upper run buffer error hsgn hrun, if_neg (by omega)]
  constructor
  · intro h
    rw [if_neg (by omega)]
  · intro h _
    rw [if_pos (by omega)]

/-- Witness of C3 as amended: `-100` parsed into `Byte` gives -100, and `200`
parsed into `Byte` fails with `LiteralOutOfRange`. -/
theorem integralLiteral_range_check_witness :
    integralLiteral IntegralT.Byte (some ⟨0, [0x2D, 0x31, 0x30, 0x30]⟩) [] ({} : ParseError)
        = Outcome.ret ⟨some 4, -100, 10, [0x31, 0x30, 0x30], {}⟩
    ∧ integralLiteral IntegralT.Byte (some ⟨0, [0x32, 0x30, 0x30]⟩) [] ({} : ParseError)
        = Outcome.ret ⟨none, 0, 10, [0x32, 0x30, 0x30],
            { error := ParseErrorType.LiteralOutOfRange, type := some DdlType.Byte,
              position := some 0 }⟩ :=
  ⟨(integralLiteral_range_check IntegralT.Byte 0 [0x2D] Base.b10 false [0x31, 0x30, 0x30] [] {}
      (Or.inr (Or.inr ⟨rfl, rfl⟩)) (by decide) (by decide)).1 (by decide),
   (integralLiteral_range_check IntegralT.Byte 0 [] Base.b10 false [0x32, 0x30, 0x30] [] {}
      (Or.inl rfl) (by decide) (by decide)).2 (by decide) (by decide)⟩

/-! ## Escapes -/

theorem parseHexTerm_digit (c : Nat) (h : isBaseN Base.b16 c = true) :
    parseHexTerm c = (digitValue c : Int) ∧ digitValue c < 16 := by
  have hc : (0x30 ≤ c ∧ c ≤ 0x39) ∨ (0x61 ≤ c ∧ c ≤ 0x66) ∨ (0x41 ≤ c ∧ c ≤ 0x46) := by
    simp [isBaseN] at h; omega
  unfold parseHexTerm digitValue
  rcases hc with ⟨h1, h2⟩ | ⟨h1, h2⟩ | ⟨h1, h2⟩
  · rw [if_neg (by omega), if_neg (by omega), if_pos h2]; omega
  · rw [if_pos h1, if_neg (by omega), if_neg (by omega)]; omega
  · rw [if_neg (by omega), if_pos h1, if_neg (by omega), if_pos h2]; omega

/-- The loop of `parseHex<char>` shifts the first digit by 8 bits, out of the
`char`: what is left is the value of the second digit. -/
theorem parseHex_two_digits (h l : Nat) (rest : List Nat) (hh : isBaseN Base.b16 h = true)
    (hl : isBaseN Base.b16 l = true) : parseHex (h :: l :: rest) = digitValue l := by
  obtain ⟨h1, -⟩ := parseHexTerm_digit h hh
  obtain ⟨l1, l2⟩ := parseHexTerm_digit l hl
  have hr : List.range (1 * 2) = [0, 1] := by decide
  have e1 : (1 * 2 - 0 - 1) * 8 = 8 := by decide
  have e2 : (1 * 2 - 1 - 1) * 8 = 0 := by decide
  have c0 : charValue 0 = ((0 : Nat) : Int) := by decide
  have z : toChar (Int.lor ((0 : Nat) : Int) (((digitValue h * 2 ^ 8 : Nat) : Nat) : Int)) = 0 := by
    show toChar ((((0 : Nat) ||| (digitValue h * 2 ^ 8) : Nat) : Nat) : Int) = 0
    rw [Nat.zero_or]
    unfold toChar
    omega
  have y : toChar (Int.lor ((0 : Nat) : Int) ((digitValue l : Nat) : Int)) = digitValue l := by
    show toChar ((((0 : Nat) ||| digitValue l : Nat) : Nat) : Int) = digitValue l
    rw [Nat.zero_or]
    unfold toChar
    omega
  unfold parseHex
  rw [hr]
  simp only [List.foldl_cons, List.foldl_nil, parseHexStep, List.getD_cons_zero,
    List.getD_cons_succ, e1, e2, h1, l1, pow_zero, mul_one, c0]
  have z' : toChar (Int.lor ((0 : Nat) : Int) ((digitValue h : Int) * 2 ^ 8)) = 0 := by
    have : ((digitValue h : Int) * 2 ^ 8) = (((digitValue h * 2 ^ 8 : Nat) : Nat) : Int) := by
      push_cast; ring
    rw [this]; exact z
  rw [z', c0]
  exact y

/-- What `escapedChar` does on a backslash, `x` and two hex digits: it returns
the position 4 bytes on and the value of the second digit alone. -/
theorem escapedChar_hex (p h l : Nat) (rest : List Nat) (error : ParseError)
    (hh : isBaseN Base.b16 h = true) (hl : isBaseN Base.b16 l = true) :
    escapedChar (some ⟨p, 0x5C :: 0x78 :: h :: l :: rest⟩) error
      = Outcome.ret ⟨some (p + 4), digitValue l, error⟩ := by
  simp [escapedChar, hh, hl, parseHex_two_digits h l rest hh hl]

/-- C4, at the failing input. On the escape `\x41` (bytes 5C 78 34 31)
`escapedChar` succeeds and returns the position 4 bytes after the start, and
the byte it returns is 0x01, not 0x41. -/
theorem escapedChar_x41 :
    escapedChar (some ⟨0, [0x5C, 0x78, 0x34, 0x31]⟩) ({} : ParseError)
      = Outcome.ret ⟨some 4, 0x01, {}⟩ := by
  decide

/-! ## The dispatcher -/

theorem prefixMatch_head_ne (p c k : Nat) (cs ks : List Nat) (h : c ≠ k) :
    prefixMatch (some ⟨p, c :: cs⟩) (k :: ks) = none := by
  unfold prefixMatch
  simp only
  split_ifs with h1 h2
  · rfl
  · exfalso
    simp [equalsPrefix, List.take, strncmpEq, h] at h2
  · rfl

theorem possiblyTypeLiteral_sign_first (p s : Nat) (rest : List Nat) (hs : s = 0x2B ∨ s = 0x2D) :
    possiblyTypeLiteral (some ⟨p, s :: rest⟩) = (none, DdlType.Bool) := by
  have h : ∀ k ks, 0x61 ≤ k → prefixMatch (some ⟨p, s :: rest⟩) (k :: ks) = none := by
    intro k ks hk
    exact prefixMatch_head_ne p s k rest ks (by omega)
  simp only [possiblyTypeLiteral, typeTable, possiblyTypeLiteralFrom]
  repeat rw [h _ _ (by decide)]

/-- C5, on the code. On every input whose first byte is `+` or `-`,
`propertyValue` enters none of its branches: it returns the null position with
the error `InvalidPropertyValue`, and `integerValue` is left as it was. -/
theorem propertyValue_sign_first (fuel p s : Nat) (rest : List Nat) (o : PropertyOutputs)
    (hs : s = 0x2B ∨ s = 0x2D) :
    propertyValue fuel (some ⟨p, s :: rest⟩) o
      = Outcome.ret ⟨none, InternalPropertyType.Bool,
          { o with typeValue := DdlType.Bool,
                   error := { error := ParseErrorType.InvalidPropertyValue, position := some p } }⟩ := by
  have h : ∀ k ks, 0x61 ≤ k → prefixMatch (some ⟨p, s :: rest⟩) (k :: ks) = none := by
    intro k ks hk
    exact prefixMatch_head_ne p s k rest ks (by omega)
  have h1 : ¬ (s = 0x22) := by omega
  have h2 : ¬ (s = 0x25 ∨ s = 0x24) := by omega
  have h3 : ¬ ((0x30 ≤ s ∧ s ≤ 0x39) ∨ s = 0x2E ∨ s = 0x27) := by omega
  unfold propertyValue
  simp only [if_neg h1, if_neg h2, if_neg h3, kwNull, kwTrue, kwFalse]
  rw [h _ _ (by decide), h _ _ (by decide), h _ _ (by decide),
    possiblyTypeLiteral_sign_first p s rest hs]

/-- C5, at the failing input `-12`: the call fails with `InvalidPropertyValue`
where the claim has the tag `Integral` and the value -12. -/
theorem propertyValue_sign_first_witness :
    propertyValue 0 (some ⟨0, [0x2D, 0x31, 0x32]⟩)
        ⟨false, 0, FloatValue.zero, [], none, DdlType.Bool, [], {}⟩
      = Outcome.ret ⟨none, InternalPropertyType.Bool,
          ⟨false, 0, FloatValue.zero, [], none, DdlType.Bool, [],
            { error := ParseErrorType.InvalidPropertyValue, position := some 0 }⟩⟩ :=
  propertyValue_sign_first 0 0 0x2D [0x31, 0x32] _ (Or.inr rfl)

theorem floatScan_eq_true_iff (l : List Nat) :
    floatScan l = true ↔ (l.dropWhile inScanSet).head? = some 0x2E := by
  induction l with
  | nil => simp [floatScan]
  | cons c cs ih =>
    unfold floatScan
    by_cases h1 : c = 0x2E
    · subst h1
      simp [inScanSet, isBaseN, List.dropWhile]
    · rw [if_neg h1]
      by_cases h2 : inScanSet c = true
      · have h3 : ¬ (c ≠ 0x2B ∧ c ≠ 0x2D ∧ c ≠ 0x5F ∧ isBaseN Base.b10 c = false) := by
          simp only [inScanSet, Bool.or_eq_true, beq_iff_eq] at h2
          rintro ⟨a1, a2, a3, a4⟩
          rcases h2 with ((h2 | h2) | h2) | h2
          · rw [a4] at h2; exact Bool.false_ne_true h2
          · exact a1 h2
          · exact a2 h2
          · exact a3 h2
        rw [if_neg h3, ih, List.dropWhile_cons_of_pos h2]
      · have h3 : c ≠ 0x2B ∧ c ≠ 0x2D ∧ c ≠ 0x5F ∧ isBaseN Base.b10 c = false := by
          simp only [inScanSet, Bool.or_eq_true, beq_iff_eq, not_or] at h2
          obtain ⟨⟨⟨a1, a2⟩, a3⟩, a4⟩ := h2
          exact ⟨a2, a3, a4, by simpa using a1⟩
        rw [if_pos h3, List.dropWhile_cons_of_neg h2]
        simp [h1]

theorem baseNLiteral_ret_or_throws (base : Base) (T : IntegralT) (data : Option ArrayReference)
    (buffer : List Nat) (error : ParseError) :
    (∃ r, baseNLiteral base T data buffer error = Outcome.ret r)
      ∨ (∃ e, baseNLiteral base T data buffer error = Outcome.throws e) := by
  unfold baseNLiteral
  split
  · exact Or.inl ⟨_, rfl⟩
  · simp only
    split
    · exact Or.inl ⟨_, rfl⟩
    · split
      · exact Or.inr ⟨_, rfl⟩
      · split_ifs
        · exact Or.inl ⟨_, rfl⟩
        · exact Or.inl ⟨_, rfl⟩

theorem ite_ret {α : Type} (c : Prop) [Decidable c] (a b : Outcome α)
    (ha : ∃ r, a = Outcome.ret r) (hb : ∃ r, b = Outcome.ret r) :
    ∃ r, (if c then a else b) = Outcome.ret r := by
  split_ifs
  · exact ha
  · exact hb

theorem escapedChar_ret (p : Nat) (rest : List Nat) (error : ParseError) :
    ∃ r, escapedChar (some ⟨p, 0x5C :: rest⟩) error = Outcome.ret r := by
  cases rest with
  | nil => exact ⟨_, rfl⟩
  | cons c1 rest2 =>
    simp only [escapedChar, ne_eq, not_true_eq_false, if_false]
    repeat (first | exact ⟨_, rfl⟩ | apply ite_ret)

theorem characterLiteral_ret (data : Option ArrayReference) (error : ParseError) :
    ∃ r, characterLiteral data error = Outcome.ret r := by
  unfold characterLiteral
  split
  · rename_i p c0 c1 c2 rest
    split_ifs with h1 h2 h3
    · exact ⟨_, rfl⟩
    · subst h3
      obtain ⟨r, hr⟩ := escapedChar_ret (p + 1) (c2 :: rest) error
      rw [hr, bind_ret]
      split
      · split
        · split_ifs
          · exact ⟨_, rfl⟩
          · exact ⟨_, rfl⟩
        · exact ⟨_, rfl⟩
      · exact ⟨_, rfl⟩
    · exact ⟨_, rfl⟩
    · exact ⟨_, rfl⟩
  · exact ⟨_, rfl⟩

theorem integralLiteralBody_ret_or_throws (T : IntegralT) (sign : Int) (i : Nat)
    (rest buffer : List Nat) (error : ParseError) :
    (∃ r, integralLiteralBody T sign i rest buffer error = Outcome.ret r
        ∧ (r.base = 2 ∨ r.base = 8 ∨ r.base = 10 ∨ r.base = 16 ∨ r.base = 256))
      ∨ (∃ e, integralLiteralBody T sign i rest buffer error = Outcome.throws e) := by
  have fin : ∀ (base : Int) (b : Base) (data : Option ArrayReference),
      (base = 2 ∨ base = 8 ∨ base = 10 ∨ base = 16 ∨ base = 256) →
      (∃ r, (baseNLiteral b T data buffer error).bind (fun r =>
          (Outcome.ret ⟨r.pos, wrapT T (sign * (r.value : Int)), base, r.buffer, r.error⟩ :
            Outcome IntegralResult)) = Outcome.ret r
        ∧ (r.base = 2 ∨ r.base = 8 ∨ r.base = 10 ∨ r.base = 16 ∨ r.base = 256))
      ∨ (∃ e, (baseNLiteral b T data buffer error).bind (fun r =>
          (Outcome.ret ⟨r.pos, wrapT T (sign * (r.value : Int)), base, r.buffer, r.error⟩ :
            Outcome IntegralResult)) = Outcome.throws e) := by
    intro base b data hb
    rcases baseNLiteral_ret_or_throws b T data buffer error with ⟨r, hr⟩ | ⟨e, he⟩
    · exact Or.inl ⟨_, by rw [hr, bind_ret], hb⟩
    · exact Or.inr ⟨e, by rw [he, bind_throws]⟩
  unfold integralLiteralBody
  simp only
  cases rest with
  | nil => exact fin 10 _ _ (by decide)
  | cons c0 tl =>
    simp only
    by_cases h0 : c0 = 0x27
    · rw [if_pos h0]
      obtain ⟨r, hr⟩ := characterLiteral_ret (some ⟨i, c0 :: tl⟩) error
      exact Or.inl ⟨_, by rw [hr, bind_ret], Or.inr (Or.inr (Or.inr (Or.inr rfl)))⟩
    · rw [if_neg h0]
      cases tl with
      | nil => exact fin 10 _ _ (by decide)
      | cons c1 tl2 =>
        simp only
        by_cases h1 : c0 = 0x30 ∧ isBinaryPrefix c1 = true
        · rw [if_pos h1]
          by_cases h2 : c1 = 0x78 ∨ c1 = 0x58
          · rw [if_pos h2]; exact fin 16 _ _ (by decide)
          · rw [if_neg h2]
            by_cases h3 : c1 = 0x6F ∨ c1 = 0x4F
            · rw [if_pos h3]; exact fin 8 _ _ (by decide)
            · rw [if_neg h3]
              by_cases h4 : c1 = 0x62 ∨ c1 = 0x42
              · rw [if_pos h4]; exact fin 2 _ _ (by decide)
              · exfalso
                have := h1.2
                simp only [isBinaryPrefix, Bool.or_eq_true, beq_iff_eq] at this
                omega
        · rw [if_neg h1]; exact fin 10 _ _ (by decide)

/-- C6. On every input whose first byte is a decimal digit or a single quote
and in which the first byte outside the digits, `+`, `-` and `_` is not a dot,
`integralLiteral<Int>` on the same input either returns or lets the exception of
`std::stoul` through, and `propertyValue` does the same: when
`integralLiteral<Int>` returns, `propertyValue` returns the same position, sets
`integerValue` to the same value (buffer and error slot as `integralLiteral`
leaves them), and its tag is `Binary` for the base 2, 8 or 16, `Integral` for
10 and `Character` for 256. -/
theorem propertyValue_integral (fuel p c : Nat) (cs : List Nat) (o : PropertyOutputs)
    (hc : (0x30 ≤ c ∧ c ≤ 0x39) ∨ c = 0x27)
    (hdot : ((c :: cs).dropWhile inScanSet).head? ≠ some 0x2E) :
    (∃ r t, integralLiteral IntegralT.Int (some ⟨p, c :: cs⟩) o.buffer o.error = Outcome.ret r
        ∧ tagOfBase r.base = some t
        ∧ propertyValue fuel (some ⟨p, c :: cs⟩) o
          = Outcome.ret ⟨r.pos, t,
              { o with integerValue := r.value, buffer := r.buffer, error := r.error }⟩)
      ∨ (∃ e, integralLiteral IntegralT.Int (some ⟨p, c :: cs⟩) o.buffer o.error = Outcome.throws e
        ∧ propertyValue fuel (some ⟨p, c :: cs⟩) o = Outcome.throws e) := by
  have h1 : ¬ (c = 0x22) := by omega
  have h2 : ¬ (c = 0x25 ∨ c = 0x24) := by omega
  have h3 : (0x30 ≤ c ∧ c ≤ 0x39) ∨ c = 0x2E ∨ c = 0x27 := by omega
  have h4 : ¬ (floatScan (c :: cs) = true) := by
    rw [floatScan_eq_true_iff]; exact hdot
  have h5 : ¬ (c = 0x2B) := by omega
  have h6 : ¬ (c = 0x2D) := by omega
  have hi : integralLiteral IntegralT.Int (some ⟨p, c :: cs⟩) o.buffer o.error
      = integralLiteralBody IntegralT.Int 1 p (c :: cs) o.buffer o.error := by
    simp only [integralLiteral, if_neg h5, if_neg h6]
  have hp : propertyValue fuel (some ⟨p, c :: cs⟩) o
      = (integralLiteral IntegralT.Int (some ⟨p, c :: cs⟩) o.buffer o.error).bind (fun r =>
            let o' : PropertyOutputs :=
              { o with integerValue := r.value, buffer := r.buffer, error := r.error }
            if r.base = 2 ∨ r.base = 8 ∨ r.base = 16 then
              Outcome.ret ⟨r.pos, InternalPropertyType.Binary, o'⟩
            else if r.base = 10 then Outcome.ret ⟨r.pos, InternalPropertyType.Integral, o'⟩
            else if r.base = 256 then Outcome.ret ⟨r.pos, InternalPropertyType.Character, o'⟩
            else Outcome.assertion) := by
    simp only [propertyValue, if_neg h1, if_neg h2, if_pos h3, if_neg h4]
  rcases integralLiteralBody_ret_or_throws IntegralT.Int 1 p (c :: cs) o.buffer o.error with
    ⟨r, hr, hb⟩ | ⟨e, he⟩
  · left
    rw [hp, hi, hr, bind_ret]
    rcases hb with hb | hb | hb | hb | hb
    · exact ⟨r, InternalPropertyType.Binary, rfl, by simp [tagOfBase, hb], by simp [hb]⟩
    · exact ⟨r, InternalPropertyType.Binary, rfl, by simp [tagOfBase, hb], by simp [hb]⟩
    · exact ⟨r, InternalPropertyType.Integral, rfl, by simp [tagOfBase, hb], by simp [hb]⟩
    · exact ⟨r, InternalPropertyType.Binary, rfl, by simp [tagOfBase, hb], by simp [hb]⟩
    · exact ⟨r, InternalPropertyType.Character, rfl, by simp [tagOfBase, hb], by simp [hb]⟩
  · right
    exact ⟨e, by rw [hi, he], by rw [hp, hi, he, bind_throws]⟩

/-- Witnesses of C6: the theorem at the input `0x0A`, and the results of
`propertyValue` on `0x0A`, `'Z'` and `123`: `Binary` 10, `Character` 90 and
`Integral` 123. -/
theorem propertyValue_integral_witness :
    ((∃ r t, integralLiteral IntegralT.Int (some ⟨0, [0x30, 0x78, 0x30, 0x41]⟩) [] {} = Outcome.ret r
        ∧ tagOfBase r.base = some t
        ∧ propertyValue 0 (some ⟨0, [0x30, 0x78, 0x30, 0x41]⟩)
            ⟨false, 0, FloatValue.zero, [], none, DdlType.Bool, [], {}⟩
          = Outcome.ret ⟨r.pos, t,
              ⟨false, r.value, FloatValue.zero, [], none, DdlType.Bool, r.buffer, r.error⟩⟩)
      ∨ (∃ e, integralLiteral IntegralT.Int (some ⟨0, [0x30, 0x78, 0x30, 0x41]⟩) [] {}
            = Outcome.throws e
        ∧ propertyValue 0 (some ⟨0, [0x30, 0x78, 0x30, 0x41]⟩)
            ⟨false, 0, FloatValue.zero, [], none, DdlType.Bool, [], {}⟩ = Outcome.throws e))
    ∧ propertyValue 0 (some ⟨0, [0x30, 0x78, 0x30, 0x41]⟩)
          ⟨false, 0, FloatValue.zero, [], none, DdlType.Bool, [], {}⟩
        = Outcome.ret ⟨some 4, InternalPropertyType.Binary,
            ⟨false, 10, FloatValue.zero, [], none, DdlType.Bool, [0x30, 0x41], {}⟩⟩
    ∧ propertyValue 0 (some ⟨0, [0x27, 0x5A, 0x27]⟩)
          ⟨false, 0, FloatValue.zero, [], none, DdlType.Bool, [], {}⟩
        = Outcome.ret ⟨some 3, InternalPropertyType.Character,
            ⟨false, 90, FloatValue.zero, [], none, DdlType.Bool, [], {}⟩⟩
    ∧ propertyValue 0 (some ⟨0, [0x31, 0x32, 0x33]⟩)
          ⟨false, 0, FloatValue.zero, [], none, DdlType.Bool, [], {}⟩
        = Outcome.ret ⟨some 3, InternalPropertyType.Integral,
            ⟨false, 123, FloatValue.zero, [], none, DdlType.Bool, [0x31, 0x32, 0x33], {}⟩⟩ :=
  ⟨propertyValue_integral 0 0 0x30 [0x78, 0x30, 0x41]
      ⟨false, 0, FloatValue.zero, [], none, DdlType.Bool, [], {}⟩ (by decide) (by decide),
    by decide, by decide, by decide⟩

/-! ## Floating-point literals -/

theorem headIs_eq_false (l : List Nat) (f : Nat → Bool) (h : headIs l f = false) :
    ∀ c, l.head? = some c → f c = false := by
  intro c hc
  cases l with
  | nil => simp at hc
  | cons a as =>
    simp only [List.head?_cons, Option.some.injEq] at hc
    subst hc
    exact h

theorem floatingPointExponent_none (T : FloatT) (d : ArrayReference) (i : Nat)
    (rest buffer : List Nat) (error : ParseError)
    (h : headIs rest (fun c => c == 0x65 || c == 0x45) = false) :
    floatingPointExponent T d i rest buffer error
      = floatingPointFinish T d buffer (some i) error := by
  cases rest with
  | nil => rfl
  | cons c tl =>
    have hc : ¬ (c = 0x65 ∨ c = 0x45) := by
      simpa [headIs] using h
    simp only [floatingPointExponent, if_neg hc]

theorem possiblyNumericCharactersLoop_maybe_run (D rest : List Nat) (i : Nat)
    (hD : D = [] ∨ isDigitRun Base.b10 D = true)
    (hdig : headIs rest (isBaseN Base.b10) = false)
    (hus : D ≠ [] → headIs rest (fun c => c == 0x5F) = false) :
    possiblyNumericCharactersLoop Base.b10 true i (D ++ rest) = i + D.length := by
  rcases hD with rfl | hD
  · simpa using possiblyNumericCharactersLoop_stop Base.b10 rest (headIs_eq_false rest _ hdig) i
  · have hne : D ≠ [] := by
      rintro rfl
      simp [isDigitRun] at hD
    apply possiblyNumericCharactersLoop_run Base.b10 D rest hD
    intro c hc
    refine ⟨headIs_eq_false rest _ hdig c hc, ?_⟩
    have := headIs_eq_false rest _ (hus hne) c hc
    simpa using this

/-- The statements `error = {InvalidLiteral, typeFor<T>(), data}; return {}`
of the decimal part. -/
theorem floatingPointDecimal_shape (T : FloatT) (d : ArrayReference) (i : Nat)
    (D1 : List Nat) (dot : Bool) (D2 rest buffer : List Nat) (error : ParseError)
    (hD1 : D1 = [] ∨ isDigitRun Base.b10 D1 = true)
    (hD2 : D2 = [] ∨ isDigitRun Base.b10 D2 = true)
    (hdot : dot = false → D2 = [])
    (hdig : headIs rest (isBaseN Base.b10) = false)
    (hus : (if dot then D2 else D1) ≠ [] → headIs rest (fun c => c == 0x5F) = false)
    (hnd : dot = false → headIs rest (fun c => c == 0x2E) = false)
    (hexp : headIs rest (fun c => c == 0x65 || c == 0x45) = false) :
    floatingPointDecimal T d i (D1 ++ afterDigits dot D2 rest) buffer error
      = if D1 = [] ∧ D2 = [] then
          Outcome.ret ⟨none, FloatValue.zero, buffer,
            { error := ParseErrorType.InvalidLiteral, type := some T.typeFor,
              position := some d.ptr }⟩
        else floatingPointFinish T d buffer
          (some (i + D1.length + (if dot = true ∧ D2 ++ rest ≠ [] then 1 + D2.length else 0))) error := by
  have hlen : ∀ l : List Nat, (i = i + l.length) ↔ l = [] := by
    intro l
    cases l <;> simp
  cases dot with
  | false =>
    have hD2' : D2 = [] := hdot rfl
    subst hD2'
    have hi1 : possiblyNumericCharactersLoop Base.b10 true i (D1 ++ rest) = i + D1.length :=
      possiblyNumericCharactersLoop_maybe_run D1 rest i hD1 hdig (by simpa using hus)
    unfold floatingPointDecimal
    simp only [afterDigits, Bool.false_eq_true, if_false, hi1, Nat.add_sub_cancel_left,
      List.drop_left, hlen, false_and, and_true, Nat.add_zero]
    have hE := floatingPointExponent_none T d (i + D1.length) rest buffer error hexp
    rcases rest with _ | ⟨c, _ | ⟨c', tl⟩⟩
    · simp only [hE]
    · simp only [hE]
    · have hc : ¬ (c = 0x2E) := by
        have := hnd rfl
        simpa [headIs] using this
      simp only [if_neg hc, hE]
  | true =>
    have htail : possiblyNumericCharactersLoop Base.b10 true i (D1 ++ 0x2E :: (D2 ++ rest))
        = i + D1.length :=
      possiblyNumericCharactersLoop_maybe_run D1 (0x2E :: (D2 ++ rest)) i hD1
        (by simp [headIs, isBaseN]) (fun _ => by simp [headIs])
    have hi2 : possiblyNumericCharactersLoop Base.b10 true (i + D1.length + 1) (D2 ++ rest)
        = i + D1.length + 1 + D2.length :=
      possiblyNumericCharactersLoop_maybe_run D2 rest _ hD2 hdig (by simpa using hus)
    unfold floatingPointDecimal
    simp only [afterDigits, if_true, htail, Nat.add_sub_cancel_left, List.drop_left, hlen,
      true_and]
    cases hdr : D2 ++ rest with
    | nil =>
      obtain ⟨h2, h3⟩ := List.append_eq_nil.1 hdr
      subst h2 h3
      have hE := floatingPointExponent_none T d (i + D1.length) [0x2E] buffer error (by decide)
      simp only [hE, ne_eq, not_true_eq_false, if_false, Nat.add_zero, and_true]
    | cons c' tl =>
      have hE := floatingPointExponent_none T d (i + D1.length + 1 + D2.length) rest buffer error hexp
      have hi2' : possiblyNumericCharactersLoop Base.b10 true (i + D1.length + 1) (c' :: tl)
          = i + D1.length + 1 + D2.length := by rw [← hdr]; exact hi2
      have hdrop : List.drop (i + D1.length + 1 + D2.length - (i + D1.length + 1)) (c' :: tl) = rest := by
        rw [← hdr, Nat.add_sub_cancel_left, List.drop_left]
      have hcond : (i + 1 = i + D1.length + 1 + D2.length) ↔ (D1 = [] ∧ D2 = []) := by
        constructor
        · intro h
          have h1 : D1.length = 0 := by omega
          have h2 : D2.length = 0 := by omega
          exact ⟨List.length_eq_zero.1 h1, List.length_eq_zero.1 h2⟩
        · rintro ⟨rfl, rfl⟩
          simp
      simp only [if_true, hi2', hdrop, hcond, hE, ne_eq, not_false_eq_true, reduceCtorEq]
      split_ifs <;> first | rfl | (congr 2; omega)

theorem floatingPointBody_decimal (T : FloatT) (d : ArrayReference) (negated : Bool) (i : Nat)
    (body buffer : List Nat) (error : ParseError) (h : hasBasePrefix body = false) :
    floatingPointBody T d negated i body buffer error
      = floatingPointDecimal T d i body buffer error := by
  rcases body with _ | ⟨c0, _ | ⟨c1, tl⟩⟩
  · rfl
  · rfl
  · have hc : ¬ (c0 = 0x30 ∧ isBinaryPrefix c1 = true) := by
      simpa [hasBasePrefix] using h
    simp only [floatingPointBody, if_neg hc]

theorem isFloatShape_props (sgn D1 : List Nat) (dot : Bool) (D2 rest : List Nat)
    (h : isFloatShape sgn D1 dot D2 rest = true) :
    (sgn = [] ∨ sgn = [0x2B] ∨ sgn = [0x2D])
    ∧ (D1 = [] ∨ isDigitRun Base.b10 D1 = true)
    ∧ (D2 = [] ∨ isDigitRun Base.b10 D2 = true)
    ∧ (dot = false → D2 = [])
    ∧ headIs rest (isBaseN Base.b10) = false
    ∧ ((if dot then D2 else D1) ≠ [] → headIs rest (fun c => c == 0x5F) = false)
    ∧ (dot = false → headIs rest (fun c => c == 0x2E) = false)
    ∧ (sgn = [] → D1 = [] → dot = false →
        headIs rest (fun c => c == 0x2B || c == 0x2D) = false) := by
  simp only [isFloatShape, Bool.and_eq_true, Bool.or_eq_true, beq_iff_eq, Bool.not_eq_true',
    Bool.not_eq_true, Bool.and_eq_false_imp] at h
  obtain ⟨⟨⟨⟨⟨⟨⟨h1, h2⟩, h3⟩, h4⟩, h5⟩, h6⟩, h7⟩, h8⟩ := h
  refine ⟨?_, h2, h3, ?_, h5, ?_, ?_, ?_⟩
  · rcases h1 with (h1 | h1) | h1
    · exact Or.inl h1
    · exact Or.inr (Or.inl h1)
    · exact Or.inr (Or.inr h1)
  · intro hd
    rcases h4 with h4 | h4
    · rw [hd] at h4; exact absurd h4 (by decide)
    · exact h4
  · intro hne
    rcases h6 with h6 | h6
    · exact absurd h6 hne
    · exact h6
  · intro hd
    rcases h7 with h7 | h7
    · rw [hd] at h7; exact absurd h7 (by decide)
    · exact h7
  · intro a b c
    rcases h8 with h8 | h8
    · subst a b c
      simp at h8
    · exact h8

/-- What `floatingPointLiteral` does on a decomposed decimal text without base
prefix and without exponent part. -/
theorem floatingPointLiteral_shape (T : FloatT) (p : Nat) (sgn D1 : List Nat) (dot : Bool)
    (D2 rest buffer : List Nat) (error : ParseError)
    (hshape : isFloatShape sgn D1 dot D2 rest = true)
    (hne : sgn ++ D1 ++ afterDigits dot D2 rest ≠ [])
    (hpre : hasBasePrefix (D1 ++ afterDigits dot D2 rest) = false)
    (hexp : headIs rest (fun c => c == 0x65 || c == 0x45) = false) :
    floatingPointLiteral T (some ⟨p, sgn ++ D1 ++ afterDigits dot D2 rest⟩) buffer error
      = if D1 = [] ∧ D2 = [] then
          Outcome.ret ⟨none, FloatValue.zero, buffer,
            { error := ParseErrorType.InvalidLiteral, type := some T.typeFor,
              position := some p }⟩
        else floatingPointFinish T ⟨p, sgn ++ D1 ++ afterDigits dot D2 rest⟩ buffer
          (some (p + mantissaEnd sgn D1 dot D2 rest)) error := by
  obtain ⟨h1, h2, h3, h4, h5, h6, h7, h8⟩ := isFloatShape_props sgn D1 dot D2 rest hshape
  have key := fun (d : ArrayReference) (neg : Bool) (i : Nat) =>
    (floatingPointBody_decimal T d neg i _ buffer error hpre).trans
      (floatingPointDecimal_shape T d i D1 dot D2 rest buffer error h2 h3 h4 h5 h6 h7 hexp)
  rcases h1 with rfl | rfl | rfl
  · simp only [List.nil_append] at hne ⊢
    obtain ⟨c, cs, hcs⟩ := List.exists_cons_of_ne_nil hne
    have hc : c ≠ 0x2B ∧ c ≠ 0x2D := by
      rcases h2 with rfl | hD1
      · cases dot with
        | true =>
          simp only [afterDigits, if_true, List.nil_append, List.cons.injEq] at hcs
          omega
        | false =>
          have := h8 rfl rfl rfl
          simp only [afterDigits, Bool.false_eq_true, if_false, List.nil_append] at hcs
          rw [hcs] at this
          simp only [headIs, Bool.or_eq_false_iff, beq_eq_false_iff_ne, ne_eq] at this
          exact this
      · obtain ⟨x, xs, rfl, hx, -⟩ := isDigitRun_cons _ D1 hD1
        simp only [List.cons_append, List.cons.injEq] at hcs
        simp only [isBaseN, Bool.and_eq_true, decide_eq_true_eq] at hx
        omega
    unfold floatingPointLiteral
    simp only [hcs, if_neg hc.1, if_neg hc.2]
    rw [← hcs, key]
    simp [mantissaEnd, Nat.add_assoc]
  · unfold floatingPointLiteral
    simp only [List.cons_append, List.nil_append, if_true]
    rw [key]
    simp [mantissaEnd, Nat.add_assoc, Nat.add_comm 1]
  · unfold floatingPointLiteral
    simp only [List.cons_append, List.nil_append, if_true,
      show ¬ ((0x2D : Nat) = 0x2B) by decide, if_false]
    rw [key]
    simp [mantissaEnd, Nat.add_assoc, Nat.add_comm 1]

/-- Counterexample to C7: on `.5` (no digit before the dot)
`floatingPointLiteral<Float>` does not fail; it returns the position after the
whole text, hands `.5` to the conversion and writes no error. -/
theorem floatingPointLiteral_dot_five :
    floatingPointLiteral FloatT.Float (some ⟨0, [0x2E, 0x35]⟩) [] ({} : ParseError)
      = Outcome.ret ⟨some 2, FloatValue.fromText [0x2E, 0x35], [0x2E, 0x35], {}⟩ := by
  decide

/-- What `floatingPointLiteral` does on a dot followed by a digit run that ends
the input: the dot and the run, without underscores, go to the conversion, and
what the conversion does decides between a return and a throw. -/
theorem floatingPointLiteral_dot_run (T : FloatT) (p : Nat) (D buffer : List Nat)
    (error : ParseError) (hD : isDigitRun Base.b10 D = true) :
    floatingPointLiteral T (some ⟨p, 0x2E :: D⟩) buffer error
      = match T.extract (0x2E :: extractWithoutUnderscore D) with
        | Except.error x => Outcome.throws x
        | Except.ok v => Outcome.ret ⟨some (p + 1 + D.length), v,
            0x2E :: extractWithoutUnderscore D, error⟩ := by
  obtain ⟨x, xs, rfl, hx, hxs⟩ := isDigitRun_cons _ D hD
  have hshape : isFloatShape [] [] true (x :: xs) [] = true := by
    simp [isFloatShape, hD, headIs]
  have h := floatingPointLiteral_shape T p [] [] true (x :: xs) [] buffer error hshape
    (by simp [afterDigits]) (by simp [afterDigits, hasBasePrefix]) (by simp [headIs])
  simp only [afterDigits, if_true, List.nil_append, List.append_nil] at h
  rw [h]
  simp [floatingPointFinish, mantissaEnd, extractWithoutUnderscore, List.filter_cons,
    Nat.add_assoc, Nat.add_comm 1]

/-- C7, amended. A decimal floating-point literal with no digit before the dot
is accepted: for every non-empty decimal digit run `D` such that the conversion
of the dot and the run (without underscores) returns a value `v`,
`floatingPointLiteral` on a dot followed by `D` returns the position after the
run and the value `v`, leaves that text in the buffer and leaves the error slot
as it was. -/
theorem floatingPointLiteral_dot_digits (T : FloatT) (p : Nat) (D buffer : List Nat)
    (error : ParseError) (v : FloatValue) (hD : isDigitRun Base.b10 D = true)
    (hv : T.extract (0x2E :: extractWithoutUnderscore D) = Except.ok v) :
    floatingPointLiteral T (some ⟨p, 0x2E :: D⟩) buffer error
      = Outcome.ret ⟨some (p + 1 + D.length), v, 0x2E :: extractWithoutUnderscore D,
          error⟩ := by
  rw [floatingPointLiteral_dot_run T p D buffer error hD, hv]

/-- Witness of C7 as amended: `.5` parsed into `Float`. -/
theorem floatingPointLiteral_dot_digits_witness :
    floatingPointLiteral FloatT.Float (some ⟨0, [0x2E, 0x35]⟩) [] ({} : ParseError)
      = Outcome.ret ⟨some 2, FloatValue.fromText [0x2E, 0x35], [0x2E, 0x35], {}⟩ :=
  floatingPointLiteral_dot_digits FloatT.Float 0 [0x35] [] {} (FloatValue.fromText [0x2E, 0x35])
    (by decide) rfl

/-- What `floatingPointLiteral` does on a non-empty text decomposed into an
optional sign, the digits `D1` before the dot position, an optional dot with
the digits `D2` after it, and the rest, with no base prefix after the sign and
no exponent part. It fails with `InvalidLiteral`, tagged with the type of the
target and the start of the text, when no digit stands on either side of the
dot position; otherwise the text up to the end of the mantissa (without
underscores) goes to the conversion, and the call returns that end and the
value converted, or throws what the conversion throws. -/
theorem floatingPointLiteral_mantissa (T : FloatT) (p : Nat) (sgn D1 : List Nat) (dot : Bool)
    (D2 rest buffer : List Nat) (error : ParseError)
    (hshape : isFloatShape sgn D1 dot D2 rest = true)
    (hne : sgn ++ D1 ++ afterDigits dot D2 rest ≠ [])
    (hpre : hasBasePrefix (D1 ++ afterDigits dot D2 rest) = false)
    (hexp : headIs rest (fun c => c == 0x65 || c == 0x45) = false) :
    (D1 = [] ∧ D2 = [] →
      floatingPointLiteral T (some ⟨p, sgn ++ D1 ++ afterDigits dot D2 rest⟩) buffer error
        = Outcome.ret ⟨none, FloatValue.zero, buffer,
            { error := ParseErrorType.InvalidLiteral, type := some T.typeFor,
              position := some p }⟩)
    ∧ (¬ (D1 = [] ∧ D2 = []) →
      floatingPointLiteral T (some ⟨p, sgn ++ D1 ++ afterDigits dot D2 rest⟩) buffer error
        = match T.extract (extractWithoutUnderscore
            ((sgn ++ D1 ++ afterDigits dot D2 rest).take (mantissaEnd sgn D1 dot D2 rest))) with
          | Except.error x => Outcome.throws x
          | Except.ok v => Outcome.ret ⟨some (p + mantissaEnd sgn D1 dot D2 rest), v,
              extractWithoutUnderscore
                ((sgn ++ D1 ++ afterDigits dot D2 rest).take (mantissaEnd sgn D1 dot D2 rest)),
              error⟩) := by
  rw [floatingPointLiteral_shape T p sgn D1 dot D2 rest buffer error hshape hne hpre hexp]
  constructor
  · intro h
    rw [if_pos h]
  · intro h
    rw [if_neg h]
    simp [floatingPointFinish]

/-- C8, at the failing input. The text of `1` and 39 digits `0` has digits
before the dot position, no base prefix and no exponent part, and
`floatingPointLiteral<Float>` on it does not succeed: the value is above the
range of `Float`, and the exception `std::out_of_range` of `std::stof` leaves
the function. The same happens on a dot, 50 digits `0` and `1`, a value that
rounds to zero. -/
theorem floatingPointLiteral_conversion_range :
    isFloatShape [] (0x31 :: List.replicate 39 0x30) false [] [] = true
    ∧ floatingPointLiteral FloatT.Float (some ⟨0, 0x31 :: List.replicate 39 0x30⟩) []
        ({} : ParseError) = Outcome.throws StdException.out_of_range
    ∧ floatingPointLiteral FloatT.Float
        (some ⟨0, 0x2E :: (List.replicate 50 0x30 ++ [0x31])⟩) [] ({} : ParseError)
      = Outcome.throws StdException.out_of_range := by
  decide

theorem headIs_dropWhile (f : Nat → Bool) (l : List Nat) : headIs (l.dropWhile f) f = false := by
  induction l with
  | nil => rfl
  | cons c cs ih =>
    by_cases h : f c = true
    · rw [List.dropWhile_cons_of_pos h]; exact ih
    · rw [List.dropWhile_cons_of_neg h]
      simpa [headIs] using h

theorem headIs_mono (f g : Nat → Bool) (l : List Nat) (hfg : ∀ c, g c = true → f c = true)
    (h : headIs l f = false) : headIs l g = false := by
  cases l with
  | nil => rfl
  | cons c cs =>
    simp only [headIs] at h ⊢
    cases hg : g c with
    | false => rfl
    | true => rw [hfg c hg] at h; exact absurd h (by decide)

theorem mem_takeWhile_holds (f : Nat → Bool) (l : List Nat) (x : Nat)
    (hx : x ∈ l.takeWhile f) : f x = true := by
  induction l with
  | nil => simp at hx
  | cons c cs ih =>
    by_cases h : f c = true
    · rw [List.takeWhile_cons_of_pos h] at hx
      rcases List.mem_cons.1 hx with rfl | hx
      · exact h
      · exact ih hx
    · rw [List.takeWhile_cons_of_neg h] at hx
      simp at hx

/-- Every text starts with a longest decimal digit run, possibly empty. -/
theorem digitRun_split (l : List Nat) :
    ∃ D r, l = D ++ r ∧ (D = [] ∨ isDigitRun Base.b10 D = true)
      ∧ headIs r (isBaseN Base.b10) = false
      ∧ (D ≠ [] → headIs r (fun c => c == 0x5F) = false) := by
  cases l with
  | nil => exact ⟨[], [], rfl, Or.inl rfl, rfl, fun _ => rfl⟩
  | cons c cs =>
    by_cases hc : isBaseN Base.b10 c = true
    · refine ⟨c :: cs.takeWhile (fun x => isBaseN Base.b10 x || x == 0x5F),
        cs.dropWhile (fun x => isBaseN Base.b10 x || x == 0x5F), ?_, Or.inr ?_, ?_, fun _ => ?_⟩
      · simp [List.takeWhile_append_dropWhile]
      · simp only [isDigitRun, hc, Bool.true_and, List.all_eq_true]
        intro x hx
        exact mem_takeWhile_holds _ cs x hx
      · exact headIs_mono _ _ _ (fun x hx => by simp [hx]) (headIs_dropWhile _ cs)
      · exact headIs_mono _ _ _ (fun x hx => by simp at hx; simp [hx]) (headIs_dropWhile _ cs)
    · refine ⟨[], c :: cs, rfl, Or.inl rfl, ?_, fun h => absurd rfl h⟩
      simpa [headIs] using hc

/-- The decomposition is exhaustive: every text is an optional sign, digits,
an optional dot with digits, and a rest, in the sense of `isFloatShape`. -/
theorem isFloatShape_exists (input : List Nat) :
    ∃ sgn D1 dot D2 rest, input = sgn ++ D1 ++ afterDigits dot D2 rest
      ∧ isFloatShape sgn D1 dot D2 rest = true := by
  have build : ∀ (sgn l : List Nat), (sgn = [] ∨ sgn = [0x2B] ∨ sgn = [0x2D]) →
      (sgn ≠ [] ∨ headIs l (fun c => c == 0x2B || c == 0x2D) = false) →
      ∃ s D1 dot D2 rest, sgn ++ l = s ++ D1 ++ afterDigits dot D2 rest
        ∧ isFloatShape s D1 dot D2 rest = true := by
    intro sgn l hs hl
    obtain ⟨D1, r, hl1, hD1, hr1, hr2⟩ := digitRun_split l
    have fin : ∀ (dot : Bool) (D2 rest : List Nat), l = D1 ++ afterDigits dot D2 rest →
        (D2 = [] ∨ isDigitRun Base.b10 D2 = true) → (dot = false → D2 = []) →
        headIs rest (isBaseN Base.b10) = false →
        ((if dot then D2 else D1) ≠ [] → headIs rest (fun c => c == 0x5F) = false) →
        (dot = false → headIs rest (fun c => c == 0x2E) = false) →
        (D1 = [] → dot = false → rest = l) →
        ∃ s D1 dot D2 rest, sgn ++ l = s ++ D1 ++ afterDigits dot D2 rest
          ∧ isFloatShape s D1 dot D2 rest = true := by
      intro dot D2 rest e hD2 a1 a2 a3 a4 a5
      refine ⟨sgn, D1, dot, D2, rest, by rw [e, List.append_assoc], ?_⟩
      simp only [isFloatShape, Bool.and_eq_true, Bool.or_eq_true, beq_iff_eq, Bool.not_eq_true',
        Bool.not_eq_true, Bool.and_eq_false_imp]
      refine ⟨⟨⟨⟨⟨⟨⟨?_, hD1⟩, hD2⟩, ?_⟩, a2⟩, ?_⟩, ?_⟩, ?_⟩
      · rcases hs with h | h | h
        · exact Or.inl (Or.inl h)
        · exact Or.inl (Or.inr h)
        · exact Or.inr h
      · cases dot with
        | true => exact Or.inl rfl
        | false => exact Or.inr (a1 rfl)
      · by_cases hne : (if dot = true then D2 else D1) = []
        · exact Or.inl hne
        · exact Or.inr (a3 hne)
      · cases dot with
        | true => exact Or.inl rfl
        | false => exact Or.inr (a4 rfl)
      · by_cases hq : sgn = [] ∧ D1 = [] ∧ dot = false
        · obtain ⟨q1, q2, q3⟩ := hq
          right
          rw [a5 q2 q3]
          rcases hl with hl | hl
          · exact absurd q1 hl
          · exact hl
        · left
          rintro ⟨q1, q2⟩
          cases dot with
          | true => rfl
          | false => exact absurd ⟨q1, q2, rfl⟩ hq
    subst hl1
    cases r with
    | nil =>
      exact fin false [] [] (by simp [afterDigits]) (Or.inl rfl) (fun _ => rfl) rfl (fun _ => rfl)
        (fun _ => rfl) (fun h _ => by simp [h])
    | cons c cs =>
      by_cases hc : c = 0x2E
      · subst hc
        obtain ⟨D2, rest, rfl, hD2, hq1, hq2⟩ := digitRun_split cs
        exact fin true D2 rest (by simp [afterDigits]) hD2 (fun h => absurd h (by decide)) hq1
          (by simpa using hq2) (fun h => absurd h (by decide)) (fun _ h => absurd h (by decide))
      · exact fin false [] (c :: cs) (by simp [afterDigits]) (Or.inl rfl) (fun _ => rfl) hr1
          (by simpa using hr2) (fun _ => by simpa [headIs] using hc) (fun h _ => by simp [h])
  cases input with
  | nil => exact ⟨[], [], false, [], [], rfl, by decide⟩
  | cons c cs =>
    by_cases h1 : c = 0x2B
    · subst h1
      exact build [0x2B] cs (Or.inr (Or.inl rfl)) (Or.inl (by simp))
    · by_cases h2 : c = 0x2D
      · subst h2
        exact build [0x2D] cs (Or.inr (Or.inr rfl)) (Or.inl (by simp))
      · exact build [] (c :: cs) (Or.inl rfl) (Or.inr (by simp [headIs, h1, h2]))

/-! ## String literals -/

theorem stringLiteralLoop_plain (s rest : List Nat)
    (hs : ∀ c ∈ s, 0x20 ≤ c ∧ c ≠ 0x22 ∧ c ≠ 0x5C) (fuel i : Nat) (out : List Nat)
    (error : ParseError) :
    stringLiteralLoop (fuel + s.length) i (s ++ rest) out error
      = stringLiteralLoop fuel (i + s.length) rest (out ++ s) error := by
  induction s generalizing i out with
  | nil => simp
  | cons c cs ih =>
    obtain ⟨h1, h2, h3⟩ := hs c (List.mem_cons_self _ _)
    have hcs : ∀ x ∈ cs, 0x20 ≤ x ∧ x ≠ 0x22 ∧ x ≠ 0x5C := fun x hx => hs x (List.mem_cons_of_mem _ hx)
    have hlt : ¬ (c < 0x20) := by omega
    rw [List.length_cons, ← Nat.add_assoc, List.cons_append, stringLiteralLoop, if_neg hlt,
      if_neg h3, if_neg h2, ih hcs]
    simp [Nat.add_assoc, Nat.add_comm 1]

theorem whitespaceLoop_blank (w rest : List Nat) (hw : ∀ c ∈ w, c ≤ 0x20) (fuel i : Nat) :
    whitespaceLoop (fuel + w.length) i (w ++ rest) = whitespaceLoop fuel (i + w.length) rest := by
  induction w generalizing i with
  | nil => simp
  | cons c cs ih =>
    have hc : c ≤ 0x20 := hw c (List.mem_cons_self _ _)
    have hcs : ∀ x ∈ cs, x ≤ 0x20 := fun x hx => hw x (List.mem_cons_of_mem _ hx)
    have hv : charValue c ≤ 32 := by
      unfold charValue
      rw [if_pos (by omega)]
      omega
    rw [List.length_cons, ← Nat.add_assoc, List.cons_append]
    simp only [whitespaceLoop, hv, if_true]
    rw [ih hcs]
    simp [Nat.add_assoc, Nat.add_comm 1]

theorem whitespaceLoop_quote (fuel i : Nat) (rest : List Nat) :
    whitespaceLoop (fuel + 1) i (0x22 :: rest) = Outcome.ret i := by
  have hv : ¬ (charValue 0x22 ≤ 32) := by decide
  cases rest with
  | nil => simp [whitespaceLoop, hv]
  | cons c1 tl => simp [whitespaceLoop, hv]

theorem whitespaceLoop_nil (fuel i : Nat) : whitespaceLoop (fuel + 1) i [] = Outcome.ret i := by
  simp [whitespaceLoop]

/-- C9. String continuation: for segment texts `s1` and `s2` of bytes from 0x20
on other than the double quote and the backslash, and a separator `w` of bytes
up to 0x20, `stringLiteral` on the two quoted segments separated by `w` (with
fuel at least the length of the input) returns the end of the input and the
single string `s1 ++ s2`, and leaves the error slot as it was. -/
theorem stringLiteral_continuation (fuel p : Nat) (s1 w s2 : List Nat) (error : ParseError)
    (h1 : ∀ c ∈ s1, 0x20 ≤ c ∧ c ≠ 0x22 ∧ c ≠ 0x5C) (hw : ∀ c ∈ w, c ≤ 0x20)
    (h2 : ∀ c ∈ s2, 0x20 ≤ c ∧ c ≠ 0x22 ∧ c ≠ 0x5C)
    (hfuel : (0x22 :: (s1 ++ 0x22 :: (w ++ 0x22 :: (s2 ++ [0x22])))).length ≤ fuel) :
    stringLiteral fuel (some ⟨p, 0x22 :: (s1 ++ 0x22 :: (w ++ 0x22 :: (s2 ++ [0x22])))⟩) error
      = Outcome.ret ⟨some (p + (0x22 :: (s1 ++ 0x22 :: (w ++ 0x22 :: (s2 ++ [0x22])))).length),
          s1 ++ s2, error⟩ := by
  simp only [List.length_cons, List.length_append, List.length_nil] at hfuel ⊢
  obtain ⟨g, rfl⟩ : ∃ g, fuel = (((g + 1) + 1) + s2.length + w.length + 1) + s1.length :=
    ⟨fuel - (s1.length + w.length + s2.length + 3), by omega⟩
  have hq : ¬ ((0x22 : Nat) < 0x20) := by decide
  have hb : ¬ ((0x22 : Nat) = 0x5C) := by decide
  have hws : whitespaceLoop (((g + 1) + 1) + s2.length + w.length) (p + 1 + s1.length + 1)
      (w ++ 0x22 :: (s2 ++ [0x22])) = Outcome.ret (p + 1 + s1.length + 1 + w.length) := by
    rw [whitespaceLoop_blank w _ hw]
    have : g + 1 + 1 + s2.length = (g + 1 + s2.length) + 1 := by omega
    rw [this, whitespaceLoop_quote]
  have hdrop : List.drop (p + 1 + s1.length + 1 + w.length - (p + 1 + s1.length + 1))
      (w ++ 0x22 :: (s2 ++ [0x22])) = 0x22 :: (s2 ++ [0x22]) := by
    rw [Nat.add_sub_cancel_left, List.drop_left]
  obtain ⟨q', tl, hq'⟩ : ∃ q' tl, s2 ++ [0x22] = q' :: tl :=
    List.exists_cons_of_ne_nil (by simp)
  have hfin : stringLiteralLoop (((g + 1) + 1) + s2.length + w.length)
      (p + 1 + s1.length + 1 + w.length + 1) (s2 ++ [0x22]) (s1 ++ []) error
      = Outcome.ret ⟨some (p + 1 + s1.length + 1 + w.length + 1 + s2.length + 1), s1 ++ s2, error⟩ := by
    have e : g + 1 + 1 + s2.length + w.length = ((g + w.length + 1) + 1) + s2.length := by omega
    rw [e, stringLiteralLoop_plain s2 [0x22] h2, stringLiteralLoop, if_neg hq, if_neg hb, if_pos rfl]
    simp only [whitespace, whitespaceLoop_nil, bind_ret, Nat.sub_self, List.drop_zero,
      List.append_nil]
  unfold stringLiteral
  simp only [ne_eq, not_true_eq_false, if_false]
  rw [stringLiteralLoop_plain s1 _ h1, stringLiteralLoop, if_neg hq, if_neg hb, if_pos rfl]
  simp only [whitespace, hws, bind_ret, hdrop]
  rw [List.append_nil] at hfin
  rw [hq'] at hfin ⊢
  simp only [ne_eq, not_true_eq_false, if_false, List.nil_append]
  rw [hfin]
  congr 3
  omega

/-- Witness of C9: the input `"ab" "cd"` (9 bytes) gives `abcd` and the
position 9. -/
theorem stringLiteral_continuation_witness :
    stringLiteral 9 (some ⟨0, [0x22, 0x61, 0x62, 0x22, 0x20, 0x22, 0x63, 0x64, 0x22]⟩)
        ({} : ParseError)
      = Outcome.ret ⟨some 9, [0x61, 0x62, 0x63, 0x64], {}⟩ :=
  stringLiteral_continuation 9 0 [0x61, 0x62] [0x20] [0x63, 0x64] {}
    (by decide) (by decide) (by decide) (by decide)

/-- C10. For every input that starts with a double quote and goes on with
bytes from 0x20 on that are neither a double quote nor a backslash,
`stringLiteral` (with fuel above the number of these bytes) returns the null
position and writes the error `LiteralOutOfRange` tagged `Type::String`,
without a position. -/
theorem stringLiteral_unterminated (fuel p : Nat) (rest : List Nat) (error : ParseError)
    (h : ∀ c ∈ rest, 0x20 ≤ c ∧ c ≠ 0x22 ∧ c ≠ 0x5C) (hfuel : rest.length < fuel) :
    stringLiteral fuel (some ⟨p, 0x22 :: rest⟩) error
      = Outcome.ret ⟨none, [],
          { error := ParseErrorType.LiteralOutOfRange, type := some DdlType.String }⟩ := by
  obtain ⟨g, rfl⟩ : ∃ g, fuel = (g + 1) + rest.length := ⟨fuel - rest.length - 1, by omega⟩
  unfold stringLiteral
  simp only [ne_eq, not_true_eq_false, if_false]
  have := stringLiteralLoop_plain rest [] h (g + 1) (p + 1) [] error
  rw [List.append_nil] at this
  rw [this, stringLiteralLoop]

/-- Witness of C10: the input `"abc` with no closing quote. -/
theorem stringLiteral_unterminated_witness :
    stringLiteral 4 (some ⟨0, [0x22, 0x61, 0x62, 0x63]⟩) ({} : ParseError)
      = Outcome.ret ⟨none, [],
          { error := ParseErrorType.LiteralOutOfRange, type := some DdlType.String }⟩ :=
  stringLiteral_unterminated 4 0 [0x61, 0x62, 0x63] {} (by decide) (by decide)

/-! ## Identifiers -/

theorem isIdentStart_iff (c : Nat) : isIdentStart c = (isAlpha c || c == 0x5F) := by
  simp only [isIdentStart, isAlpha]
  cases h1 : (decide (0x41 ≤ c) && decide (c ≤ 0x5A)) <;>
  cases h2 : (decide (0x61 ≤ c) && decide (c ≤ 0x7A)) <;> simp

theorem isIdentByte_iff (c : Nat) : isIdentByte c = (isAlphaDecimal c || c == 0x5F) := by
  simp only [isIdentByte, isIdentStart_iff, isAlphaDecimal, isBaseN]
  cases isAlpha c <;> cases (c == 0x5F) <;> simp

theorem identifierLoop_eq (cs : List Nat) (i : Nat) :
    identifierLoop i cs = i + (cs.takeWhile isIdentByte).length := by
  induction cs generalizing i with
  | nil => rfl
  | cons c cs ih =>
    by_cases h : isIdentByte c = true
    · have h' : ¬ ((!isAlphaDecimal c && c != 0x5F) = true) := by
        rw [isIdentByte_iff] at h
        cases h1 : isAlphaDecimal c <;> cases h2 : (c == 0x5F) <;> simp_all
      rw [identifierLoop, if_neg h', ih, List.takeWhile_cons_of_pos h, List.length_cons]
      omega
    · have h' : (!isAlphaDecimal c && c != 0x5F) = true := by
        rw [isIdentByte_iff] at h
        cases h1 : isAlphaDecimal c <;> cases h2 : (c == 0x5F) <;> simp_all
      rw [identifierLoop, if_pos h', List.takeWhile_cons_of_neg h]
      rfl

theorem headIs_drop_takeWhile (f : Nat → Bool) (l : List Nat) :
    headIs (l.drop (l.takeWhile f).length) f = false := by
  induction l with
  | nil => rfl
  | cons c cs ih =>
    by_cases h : f c = true
    · rw [List.takeWhile_cons_of_pos h]
      simpa using ih
    · rw [List.takeWhile_cons_of_neg h]
      simpa [headIs] using h

/-- What `identifier` does on a view whose first byte may start an
identifier. -/
theorem identifier_start (p c : Nat) (cs : List Nat) (error : ParseError)
    (h : isIdentStart c = true) :
    identifier (some ⟨p, c :: cs⟩) error
      = ⟨some (p + ((c :: cs).takeWhile isIdentByte).length), (), error⟩ := by
  have h1 : ¬ ((!isAlpha c && c != 0x5F) = true) := by
    rw [isIdentStart_iff] at h
    cases h1 : isAlpha c <;> cases h2 : (c == 0x5F) <;> simp_all
  have h2 : isIdentByte c = true := by simp [isIdentByte, h]
  simp only [identifier, if_neg h1, identifierLoop_eq, List.takeWhile_cons_of_pos h2,
    List.length_cons]
  congr 2
  omega

/-- C11. For every input whose first byte is an ASCII letter or `_`,
`identifier` returns the offset equal to the length of the longest prefix made
of bytes in `[A-Za-z0-9_]` and leaves the error slot as it was; no byte of the
set stands at that offset. For an empty input it fails with
`ExpectedIdentifier`, and for a first byte that is neither a letter nor `_` it
fails with `InvalidIdentifier`. -/
theorem identifier_longest_run (p : Nat) (error : ParseError) :
    (∀ c cs, isIdentStart c = true →
      identifier (some ⟨p, c :: cs⟩) error
          = ⟨some (p + ((c :: cs).takeWhile isIdentByte).length), (), error⟩
        ∧ headIs ((c :: cs).drop ((c :: cs).takeWhile isIdentByte).length) isIdentByte = false)
    ∧ identifier (some ⟨p, []⟩) error
        = ⟨none, (), { error := ParseErrorType.ExpectedIdentifier }⟩
    ∧ (∀ c cs, isIdentStart c = false →
      identifier (some ⟨p, c :: cs⟩) error
        = ⟨none, (), { error := ParseErrorType.InvalidIdentifier, position := some p }⟩) := by
  refine ⟨fun c cs h => ⟨identifier_start p c cs error h, headIs_drop_takeWhile _ _⟩, rfl, ?_⟩
  intro c cs h
  have h1 : (!isAlpha c && c != 0x5F) = true := by
    rw [isIdentStart_iff] at h
    cases h1 : isAlpha c <;> cases h2 : (c == 0x5F) <;> simp_all
  simp only [identifier, if_pos h1]

/-- Witness of C11: on `foo1 x` the offset is 4, and on `1foo` the call fails
with `InvalidIdentifier`. -/
theorem identifier_longest_run_witness :
    identifier (some ⟨0, [0x66, 0x6F, 0x6F, 0x31, 0x20, 0x78]⟩) ({} : ParseError)
        = ⟨some 4, (), {}⟩
    ∧ identifier (some ⟨0, [0x31, 0x66, 0x6F, 0x6F]⟩) ({} : ParseError)
        = ⟨none, (), { error := ParseErrorType.InvalidIdentifier, position := some 0 }⟩ :=
  ⟨((identifier_longest_run 0 {}).1 0x66 [0x6F, 0x6F, 0x31, 0x20, 0x78] (by decide)).1,
   (identifier_longest_run 0 {}).2.2 0x31 [0x66, 0x6F, 0x6F] (by decide)⟩

/-! ## Comments without terminator -/

/-- A `/*` comment whose inner loop ends without `break` leaves `i` where it
was: no amount of fuel lets the loop of `whitespace` return. -/
theorem whitespaceLoop_open_block (rest : List Nat) (i : Nat)
    (h : blockCommentEnd (i + 2) rest = none) (fuel : Nat) :
    whitespaceLoop fuel i (0x2F :: 0x2A :: rest) = Outcome.outOfFuel := by
  induction fuel with
  | zero => rfl
  | succ n ih =>
    have hv : ¬ (charValue 0x2F ≤ 32) := by decide
    simp only [whitespaceLoop, hv, if_false]
    simp [h, ih]

/-- A `//` comment with no line feed after it leaves `i` where it was. -/
theorem whitespaceLoop_open_line (rest : List Nat) (i : Nat)
    (h : lineCommentEnd (i + 2) rest = none) (fuel : Nat) :
    whitespaceLoop fuel i (0x2F :: 0x2F :: rest) = Outcome.outOfFuel := by
  induction fuel with
  | zero => rfl
  | succ n ih =>
    have hv : ¬ (charValue 0x2F ≤ 32) := by decide
    simp only [whitespaceLoop, hv, if_false]
    simp [h, ih]

/-- C12, on the code. On `/* abc` and on `// abc` the loop of `whitespace`
never leaves the comment: whatever the fuel, the call does not return, where
the claim has it return the end of the input. -/
theorem whitespace_open_comment (fuel : Nat) :
    whitespace fuel (some ⟨0, [0x2F, 0x2A, 0x20, 0x61, 0x62, 0x63]⟩) = Outcome.outOfFuel
    ∧ whitespace fuel (some ⟨0, [0x2F, 0x2F, 0x20, 0x61, 0x62, 0x63]⟩) = Outcome.outOfFuel := by
  constructor
  · simp only [whitespace]
    rw [whitespaceLoop_open_block [0x20, 0x61, 0x62, 0x63] 0 (by decide) fuel]
    rfl
  · simp only [whitespace]
    rw [whitespaceLoop_open_line [0x20, 0x61, 0x62, 0x63] 0 (by decide) fuel]
    rfl

/-- C13, on the code. On the input `"a"/*` (a closed string followed by a
comment without terminator) `stringLiteral` calls `whitespace` after the
closing quote and, whatever the fuel, does not return. -/
theorem stringLiteral_open_comment (fuel : Nat) :
    stringLiteral fuel (some ⟨0, [0x22, 0x61, 0x22, 0x2F, 0x2A]⟩) ({} : ParseError)
      = Outcome.outOfFuel := by
  have hw : ∀ f, whitespace f (some ⟨3, [0x2F, 0x2A]⟩) = Outcome.outOfFuel := by
    intro f
    simp only [whitespace]
    rw [whitespaceLoop_open_block [] 3 (by decide) f]
    rfl
  match fuel with
  | 0 => rfl
  | 1 => rfl
  | f + 2 =>
    simp [stringLiteral, stringLiteralLoop, hw]
    rfl

/-! ## Error propagation -/

/-- C14. Poison in, poison out: handed the null view, each of `whitespace`,
`identifier`, `boolLiteral`, `integralLiteral`, `floatingPointLiteral`,
`stringLiteral`, `nameLiteral`, `referenceLiteral`, `possiblyTypeLiteral`,
`typeLiteral` and `propertyValue` returns the null position, and the error
slot, the scratch buffer and the output fields are what they were before the
call. -/
theorem poison_in_poison_out (fuel : Nat) (T : IntegralT) (F : FloatT) (buffer : List Nat)
    (error : ParseError) (o : PropertyOutputs) :
    whitespace fuel none = Outcome.ret none
    ∧ identifier none error = ⟨none, (), error⟩
    ∧ boolLiteral none error = ⟨none, false, error⟩
    ∧ integralLiteral T none buffer error = Outcome.ret ⟨none, 0, 0, buffer, error⟩
    ∧ floatingPointLiteral F none buffer error
        = Outcome.ret ⟨none, FloatValue.zero, buffer, error⟩
    ∧ stringLiteral fuel none error = Outcome.ret ⟨none, [], error⟩
    ∧ nameLiteral none error = ⟨none, [], error⟩
    ∧ referenceLiteral fuel none error = Outcome.ret ⟨none, none, error⟩
    ∧ possiblyTypeLiteral none = (none, DdlType.Bool)
    ∧ typeLiteral none error = ⟨none, DdlType.Bool, error⟩
    ∧ propertyValue fuel none o = Outcome.ret ⟨none, InternalPropertyType.Bool, o⟩ :=
  ⟨rfl, rfl, rfl, rfl, rfl, rfl, rfl, rfl, rfl, rfl, rfl⟩

/-- Counterexample to C15: on the input `'\q'` the escape decoder, run on the
bytes after the opening quote, reports `InvalidEscapeSequence`, and the error
left by `characterLiteral` is `InvalidCharacterLiteral`: the first error is
overwritten. -/
theorem characterLiteral_backslash_q :
    escapedChar (some ⟨1, [0x5C, 0x71, 0x27]⟩) ({} : ParseError)
        = Outcome.ret ⟨none, 0,
            { error := ParseErrorType.InvalidEscapeSequence, position := some 1 }⟩
    ∧ characterLiteral (some ⟨0, [0x27, 0x5C, 0x71, 0x27]⟩) ({} : ParseError)
        = Outcome.ret ⟨none, 0,
            { error := ParseErrorType.InvalidCharacterLiteral, position := some 0 }⟩ := by
  decide

theorem floatScan_quote (rest : List Nat) : floatScan (0x27 :: rest) = false := by
  simp [floatScan, isBaseN]

/-- C15, amended. When the escape decoder rejects the escape sequence of a
character literal, `characterLiteral` returns the null position and the error
the caller observes is `InvalidCharacterLiteral` at the start of the literal,
written over the `InvalidEscapeSequence` of the decoder; `integralLiteral`
and `propertyValue` reaching it hand the same error on, with the base 256 and
the tag `Character`. -/
theorem characterLiteral_rejected_escape (fuel p c2 : Nat) (rest : List Nat) (T : IntegralT)
    (buffer : List Nat) (error : ParseError) (o : PropertyOutputs) (r : Parsed Nat)
    (hesc : escapedChar (some ⟨p + 1, 0x5C :: c2 :: rest⟩) error = Outcome.ret r)
    (hrej : r.pos = none) :
    characterLiteral (some ⟨p, 0x27 :: 0x5C :: c2 :: rest⟩) error
        = Outcome.ret ⟨none, 0,
            { error := ParseErrorType.InvalidCharacterLiteral, position := some p }⟩
    ∧ integralLiteral T (some ⟨p, 0x27 :: 0x5C :: c2 :: rest⟩) buffer error
        = Outcome.ret ⟨none, 0, 256, buffer,
            { error := ParseErrorType.InvalidCharacterLiteral, position := some p }⟩
    ∧ propertyValue fuel (some ⟨p, 0x27 :: 0x5C :: c2 :: rest⟩) { o with error := error }
        = Outcome.ret ⟨none, InternalPropertyType.Character,
            { o with integerValue := 0,
                     error := { error := ParseErrorType.InvalidCharacterLiteral,
                                position := some p } }⟩ := by
  have hc : characterLiteral (some ⟨p, 0x27 :: 0x5C :: c2 :: rest⟩) error
      = Outcome.ret ⟨none, 0,
          { error := ParseErrorType.InvalidCharacterLiteral, position := some p }⟩ := by
    have h1 : ¬ (((0x20 ≤ 0x5C ∧ 0x5C < 0x27) ∨ (0x27 < 0x5C ∧ 0x5C < 0x5C)
        ∨ (0x5C < 0x5C ∧ 0x5C ≤ 0x7E)) ∧ c2 = 0x27) := by omega
    simp only [characterLiteral, if_true, if_neg h1, hesc, bind_ret, hrej]
    rfl
  have hi : ∀ T' b, integralLiteral T' (some ⟨p, 0x27 :: 0x5C :: c2 :: rest⟩) b error
      = Outcome.ret ⟨none, 0, 256, b,
          { error := ParseErrorType.InvalidCharacterLiteral, position := some p }⟩ := by
    intro T' b
    have n1 : ¬ ((0x27 : Nat) = 0x2B) := by decide
    have n2 : ¬ ((0x27 : Nat) = 0x2D) := by decide
    simp only [integralLiteral, if_neg n1, if_neg n2, integralLiteralBody, if_true, hc, bind_ret]
    have hz : wrapT T' (1 * wrapT T' (charValue 0)) = 0 := by
      have : charValue 0 = 0 := by decide
      rw [this, wrapT_zero, Int.mul_zero, wrapT_zero]
    rw [hz]
  refine ⟨hc, hi T buffer, ?_⟩
  have n1 : ¬ ((0x27 : Nat) = 0x22) := by decide
  have n2 : ¬ ((0x27 : Nat) = 0x25 ∨ (0x27 : Nat) = 0x24) := by decide
  have n3 : (0x30 ≤ 0x27 ∧ 0x27 ≤ 0x39) ∨ (0x27 : Nat) = 0x2E ∨ (0x27 : Nat) = 0x27 := by decide
  simp only [propertyValue, if_neg n1, if_neg n2, if_pos n3, floatScan_quote, hi, bind_ret]
  simp

/-- Witness of C15 as amended: the input `'\q'`. -/
theorem characterLiteral_rejected_escape_witness :
    characterLiteral (some ⟨0, [0x27, 0x5C, 0x71, 0x27]⟩) ({} : ParseError)
        = Outcome.ret ⟨none, 0,
            { error := ParseErrorType.InvalidCharacterLiteral, position := some 0 }⟩ :=
  (characterLiteral_rejected_escape 0 0 0x71 [0x27] IntegralT.Int [] {}
    ⟨false, 0, FloatValue.zero, [], none, DdlType.Bool, [], {}⟩
    ⟨none, 0, { error := ParseErrorType.InvalidEscapeSequence, position := some 1 }⟩
    (by decide) rfl).1

/-- C16, at the failing input. `floatingPointLiteral<Float>` on `5. ` (digit,
dot, blank) succeeds with the end offset 2 and converts the text `5.`; run
again on the slice of the first 2 bytes, `5.`, it returns the end offset 1 and
converts the text `5`: the dot is taken only when a byte follows it. -/
theorem floatingPointLiteral_not_idempotent :
    floatingPointLiteral FloatT.Float (some ⟨0, [0x35, 0x2E, 0x20]⟩) [] ({} : ParseError)
        = Outcome.ret ⟨some 2, FloatValue.fromText [0x35, 0x2E], [0x35, 0x2E], {}⟩
    ∧ floatingPointLiteral FloatT.Float (some ⟨0, [0x35, 0x2E, 0x20].take 2⟩) []
          ({} : ParseError)
        = Outcome.ret ⟨some 1, FloatValue.fromText [0x35], [0x35], {}⟩ := by
  decide

/-! ## Escape sequences -/

theorem escapedChar_eq_lookup (p c1 : Nat) (rest : List Nat) (error : ParseError) :
    escapedChar (some ⟨p, 0x5C :: c1 :: rest⟩) error
      = match List.lookup c1 simpleEscapes with
        | some v => Outcome.ret ⟨some (p + 2), v, error⟩
        | none =>
          if c1 = 0x78 ∧ startsWithTwoHexDigits rest = true then
            Outcome.ret ⟨some (p + 4), parseHex rest, error⟩
          else Outcome.ret ⟨none, 0,
            { error := ParseErrorType.InvalidEscapeSequence, position := some p }⟩ := by
  by_cases h : c1 ∈ [0x5C, 0x27, 0x61, 0x62, 0x66, 0x6E, 0x72, 0x74, 0x76, 0x3F, 0x22]
  · simp only [List.mem_cons, List.mem_singleton, List.not_mem_nil, or_false] at h
    rcases h with rfl | rfl | rfl | rfl | rfl | rfl | rfl | rfl | rfl | rfl | rfl <;>
      simp [escapedChar, simpleEscapes, List.lookup]
  · simp only [List.mem_cons, List.mem_singleton, List.not_mem_nil, or_false, not_or] at h
    obtain ⟨h1, h2, h3, h4, h5, h6, h7, h8, h9, h10, h11⟩ := h
    have hl : List.lookup c1 simpleEscapes = none := by
      simp [simpleEscapes, List.lookup, beq_eq_false_iff_ne.2 h1, beq_eq_false_iff_ne.2 h2,
        beq_eq_false_iff_ne.2 h3, beq_eq_false_iff_ne.2 h4, beq_eq_false_iff_ne.2 h5,
        beq_eq_false_iff_ne.2 h6, beq_eq_false_iff_ne.2 h7, beq_eq_false_iff_ne.2 h8,
        beq_eq_false_iff_ne.2 h9, beq_eq_false_iff_ne.2 h10, beq_eq_false_iff_ne.2 h11]
    have h1011 : ¬ (c1 = 0x3F ∨ c1 = 0x22) := by
      rintro (h | h)
      · exact h10 h
      · exact h11 h
    rw [hl]
    simp only [escapedChar, ne_eq, not_true_eq_false, if_false, if_neg h1, if_neg h2, if_neg h3,
      if_neg h4, if_neg h5, if_neg h6, if_neg h7, if_neg h8, if_neg h9, if_neg h1011]
    rcases rest with _ | ⟨a, _ | ⟨b, tl⟩⟩
    · simp [startsWithTwoHexDigits]
    · simp [startsWithTwoHexDigits]
    · by_cases hx : c1 = 0x78 <;> simp [startsWithTwoHexDigits, hx]

/-- C19. On a view that starts with a backslash: when the second byte is one of
`\ ' a b f n r t v ? "`, `escapedChar` returns the position 2 bytes on and the
character of the table (0x5C for both `\\` and `\'`), leaving the error slot as
it was; when the view has no second byte, or the second byte is none of these
and is not an `x` followed by two hex digits, it returns the null position with
the error `InvalidEscapeSequence`. -/
theorem escapedChar_table (p : Nat) (error : ParseError) :
    (∀ c1 v rest, List.lookup c1 simpleEscapes = some v →
      escapedChar (some ⟨p, 0x5C :: c1 :: rest⟩) error
        = Outcome.ret ⟨some (p + 2), v, error⟩)
    ∧ escapedChar (some ⟨p, [0x5C]⟩) error
        = Outcome.ret ⟨none, 0,
            { error := ParseErrorType.InvalidEscapeSequence, position := some p }⟩
    ∧ (∀ c1 rest, List.lookup c1 simpleEscapes = none →
        ¬ (c1 = 0x78 ∧ startsWithTwoHexDigits rest = true) →
      escapedChar (some ⟨p, 0x5C :: c1 :: rest⟩) error
        = Outcome.ret ⟨none, 0,
            { error := ParseErrorType.InvalidEscapeSequence, position := some p }⟩) := by
  refine ⟨?_, rfl, ?_⟩
  · intro c1 v rest h
    rw [escapedChar_eq_lookup, h]
  · intro c1 rest h hx
    rw [escapedChar_eq_lookup, h]
    simp only [if_neg hx]

/-- Witness of C19: `\n` gives 0x0A, `\'` gives 0x5C, and `\q` is rejected. -/
theorem escapedChar_table_witness :
    escapedChar (some ⟨0, [0x5C, 0x6E]⟩) ({} : ParseError) = Outcome.ret ⟨some 2, 0x0A, {}⟩
    ∧ escapedChar (some ⟨0, [0x5C, 0x27, 0x27]⟩) ({} : ParseError)
        = Outcome.ret ⟨some 2, 0x5C, {}⟩
    ∧ escapedChar (some ⟨0, [0x5C, 0x71]⟩) ({} : ParseError)
        = Outcome.ret ⟨none, 0,
            { error := ParseErrorType.InvalidEscapeSequence, position := some 0 }⟩ :=
  ⟨(escapedChar_table 0 {}).1 0x6E 0x0A [] (by decide),
   (escapedChar_table 0 {}).1 0x27 0x5C [0x27] (by decide),
   (escapedChar_table 0 {}).2.2 0x71 [] (by decide) (by decide)⟩

/-! ## Character literals -/

theorem escapedChar_some (q c1 : Nat) (rest : List Nat) (error : ParseError) (r : Parsed Nat)
    (i : Nat) (h : escapedChar (some ⟨q, 0x5C :: c1 :: rest⟩) error = Outcome.ret r)
    (hi : r.pos = some i) : (i = q + 2 ∨ i = q + 4) ∧ r.error = error := by
  rw [escapedChar_eq_lookup] at h
  cases hl : List.lookup c1 simpleEscapes with
  | some v =>
    rw [hl] at h
    simp only [Outcome.ret.injEq] at h
    subst h
    simp only [Option.some.injEq] at hi
    exact ⟨Or.inl hi.symm, rfl⟩
  | none =>
    rw [hl] at h
    simp only at h
    split_ifs at h with hx
    · simp only [Outcome.ret.injEq] at h
      subst h
      simp only [Option.some.injEq] at hi
      exact ⟨Or.inr hi.symm, rfl⟩
    · simp only [Outcome.ret.injEq] at h
      subst h
      simp at hi

theorem escapedChar_starts (q : Nat) (l : List Nat) (error : ParseError) (r : Parsed Nat)
    (h : escapedChar (some ⟨q, l⟩) error = Outcome.ret r) : ∃ tl, l = 0x5C :: tl := by
  cases l with
  | nil => simp [escapedChar] at h
  | cons a tl =>
    by_cases ha : a = 0x5C
    · exact ⟨tl, by rw [ha]⟩
    · simp [escapedChar, ha] at h

/-- The second shape of a character literal: an escape that the decoder, run
on the bytes after the opening quote, accepts up to a closing quote. -/
theorem characterLiteral_escape (p : Nat) (esc : List Nat) (v : Nat) (rest : List Nat)
    (error : ParseError)
    (h : escapedChar (some ⟨p + 1, esc ++ 0x27 :: rest⟩) error
      = Outcome.ret ⟨some (p + 1 + esc.length), v, error⟩) :
    characterLiteral (some ⟨p, 0x27 :: (esc ++ 0x27 :: rest)⟩) error
      = Outcome.ret ⟨some (p + 1 + esc.length + 1), v, error⟩ := by
  obtain ⟨tl, htl⟩ := escapedChar_starts _ _ _ _ h
  obtain ⟨c2, tl2, htl2⟩ : ∃ c2 tl2, tl = c2 :: tl2 := by
    cases tl with
    | nil =>
      exfalso
      cases esc with
      | nil => simp at htl
      | cons a as => simp at htl
    | cons c2 tl2 => exact ⟨c2, tl2, rfl⟩
  subst htl2
  have hdrop : List.drop (p + 1 + esc.length - (p + 1)) (0x5C :: c2 :: tl2) = 0x27 :: rest := by
    rw [← htl, Nat.add_sub_cancel_left, List.drop_left]
  have h1 : ¬ (((0x20 ≤ 0x5C ∧ 0x5C < 0x27) ∨ (0x27 < 0x5C ∧ 0x5C < 0x5C)
      ∨ (0x5C < 0x5C ∧ 0x5C ≤ 0x7E)) ∧ c2 = 0x27) := by omega
  rw [htl] at h ⊢
  simp only [characterLiteral, if_true, if_neg h1, h, bind_ret, hdrop]

/-- C20. `characterLiteral` succeeds on the two shapes and on nothing else:
(1) a quote, one byte from 0x20 to 0x7E other than the quote and the
backslash, and a quote give the end offset 3 and that byte; (2) a quote, an
escape accepted by `escapedChar` and a quote give the offset after the closing
quote and the decoded character; every other input (the null view included)
gives the null position and the error `InvalidCharacterLiteral`. -/
theorem characterLiteral_shapes (error : ParseError) :
    (∀ p c rest, 0x20 ≤ c → c ≤ 0x7E → c ≠ 0x27 → c ≠ 0x5C →
      characterLiteral (some ⟨p, 0x27 :: c :: 0x27 :: rest⟩) error
        = Outcome.ret ⟨some (p + 3), c, error⟩)
    ∧ (∀ p esc v rest,
        escapedChar (some ⟨p + 1, esc ++ 0x27 :: rest⟩) error
          = Outcome.ret ⟨some (p + 1 + esc.length), v, error⟩ →
      characterLiteral (some ⟨p, 0x27 :: (esc ++ 0x27 :: rest)⟩) error
        = Outcome.ret ⟨some (p + 1 + esc.length + 1), v, error⟩)
    ∧ (∀ data : Option ArrayReference,
        (¬ ∃ p c rest, data = some ⟨p, 0x27 :: c :: 0x27 :: rest⟩
            ∧ 0x20 ≤ c ∧ c ≤ 0x7E ∧ c ≠ 0x27 ∧ c ≠ 0x5C) →
        (¬ ∃ p esc v rest, data = some ⟨p, 0x27 :: (esc ++ 0x27 :: rest)⟩
            ∧ escapedChar (some ⟨p + 1, esc ++ 0x27 :: rest⟩) error
              = Outcome.ret ⟨some (p + 1 + esc.length), v, error⟩) →
      characterLiteral data error
        = Outcome.ret ⟨none, 0,
            { error := ParseErrorType.InvalidCharacterLiteral,
              position := data.map (fun d => d.ptr) }⟩) := by
  refine ⟨?_, fun p esc v rest h => characterLiteral_escape p esc v rest error h, ?_⟩
  · intro p c rest h1 h2 h3 h4
    have hc : (0x20 ≤ c ∧ c < 0x27) ∨ (0x27 < c ∧ c < 0x5C) ∨ (0x5C < c ∧ c ≤ 0x7E) := by
      omega
    simp only [characterLiteral, if_true, hc, and_self]
  · intro data hs1 hs2
    unfold characterLiteral
    split
    · rename_i p c0 c1 c2 rest
      by_cases h0 : c0 = 0x27
      · subst h0
        rw [if_pos rfl]
        by_cases h1 : ((0x20 ≤ c1 ∧ c1 < 0x27) ∨ (0x27 < c1 ∧ c1 < 0x5C)
            ∨ (0x5C < c1 ∧ c1 ≤ 0x7E)) ∧ c2 = 0x27
        · exfalso
          obtain ⟨h1a, rfl⟩ := h1
          exact hs1 ⟨p, c1, rest, rfl, by omega, by omega, by omega, by omega⟩
        · rw [if_neg h1]
          by_cases h2 : c1 = 0x5C
          · subst h2
            rw [if_pos rfl]
            obtain ⟨r, hr⟩ := escapedChar_ret (p + 1) (c2 :: rest) error
            rw [hr, bind_ret]
            cases hpos : r.pos with
            | none => rfl
            | some i =>
              simp only
              obtain ⟨hi, he⟩ := escapedChar_some (p + 1) c2 rest error r i hr hpos
              cases hd : List.drop (i - (p + 1)) (0x5C :: c2 :: rest) with
              | nil => rfl
              | cons q tl =>
                simp only
                by_cases hq : q = 0x27
                · exfalso
                  subst hq
                  have hlen : i - (p + 1) < (0x5C :: c2 :: rest).length := by
                    by_contra hge
                    rw [List.drop_eq_nil_of_le (by omega)] at hd
                    exact absurd hd (by simp)
                  have hsplit : (0x5C :: c2 :: rest)
                      = List.take (i - (p + 1)) (0x5C :: c2 :: rest) ++ 0x27 :: tl := by
                    rw [← hd, List.take_append_drop]
                  have htake : (List.take (i - (p + 1)) (0x5C :: c2 :: rest)).length
                      = i - (p + 1) := by
                    rw [List.length_take]; omega
                  refine hs2 ⟨p, List.take (i - (p + 1)) (0x5C :: c2 :: rest), r.value, tl, ?_, ?_⟩
                  · rw [← hsplit]
                  · rw [← hsplit, hr, htake]
                    have : p + 1 + (i - (p + 1)) = i := by omega
                    rw [this]
                    cases r
                    simp only at hpos he
                    subst hpos he
                    rfl
                · rw [if_neg hq]
                  rfl
          · rw [if_neg h2]
            rfl
      · rw [if_neg h0]
        rfl
    · rfl

/-- Witness of C20: `'A'` gives 65, `'\n'` gives 0x0A, and `'AB'` fails with
`InvalidCharacterLiteral`. -/
theorem characterLiteral_shapes_witness :
    characterLiteral (some ⟨0, [0x27, 0x41, 0x27]⟩) ({} : ParseError)
        = Outcome.ret ⟨some 3, 0x41, {}⟩
    ∧ characterLiteral (some ⟨0, [0x27, 0x5C, 0x6E, 0x27]⟩) ({} : ParseError)
        = Outcome.ret ⟨some 4, 0x0A, {}⟩
    ∧ characterLiteral (some ⟨0, [0x27, 0x41, 0x42]⟩) ({} : ParseError)
        = Outcome.ret ⟨none, 0,
            { error := ParseErrorType.InvalidCharacterLiteral, position := some 0 }⟩ :=
  ⟨(characterLiteral_shapes {}).1 0 0x41 [] (by decide) (by decide) (by decide) (by decide),
   (characterLiteral_shapes {}).2.1 0 [0x5C, 0x6E] 0x0A [] (by decide),
   (characterLiteral_shapes {}).2.2 (some ⟨0, [0x27, 0x41, 0x42]⟩)
    (by
      rintro ⟨p, c, rest, h, -⟩
      simp at h)
    (by
      rintro ⟨p, esc, v, rest, h, he⟩
      simp only [Option.some.injEq, ArrayReference.mk.injEq, List.cons.injEq, true_and] at h
      obtain ⟨-, hl⟩ := h
      rw [← hl] at he
      simp [escapedChar] at he)⟩

/-! ## Reference literals -/

theorem drop_takeWhile_length (f : Nat → Bool) (l : List Nat) :
    l.drop (l.takeWhile f).length = l.dropWhile f := by
  induction l with
  | nil => rfl
  | cons c cs ih =>
    by_cases h : f c = true
    · rw [List.takeWhile_cons_of_pos h, List.dropWhile_cons_of_pos h]
      simpa using ih
    · rw [List.takeWhile_cons_of_neg h, List.dropWhile_cons_of_neg h]
      rfl

theorem takeWhile_append_of_all (f : Nat → Bool) (a b : List Nat)
    (ha : ∀ x ∈ a, f x = true) (hb : headIs b f = false) : (a ++ b).takeWhile f = a := by
  induction a with
  | nil =>
    cases b with
    | nil => rfl
    | cons c cs =>
      have : ¬ (f c = true) := by simpa [headIs] using hb
      simp [List.takeWhile_cons_of_neg this]
  | cons c cs ih =>
    have hc : f c = true := ha c (List.mem_cons_self _ _)
    rw [List.cons_append, List.takeWhile_cons_of_pos hc,
      ih (fun x hx => ha x (List.mem_cons_of_mem _ hx))]

theorem isIdentifierText_cons (s : List Nat) (h : isIdentifierText s = true) :
    ∃ c cs, s = c :: cs ∧ isIdentStart c = true ∧ ∀ x ∈ cs, isIdentByte x = true := by
  cases s with
  | nil => simp [isIdentifierText] at h
  | cons c cs =>
    simp only [isIdentifierText, Bool.and_eq_true, List.all_eq_true] at h
    exact ⟨c, cs, rfl, h.1, h.2⟩

/-- On an identifier text followed by a byte outside the set, `identifier`
returns the end of the text. -/
theorem identifier_text (i : Nat) (s rest : List Nat) (error : ParseError)
    (hs : isIdentifierText s = true) (hrest : headIs rest isIdentByte = false) :
    identifier (some ⟨i, s ++ rest⟩) error = ⟨some (i + s.length), (), error⟩ := by
  obtain ⟨c, cs, rfl, hc, hcs⟩ := isIdentifierText_cons s hs
  have hall : ∀ x ∈ c :: cs, isIdentByte x = true := by
    intro x hx
    rcases List.mem_cons.1 hx with rfl | hx
    · simp [isIdentByte, hc]
    · exact hcs x hx
  rw [List.cons_append, identifier_start i c (cs ++ rest) error hc, ← List.cons_append,
    takeWhile_append_of_all isIdentByte (c :: cs) rest hall hrest]

/-- A successful call of `identifier` has read an identifier text, up to a
byte outside the set, and has left the error slot as it was. -/
theorem identifier_some (i : Nat) (l : List Nat) (error : ParseError) (e : Nat)
    (h : (identifier (some ⟨i, l⟩) error).pos = some e) :
    ∃ s rest, l = s ++ rest ∧ isIdentifierText s = true ∧ headIs rest isIdentByte = false
      ∧ e = i + s.length ∧ (identifier (some ⟨i, l⟩) error).error = error := by
  cases l with
  | nil => simp [identifier] at h
  | cons c cs =>
    by_cases hc : isIdentStart c = true
    · rw [identifier_start i c cs error hc] at h ⊢
      simp only [Option.some.injEq] at h
      refine ⟨(c :: cs).takeWhile isIdentByte, (c :: cs).drop ((c :: cs).takeWhile isIdentByte).length,
        ?_, ?_, headIs_drop_takeWhile _ _, h.symm, rfl⟩
      · conv_lhs => rw [← List.takeWhile_append_dropWhile isIdentByte (c :: cs)]
        congr 1
        exact (drop_takeWhile_length isIdentByte (c :: cs)).symm
      · have hb : isIdentByte c = true := by simp [isIdentByte, hc]
        rw [List.takeWhile_cons_of_pos hb]
        simp only [isIdentifierText, hc, Bool.true_and, List.all_eq_true]
        intro x hx
        exact mem_takeWhile_holds _ cs x hx
    · have h1 : (!isAlpha c && c != 0x5F) = true := by
        rw [isIdentStart_iff] at hc
        cases h1 : isAlpha c <;> cases h2 : (c == 0x5F) <;> simp_all
      simp [identifier, h1] at h

/-- A failed call of `identifier` on a non-null view leaves `ExpectedIdentifier`
or `InvalidIdentifier`. -/
theorem identifier_none (i : Nat) (l : List Nat) (error : ParseError)
    (h : (identifier (some ⟨i, l⟩) error).pos = none) :
    (identifier (some ⟨i, l⟩) error).error = { error := ParseErrorType.ExpectedIdentifier }
      ∨ (identifier (some ⟨i, l⟩) error).error
          = { error := ParseErrorType.InvalidIdentifier, position := some i } := by
  cases l with
  | nil => exact Or.inl rfl
  | cons c cs =>
    by_cases hc : isIdentStart c = true
    · rw [identifier_start i c cs error hc] at h
      simp at h
    · have h1 : (!isAlpha c && c != 0x5F) = true := by
        rw [isIdentStart_iff] at hc
        cases h1 : isAlpha c <;> cases h2 : (c == 0x5F) <;> simp_all
      right
      simp [identifier, h1]

theorem prefixMatch_kwNull_append (p : Nat) (rest : List Nat) :
    prefixMatch (some ⟨p, kwNull ++ rest⟩) kwNull = some (p + 4) := by
  simp [prefixMatch, kwNull, equalsPrefix, strncmpEq]

theorem prefixMatch_kwNull_some (p : Nat) (bytes : List Nat) (e : Nat)
    (h : prefixMatch (some ⟨p, bytes⟩) kwNull = some e) :
    ∃ rest, bytes = kwNull ++ rest := by
  rcases bytes with _ | ⟨a, _ | ⟨b, _ | ⟨c, _ | ⟨d, rest⟩⟩⟩⟩
  · simp [prefixMatch, kwNull] at h
  · simp [prefixMatch, kwNull] at h
  · simp [prefixMatch, kwNull] at h
  · simp [prefixMatch, kwNull] at h
  · refine ⟨rest, ?_⟩
    simp only [prefixMatch, kwNull, List.length_cons, List.length_nil, equalsPrefix,
      List.take_succ_cons, List.take_zero] at h
    by_cases ha : a = 0x6E
    · by_cases hb : b = 0x75
      · by_cases hc : c = 0x6C
        · by_cases hd : d = 0x6C
          · subst ha hb hc hd
            rfl
          · exfalso; subst ha hb hc; simp [strncmpEq, hd] at h
        · exfalso; subst ha hb; simp [strncmpEq, hc] at h
      · exfalso; subst ha; simp [strncmpEq, hb] at h
    · exfalso; simp [strncmpEq, ha] at h

theorem headIs_segments_append (ids : List (List Nat)) (rest : List Nat)
    (hrest : headIs rest (fun c => c == 0x25 || isIdentByte c) = false) :
    headIs (segments ids ++ rest) isIdentByte = false := by
  cases ids with
  | nil =>
    exact headIs_mono _ _ _ (fun c hc => by simp [hc]) hrest
  | cons id more => rfl

/-- The loop of `referenceLiteral` over a chain of segments followed by a byte
that is neither `%` nor in the identifier set. -/
theorem referenceLiteralLoop_segments (ids : List (List Nat)) (rest : List Nat)
    (hids : ∀ id ∈ ids, isIdentifierText id = true)
    (hrest : headIs rest (fun c => c == 0x25 || isIdentByte c) = false)
    (fuel i : Nat) (error : ParseError) (hfuel : ids.length < fuel) :
    referenceLiteralLoop fuel i (segments ids ++ rest) error
      = Outcome.ret (some (i + (segments ids).length), error) := by
  induction ids generalizing fuel i with
  | nil =>
    obtain ⟨f, rfl⟩ : ∃ f, fuel = f + 1 := ⟨fuel - 1, by simp at hfuel; omega⟩
    cases rest with
    | nil => simp [segments, referenceLiteralLoop]
    | cons c cs =>
      have hc : c ≠ 0x25 := by
        intro hc
        simp [headIs, hc] at hrest
      simp [segments, referenceLiteralLoop, hc]
  | cons id more ih =>
    obtain ⟨f, rfl⟩ : ∃ f, fuel = f + 1 := ⟨fuel - 1, by simp at hfuel; omega⟩
    have hid := hids id (List.mem_cons_self _ _)
    have hmore : ∀ x ∈ more, isIdentifierText x = true := fun x hx => hids x (List.mem_cons_of_mem _ hx)
    have hident := identifier_text (i + 1) id (segments more ++ rest) error hid
      (headIs_segments_append more rest hrest)
    have hdrop : List.drop (i + 1 + id.length - (i + 1)) (id ++ (segments more ++ rest))
        = segments more ++ rest := by
      rw [Nat.add_sub_cancel_left, List.drop_left]
    have hlen : more.length < f := by
      simp only [List.length_cons] at hfuel
      omega
    have e : segments (id :: more) ++ rest = 0x25 :: (id ++ (segments more ++ rest)) := by
      simp [segments]
    have e2 : (segments (id :: more)).length = id.length + (segments more).length + 1 := by
      simp [segments]
    rw [e, e2]
    simp only [referenceLiteralLoop, ne_eq, not_true_eq_false, if_false, hident, hdrop,
      ih hmore f (i + 1 + id.length) hlen, Outcome.ret.injEq, Prod.mk.injEq,
      Option.some.injEq, and_true]
    omega

/-- A run of the loop of `referenceLiteral` that ends with a position has read
a chain of segments, and has left the error slot as it was. -/
theorem referenceLiteralLoop_some (fuel : Nat) :
    ∀ (i : Nat) (l : List Nat) (error : ParseError) (e : Nat) (err : ParseError),
      referenceLiteralLoop fuel i l error = Outcome.ret (some e, err) →
      headIs l isIdentByte = false →
      ∃ ids rest, l = segments ids ++ rest ∧ (∀ id ∈ ids, isIdentifierText id = true)
        ∧ headIs rest (fun c => c == 0x25 || isIdentByte c) = false
        ∧ e = i + (segments ids).length ∧ err = error ∧ ids.length < fuel := by
  induction fuel with
  | zero =>
    intro i l error e err h
    simp [referenceLiteralLoop] at h
  | succ f ih =>
    intro i l error e err h hl
    cases l with
    | nil =>
      simp only [referenceLiteralLoop, Outcome.ret.injEq, Prod.mk.injEq, Option.some.injEq] at h
      exact ⟨[], [], rfl, by simp, rfl, by simp [segments, h.1], h.2.symm, by simp⟩
    | cons c cs =>
      by_cases hc : c = 0x25
      · subst hc
        simp only [referenceLiteralLoop, ne_eq, not_true_eq_false, if_false] at h
        cases hp : (identifier (some ⟨i + 1, cs⟩) error).pos with
        | none =>
          rw [hp] at h
          simp at h
        | some i' =>
          rw [hp] at h
          simp only at h
          obtain ⟨s, rest', hcs, hs, hr', hi', he'⟩ := identifier_some (i + 1) cs error i' hp
          have hdrop : List.drop (i' - (i + 1)) cs = rest' := by
            rw [hi', hcs, Nat.add_sub_cancel_left, List.drop_left]
          rw [hdrop, he'] at h
          obtain ⟨ids, rest, hl', hids, hrest, he, herr, hlen⟩ := ih i' rest' error e err h hr'
          refine ⟨s :: ids, rest, ?_, ?_, hrest, ?_, herr, ?_⟩
          · simp [segments, hcs, hl']
          · intro x hx
            rcases List.mem_cons.1 hx with rfl | hx
            · exact hs
            · exact hids x hx
          · simp only [segments, List.length_cons, List.length_append]
            omega
          · simp only [List.length_cons]
            omega
      · simp only [referenceLiteralLoop, ne_eq, hc, not_false_eq_true, if_true,
          Outcome.ret.injEq, Prod.mk.injEq, Option.some.injEq] at h
        refine ⟨[], c :: cs, rfl, by simp, ?_, by simp [segments, h.1], h.2.symm, by simp⟩
        have hb : isIdentByte c = false := by simpa [headIs] using hl
        simp [headIs, hc, hb]

/-- With fuel above the number of bytes the loop of `referenceLiteral`
returns, and a null position comes with the error of `identifier`. -/
theorem referenceLiteralLoop_total (fuel : Nat) :
    ∀ (i : Nat) (l : List Nat) (error : ParseError), l.length < fuel →
      ∃ pos err, referenceLiteralLoop fuel i l error = Outcome.ret (pos, err)
        ∧ (pos = none → err = { error := ParseErrorType.ExpectedIdentifier }
            ∨ ∃ q, err = { error := ParseErrorType.InvalidIdentifier, position := some q }) := by
  induction fuel with
  | zero =>
    intro i l error h
    simp at h
  | succ f ih =>
    intro i l error hlen
    cases l with
    | nil => exact ⟨some i, error, rfl, by simp⟩
    | cons c cs =>
      by_cases hc : c = 0x25
      · subst hc
        simp only [referenceLiteralLoop, ne_eq, not_true_eq_false, if_false]
        cases hp : (identifier (some ⟨i + 1, cs⟩) error).pos with
        | none =>
          refine ⟨none, _, rfl, fun _ => ?_⟩
          rcases identifier_none (i + 1) cs error hp with h | h
          · exact Or.inl h
          · exact Or.inr ⟨_, h⟩
        | some i' =>
          simp only
          apply ih
          simp only [List.length_cons, List.length_drop] at hlen ⊢
          omega
      · exact ⟨some i, error, by simp [referenceLiteralLoop, hc], by simp⟩

theorem bind_eq_ret {α β : Type} (o : Outcome α) (f : α → Outcome β) (b : β)
    (h : o.bind f = Outcome.ret b) : ∃ a, o = Outcome.ret a ∧ f a = Outcome.ret b := by
  cases o with
  | ret a => exact ⟨a, rfl, h⟩
  | throws e => simp [Outcome.bind] at h
  | undefinedBehaviour => simp [Outcome.bind] at h
  | assertion => simp [Outcome.bind] at h
  | outOfFuel => simp [Outcome.bind] at h

/-- What `referenceLiteral` does after the test for `null` on a view that
starts with a sigil. -/
theorem referenceLiteral_sigil (fuel p s : Nat) (cs : List Nat) (error : ParseError)
    (hs : s = 0x24 ∨ s = 0x25) :
    referenceLiteral fuel (some ⟨p, s :: cs⟩) error
      = (match (identifier (some ⟨p + 1, cs⟩) error).pos with
          | none => Outcome.ret (none, (identifier (some ⟨p + 1, cs⟩) error).error)
          | some i => referenceLiteralLoop fuel i (cs.drop (i - (p + 1)))
              (identifier (some ⟨p + 1, cs⟩) error).error).bind (fun l =>
            match l.1 with
            | none => Outcome.ret ⟨none, none, l.2⟩
            | some i => Outcome.ret ⟨some i, some ⟨p, (s :: cs).take (i - p)⟩, l.2⟩) := by
  have hpm : prefixMatch (some ⟨p, s :: cs⟩) kwNull = none :=
    prefixMatch_head_ne p s 0x6E cs [0x75, 0x6C, 0x6C] (by omega)
  have hsig : ¬ (s ≠ 0x24 ∧ s ≠ 0x25) := by omega
  simp only [referenceLiteral, hpm, if_neg hsig]

/-- C18. `referenceLiteral` succeeds in exactly two shapes. (1) On an input
that begins with `null` it returns the offset 4 and the absent reference and
leaves the error slot as it was. (2) On a `$` or `%` sigil and an identifier,
followed by a chain of segments, each a `%` and an identifier, and then the
end of the input or a byte that is neither `%` nor of the identifier set, it
returns the offset after the last segment and the consumed text as value
(fuel above the number of segments). Conversely, every input on which it
returns a position has one of the two shapes. -/
theorem referenceLiteral_shapes (fuel p : Nat) (error : ParseError) :
    (∀ rest, referenceLiteral fuel (some ⟨p, kwNull ++ rest⟩) error
        = Outcome.ret ⟨some (p + 4), none, error⟩)
    ∧ (∀ s id0 ids rest, (s = 0x24 ∨ s = 0x25) → isIdentifierText id0 = true →
        (∀ id ∈ ids, isIdentifierText id = true) →
        headIs rest (fun c => c == 0x25 || isIdentByte c) = false → ids.length < fuel →
        referenceLiteral fuel (some ⟨p, s :: (id0 ++ (segments ids ++ rest))⟩) error
          = Outcome.ret ⟨some (p + 1 + id0.length + (segments ids).length),
              some ⟨p, s :: (id0 ++ segments ids)⟩, error⟩)
    ∧ (∀ bytes r, referenceLiteral fuel (some ⟨p, bytes⟩) error = Outcome.ret r →
        r.pos ≠ none →
        (∃ rest, bytes = kwNull ++ rest)
          ∨ (∃ s id0 ids rest, bytes = s :: (id0 ++ (segments ids ++ rest))
              ∧ (s = 0x24 ∨ s = 0x25) ∧ isIdentifierText id0 = true
              ∧ (∀ id ∈ ids, isIdentifierText id = true)
              ∧ headIs rest (fun c => c == 0x25 || isIdentByte c) = false)) := by
  refine ⟨?_, ?_, ?_⟩
  · intro rest
    have hpm := prefixMatch_kwNull_append p rest
    have e : kwNull ++ rest = 0x6E :: (0x75 :: 0x6C :: 0x6C :: rest) := rfl
    rw [e] at hpm ⊢
    simp only [referenceLiteral, hpm]
  · intro s id0 ids rest hs hid0 hids hrest hfuel
    have hident := identifier_text (p + 1) id0 (segments ids ++ rest) error hid0
      (headIs_segments_append ids rest hrest)
    have hdrop : List.drop (p + 1 + id0.length - (p + 1)) (id0 ++ (segments ids ++ rest))
        = segments ids ++ rest := by
      rw [Nat.add_sub_cancel_left, List.drop_left]
    have htake : List.take (p + 1 + id0.length + (segments ids).length - p)
        (s :: (id0 ++ (segments ids ++ rest))) = s :: (id0 ++ segments ids) := by
      have e1 : s :: (id0 ++ (segments ids ++ rest)) = (s :: (id0 ++ segments ids)) ++ rest := by
        simp
      rw [e1]
      apply List.take_left'
      simp only [List.length_cons, List.length_append]
      omega
    rw [referenceLiteral_sigil fuel p s _ error hs, hident]
    simp only [hdrop, referenceLiteralLoop_segments ids rest hids hrest fuel _ error hfuel,
      bind_ret, htake]
  · intro bytes r h hpos
    cases bytes with
    | nil =>
      simp only [referenceLiteral, Outcome.ret.injEq] at h
      subst h
      exact absurd rfl hpos
    | cons c cs =>
      cases hpm : prefixMatch (some ⟨p, c :: cs⟩) kwNull with
      | some e => exact Or.inl (prefixMatch_kwNull_some p (c :: cs) e hpm)
      | none =>
        right
        by_cases hsig : c = 0x24 ∨ c = 0x25
        · rw [referenceLiteral_sigil fuel p c cs error hsig] at h
          obtain ⟨l, hl, hr⟩ := bind_eq_ret _ _ _ h
          cases hl1 : l.1 with
          | none =>
            rw [hl1] at hr
            simp only [Outcome.ret.injEq] at hr
            subst hr
            exact absurd rfl hpos
          | some e =>
            cases hp : (identifier (some ⟨p + 1, cs⟩) error).pos with
            | none =>
              rw [hp] at hl
              simp only [Outcome.ret.injEq] at hl
              rw [← hl] at hl1
              simp at hl1
            | some i =>
              rw [hp] at hl
              simp only at hl
              obtain ⟨id0, rest0, hcs, hid0, hr0, hi, herr⟩ :=
                identifier_some (p + 1) cs error i hp
              have hdrop : List.drop (i - (p + 1)) cs = rest0 := by
                rw [hi, hcs, Nat.add_sub_cancel_left, List.drop_left]
              rw [hdrop, herr] at hl
              have hl' : referenceLiteralLoop fuel i rest0 error = Outcome.ret (some e, l.2) := by
                rw [hl, ← hl1]
              obtain ⟨ids, rest, hrest0, hids, hrest, -, -, -⟩ :=
                referenceLiteralLoop_some fuel i rest0 error e l.2 hl' hr0
              exact ⟨c, id0, ids, rest, by rw [hcs, hrest0], hsig, hid0, hids, hrest⟩
        · have hsig' : c ≠ 0x24 ∧ c ≠ 0x25 := by omega
          simp only [referenceLiteral, hpm, if_pos hsig', Outcome.ret.injEq] at h
          subst h
          exact absurd rfl hpos

/-- Witness of C18: `null` gives the absent reference at offset 4, and
`$foo%bar ` gives the text `$foo%bar` at offset 8. -/
theorem referenceLiteral_shapes_witness :
    referenceLiteral 2 (some ⟨0, [0x6E, 0x75, 0x6C, 0x6C]⟩) ({} : ParseError)
        = Outcome.ret ⟨some 4, none, {}⟩
    ∧ referenceLiteral 2 (some ⟨0, [0x24, 0x66, 0x6F, 0x6F, 0x25, 0x62, 0x61, 0x72, 0x20]⟩)
          ({} : ParseError)
        = Outcome.ret ⟨some 8, some ⟨0, [0x24, 0x66, 0x6F, 0x6F, 0x25, 0x62, 0x61, 0x72]⟩, {}⟩ :=
  ⟨(referenceLiteral_shapes 2 0 {}).1 [],
   (referenceLiteral_shapes 2 0 {}).2.1 0x24 [0x66, 0x6F, 0x6F] [[0x62, 0x61, 0x72]] [0x20]
      (by decide) (by decide) (by decide) (by decide) (by decide)⟩

/-- Counterexample to C17: on `$1` and on `$foo%` `referenceLiteral` fails,
and the error it leaves is the one of `identifier`, `InvalidIdentifier` at the
byte `1` and `ExpectedIdentifier`, not `InvalidLiteral` tagged
`Type::Reference`. -/
theorem referenceLiteral_identifier_errors :
    referenceLiteral 2 (some ⟨0, [0x24, 0x31]⟩) ({} : ParseError)
        = Outcome.ret ⟨none, none,
            { error := ParseErrorType.InvalidIdentifier, position := some 1 }⟩
    ∧ referenceLiteral 5 (some ⟨0, [0x24, 0x66, 0x6F, 0x6F, 0x25]⟩) ({} : ParseError)
        = Outcome.ret ⟨none, none, { error := ParseErrorType.ExpectedIdentifier }⟩ := by
  decide

/-! ## Prefixed floating-point literals -/

/-- What `floatingPointLiteral` does on an optional sign, a base prefix of 16,
8 or 2 and a digit run that ends the input: the run is parsed as an integer of
the width of the target and the float is made of its bits. -/
theorem floatingPointLiteral_prefixed (T : FloatT) (p : Nat) (sgn : List Nat) (b : Base)
    (upper : Bool) (run buffer : List Nat) (error : ParseError)
    (hsgn : sgn = [] ∨ sgn = [0x2B] ∨ sgn = [0x2D]) (hb : b ≠ Base.b10)
    (h : isDigitRun b run = true) :
    floatingPointLiteral T (some ⟨p, sgn ++ basePrefix b upper ++ run⟩) buffer error
      = if positionalValue b.toNat run > ULONG_MAX then Outcome.throws StdException.out_of_range
        else if positionalValue b.toNat run > T.integralTypeFor.max then
          Outcome.ret ⟨none, FloatValue.fromBits (decide (sgn = [0x2D])) 0,
            extractWithoutUnderscore run,
            { error := ParseErrorType.LiteralOutOfRange,
              type := some T.integralTypeFor.typeFor,
              position := some (p + sgn.length + 2) }⟩
        else Outcome.ret ⟨some (p + (sgn ++ basePrefix b upper ++ run).length),
            FloatValue.fromBits (decide (sgn = [0x2D])) (positionalValue b.toNat run),
            extractWithoutUnderscore run, error⟩ := by
  have hnil : ∀ c, ([] : List Nat).head? = some c → isBaseN b c = false ∧ c ≠ 0x5F := by simp
  have key := fun q => baseNLiteral_run b T.integralTypeFor q run [] buffer error h hnil
  simp only [List.append_nil] at key
  have body : ∀ (d : ArrayReference) (neg : Bool) (i : Nat),
      floatingPointBody T d neg i (basePrefix b upper ++ run) buffer error
        = if positionalValue b.toNat run > ULONG_MAX then Outcome.throws StdException.out_of_range
          else if positionalValue b.toNat run > T.integralTypeFor.max then
            Outcome.ret ⟨none, FloatValue.fromBits neg 0, extractWithoutUnderscore run,
              { error := ParseErrorType.LiteralOutOfRange,
                type := some T.integralTypeFor.typeFor, position := some (i + 2) }⟩
          else Outcome.ret ⟨some (i + 2 + run.length),
              FloatValue.fromBits neg (positionalValue b.toNat run),
              extractWithoutUnderscore run, error⟩ := by
    intro d neg i
    cases b
    case b10 => exact absurd rfl hb
    all_goals
      cases upper <;>
      simp [basePrefix, floatingPointBody, isBinaryPrefix, key] <;>
      split_ifs <;> simp [bind_ret, bind_throws]
  have hplen : (basePrefix b upper).length = 2 := by
    cases b
    case b10 => exact absurd rfl hb
    all_goals rfl
  have hfirst : ∃ tl, basePrefix b upper ++ run = 0x30 :: tl := by
    cases b
    case b10 => exact absurd rfl hb
    all_goals exact ⟨_, rfl⟩
  rcases hsgn with rfl | rfl | rfl
  · obtain ⟨tl, htl⟩ := hfirst
    have n1 : ¬ ((0x30 : Nat) = 0x2B) := by decide
    have n2 : ¬ ((0x30 : Nat) = 0x2D) := by decide
    unfold floatingPointLiteral
    simp only [List.nil_append, htl, if_neg n1, if_neg n2]
    rw [← htl, body]
    simp [hplen, Nat.add_assoc]
  · unfold floatingPointLiteral
    simp only [List.cons_append, List.nil_append, if_true]
    rw [body]
    have e3 : p + 1 + 2 + run.length = p + (2 + (run.length + 1)) := by omega
    simp [hplen, Nat.add_assoc, e3]
  · unfold floatingPointLiteral
    simp only [List.cons_append, List.nil_append, if_true,
      show ¬ ((0x2D : Nat) = 0x2B) by decide, if_false]
    rw [body]
    have e3 : p + 1 + 2 + run.length = p + (2 + (run.length + 1)) := by omega
    simp [hplen, Nat.add_assoc, e3]

/-- C21, at the failing input. The hex run of seventeen digits `F` has a value
above `2 ^ 32 - 1`, and `floatingPointLiteral<Float>` on `0x` followed by it
does not return: the exception `std::out_of_range` of `std::stoul` leaves the
function, and no `LiteralOutOfRange` is written. -/
theorem floatingPointLiteral_stoul_overflow :
    2 ^ 32 - 1 < positionalValue 16 (List.replicate 17 0x46)
    ∧ floatingPointLiteral FloatT.Float (some ⟨0, 0x30 :: 0x78 :: List.replicate 17 0x46⟩) []
        ({} : ParseError) = Outcome.throws StdException.out_of_range := by
  decide

/-! ## Output fields of the dispatcher -/

/-- C22, on the code. On every input that begins with `null` `propertyValue`
returns the offset 4 with the tag `Reference`, and the one output field it
writes is `stringValue`, set to the text `null`; `referenceValue`, the field of
the tag, keeps the value it had. -/
theorem propertyValue_null (fuel p : Nat) (rest : List Nat) (o : PropertyOutputs) :
    propertyValue fuel (some ⟨p, kwNull ++ rest⟩) o
      = Outcome.ret ⟨some (p + 4), InternalPropertyType.Reference,
          { o with stringValue := kwNull }⟩ := by
  have hpm := prefixMatch_kwNull_append p rest
  have e : kwNull ++ rest = 0x6E :: (0x75 :: 0x6C :: 0x6C :: rest) := rfl
  rw [e] at hpm ⊢
  have n1 : ¬ ((0x6E : Nat) = 0x22) := by decide
  have n2 : ¬ ((0x6E : Nat) = 0x25 ∨ (0x6E : Nat) = 0x24) := by decide
  have n3 : ¬ ((0x30 ≤ 0x6E ∧ 0x6E ≤ 0x39) ∨ (0x6E : Nat) = 0x2E ∨ (0x6E : Nat) = 0x27) := by
    decide
  simp only [propertyValue, if_neg n1, if_neg n2, if_neg n3, hpm]

/-! ## Unicode escapes -/

theorem escapedUnicode_upper (p : Nat) (rest out : List Nat) (error : ParseError)
    (h : 6 ≤ rest.length) :
    escapedUnicode (some ⟨p, 0x5C :: 0x55 :: rest⟩) out error
      = Outcome.ret ⟨some (p + 8), out ++ [0x3F], error⟩ := by
  have h2 : 8 ≤ rest.length + 1 + 1 := by omega
  simp [escapedUnicode, h2]

theorem escapedUnicode_lower (p : Nat) (rest out : List Nat) (error : ParseError)
    (h : 4 ≤ rest.length) :
    escapedUnicode (some ⟨p, 0x5C :: 0x75 :: rest⟩) out error
      = Outcome.ret ⟨some (p + 6), out ++ [0x3F], error⟩ := by
  have h1 : 6 ≤ rest.length + 1 + 1 := by omega
  simp [escapedUnicode, h1]

/-- Counterexample to C25: on the 10 bytes of a backslash, `U` and the eight hex
digits `0001F600` the position returned by `escapedUnicode` is 8 bytes on, not
10; one `?` is appended and no error is written. -/
theorem escapedUnicode_eight_digits :
    escapedUnicode
        (some ⟨0, [0x5C, 0x55, 0x30, 0x30, 0x30, 0x31, 0x46, 0x36, 0x30, 0x30]⟩) []
        ({} : ParseError)
      = Outcome.ret ⟨some 8, [0x3F], {}⟩ := by
  decide

/-- C25, as amended. On a view that starts with a backslash and `u` and has at
least 4 more bytes `escapedUnicode` returns the position 6 bytes on; on a view
that starts with a backslash and `U` and has at least 6 more bytes it returns
the position 8 bytes on (the letter is followed by six digits, not eight). In
both cases exactly one `?` is appended to the output, the error slot is left as
it was, and the bytes after the letter are not looked at. -/
theorem escapedUnicode_stub (p : Nat) (rest out : List Nat) (error : ParseError) :
    (4 ≤ rest.length →
      escapedUnicode (some ⟨p, 0x5C :: 0x75 :: rest⟩) out error
        = Outcome.ret ⟨some (p + 6), out ++ [0x3F], error⟩)
    ∧ (6 ≤ rest.length →
      escapedUnicode (some ⟨p, 0x5C :: 0x55 :: rest⟩) out error
        = Outcome.ret ⟨some (p + 8), out ++ [0x3F], error⟩) :=
  ⟨escapedUnicode_lower p rest out error, escapedUnicode_upper p rest out error⟩

/-- C25 as amended, at the escapes `\u00e9` and `\U01F600` followed by a
double quote: the positions returned are 6 and 8, where the quote is. -/
theorem escapedUnicode_stub_witness :
    escapedUnicode (some ⟨0, [0x5C, 0x75, 0x30, 0x30, 0x65, 0x39, 0x22]⟩) [0x61]
        ({} : ParseError) = Outcome.ret ⟨some 6, [0x61, 0x3F], {}⟩
    ∧ escapedUnicode (some ⟨0, [0x5C, 0x55, 0x30, 0x31, 0x46, 0x36, 0x30, 0x30, 0x22]⟩) [0x61]
        ({} : ParseError) = Outcome.ret ⟨some 8, [0x61, 0x3F], {}⟩ :=
  ⟨(escapedUnicode_stub 0 [0x30, 0x30, 0x65, 0x39, 0x22] [0x61] {}).1 (by decide),
   (escapedUnicode_stub 0 [0x30, 0x31, 0x46, 0x36, 0x30, 0x30, 0x22] [0x61] {}).2 (by decide)⟩

/-! ## Failed escapes in strings -/

/-- C28, on the code. After the opening quote and a run `s` of plain bytes
(from 0x20 on, no double quote, no backslash) comes a backslash that starts an
escape the decoder rejects: the decoder returns the null position,
`stringLiteral` stores it in `i`, compares it with `data.end()` and reads `*i`.
With fuel for the bytes of `s` and one more round the call ends in that read
through the null pointer, not in a return of the null position. -/
theorem stringLiteral_rejected_escape (fuel p : Nat) (s rest : List Nat) (error : ParseError)
    (hs : ∀ c ∈ s, 0x20 ≤ c ∧ c ≠ 0x22 ∧ c ≠ 0x5C)
    (hrej : ∃ r, escapedUnicode (some ⟨p + 1 + s.length, 0x5C :: rest⟩) s error = Outcome.ret r
      ∧ r.pos = none)
    (hfuel : s.length < fuel) :
    stringLiteral fuel (some ⟨p, 0x22 :: (s ++ 0x5C :: rest)⟩) error
      = Outcome.undefinedBehaviour := by
  obtain ⟨r, hr, hpos⟩ := hrej
  obtain ⟨k, hk⟩ : ∃ k, fuel = (k + 1) + s.length := ⟨fuel - s.length - 1, by omega⟩
  have n1 : ¬ ((0x5C : Nat) < 0x20) := by decide
  simp only [stringLiteral, ne_eq, not_true_eq_false, if_false]
  rw [hk, stringLiteralLoop_plain s (0x5C :: rest) hs (k + 1) (p + 1) [] error,
    List.nil_append, stringLiteralLoop, if_neg n1, if_pos rfl, hr, bind_ret]
  simp only [hpos]

/-- C28, at the failing input `"\q"` (double quote, backslash, `q`, double
quote) with fuel for one round. -/
theorem stringLiteral_rejected_escape_witness :
    stringLiteral 1 (some ⟨0, [0x22, 0x5C, 0x71, 0x22]⟩) ({} : ParseError)
      = Outcome.undefinedBehaviour :=
  stringLiteral_rejected_escape 1 0 [] [0x71, 0x22] {} (by simp)
    ⟨⟨none, [0],
      { error := ParseErrorType.InvalidEscapeSequence, position := some 1 }⟩, by decide, rfl⟩
    (by decide)

/-! ## The least value of a signed target -/

/-- C29, at the failing inputs. `integralLiteral` on the decimal text of the
least value of a signed target fails with `LiteralOutOfRange`: the magnitude
(128 for `Byte`, 32768 for `Short`, 2147483648 for `Int`) is compared with the
maximum of the target before the sign is applied. -/
theorem integralLiteral_signed_min :
    integralLiteral IntegralT.Byte (some ⟨0, [0x2D, 0x31, 0x32, 0x38]⟩) [] ({} : ParseError)
      = Outcome.ret ⟨none, 0, 10, [0x31, 0x32, 0x38],
          { error := ParseErrorType.LiteralOutOfRange, type := some DdlType.Byte,
            position := some 1 }⟩
    ∧ integralLiteral IntegralT.Short (some ⟨0, [0x2D, 0x33, 0x32, 0x37, 0x36, 0x38]⟩) []
        ({} : ParseError)
      = Outcome.ret ⟨none, 0, 10, [0x33, 0x32, 0x37, 0x36, 0x38],
          { error := ParseErrorType.LiteralOutOfRange, type := some DdlType.Short,
            position := some 1 }⟩
    ∧ integralLiteral IntegralT.Int
        (some ⟨0, [0x2D, 0x32, 0x31, 0x34, 0x37, 0x34, 0x38, 0x33, 0x36, 0x34, 0x38]⟩) []
        ({} : ParseError)
      = Outcome.ret ⟨none, 0, 10, [0x32, 0x31, 0x34, 0x37, 0x34, 0x38, 0x33, 0x36, 0x34, 0x38],
          { error := ParseErrorType.LiteralOutOfRange, type := some DdlType.Int,
            position := some 1 }⟩ := by
  decide

/-! ## Type keywords -/

theorem strncmpEq_eq_iff : ∀ (a b : List Nat), a.length = b.length → (∀ x ∈ b, x ≠ 0) →
    (strncmpEq a b a.length = true ↔ a = b)
  | [], [], _, _ => by simp [strncmpEq]
  | [], _ :: _, h, _ => by simp at h
  | _ :: _, [], h, _ => by simp at h
  | x :: a, y :: b, h, hz => by
    have hlen : a.length = b.length := by simpa using h
    have hy : y ≠ 0 := hz y (List.mem_cons_self _ _)
    have ih := strncmpEq_eq_iff a b hlen (fun z hz' => hz z (List.mem_cons_of_mem _ hz'))
    by_cases hxy : x = y
    · subst hxy
      simp [strncmpEq, hy, ih]
    · simp [strncmpEq, hxy]

/-- What `prefix(data, compare)` decides, for a literal without a zero byte:
whether the view starts with the literal. -/
theorem prefixMatch_eq (p : Nat) (bytes k : List Nat) (hz : ∀ x ∈ k, x ≠ 0) :
    prefixMatch (some ⟨p, bytes⟩) k = if k <+: bytes then some (p + k.length) else none := by
  unfold prefixMatch
  by_cases hlen : bytes.length < k.length
  · have hnp : ¬ k <+: bytes := fun hp => absurd hp.length_le (by omega)
    simp [hlen, hnp]
  · have hl : (bytes.take k.length).length = k.length := by
      rw [List.length_take]
      omega
    have key := strncmpEq_eq_iff (bytes.take k.length) k hl hz
    have hpre : k <+: bytes ↔ bytes.take k.length = k := by
      rw [List.prefix_iff_eq_take]
      exact eq_comm
    simp only [hlen, if_false, equalsPrefix]
    by_cases hp : k <+: bytes
    · rw [if_pos (key.mpr (hpre.mp hp)), if_pos hp]
    · have hne : ¬ (strncmpEq (bytes.take k.length) k (bytes.take k.length).length = true) :=
        fun h => hp (hpre.mpr (key.mp h))
      rw [if_neg hne, if_neg hp]

theorem typeTable_nonempty : ∀ k ∈ typeTable, k.1 ≠ [] := by decide

theorem digitRunOf_props (base : Base) (l : List Nat) :
    l = digitRunOf base l ++ l.drop (digitRunOf base l).length
    ∧ (digitRunOf base l = [] ∨ isDigitRun base (digitRunOf base l) = true)
    ∧ headIs (l.drop (digitRunOf base l).length) (isBaseN base) = false
    ∧ (digitRunOf base l = []
        ∨ headIs (l.drop (digitRunOf base l).length) (fun c => c == 0x5F) = false) := by
  cases l with
  | nil => exact ⟨rfl, Or.inl rfl, rfl, Or.inl rfl⟩
  | cons c cs =>
    by_cases hc : isBaseN base c = true
    · have hrun : digitRunOf base (c :: cs)
          = c :: cs.takeWhile (fun x => isBaseN base x || x == 0x5F) := by
        simp [digitRunOf, hc]
      have hdrop : (c :: cs).drop (digitRunOf base (c :: cs)).length
          = cs.dropWhile (fun x => isBaseN base x || x == 0x5F) := by
        rw [hrun, List.length_cons, List.drop_succ_cons, drop_takeWhile_length]
      rw [hdrop]
      refine ⟨?_, Or.inr ?_, ?_, Or.inr ?_⟩
      · rw [hrun]
        simp [List.takeWhile_append_dropWhile]
      · rw [hrun]
        simp only [isDigitRun, hc, Bool.true_and, List.all_eq_true]
        intro x hx
        exact mem_takeWhile_holds _ cs x hx
      · exact headIs_mono _ _ _ (fun x hx => by simp [hx]) (headIs_dropWhile _ cs)
      · exact headIs_mono _ _ _ (fun x hx => by simp at hx; simp [hx]) (headIs_dropWhile _ cs)
    · have hrun : digitRunOf base (c :: cs) = [] := by simp [digitRunOf, hc]
      rw [hrun]
      refine ⟨rfl, Or.inl rfl, ?_, Or.inl rfl⟩
      simpa [headIs] using hc

theorem possiblyNumericCharactersLoop_digitRunOf (base : Base) (i : Nat) (l : List Nat) :
    possiblyNumericCharactersLoop base true i l = i + (digitRunOf base l).length := by
  obtain ⟨hsplit, hrun, hdig, hus⟩ := digitRunOf_props base l
  rcases hrun with hnil | hrun
  · rw [hnil]
    rw [hnil] at hdig
    simpa using possiblyNumericCharactersLoop_stop base l (headIs_eq_false l _ hdig) i
  · have hne : digitRunOf base l ≠ [] := by
      intro h
      rw [h] at hrun
      simp [isDigitRun] at hrun
    have hus' := hus.resolve_left hne
    have key := possiblyNumericCharactersLoop_run base (digitRunOf base l)
      (l.drop (digitRunOf base l).length) hrun (fun c hc =>
        ⟨headIs_eq_false _ _ hdig c hc, by simpa using headIs_eq_false _ _ hus' c hc⟩) i
    rw [← hsplit] at key
    exact key

/-- C26, the counterexample. On the input `1_` the run consumed by
`possiblyNumericCharacters<10>` is the whole input, which ends with an
underscore, not with a digit; `integralLiteral<Int>` succeeds on it at the
offset 2 with the value 1. -/
theorem possiblyNumericCharacters_trailing_underscore :
    possiblyNumericCharacters Base.b10 (some ⟨0, [0x31, 0x5F]⟩) = some 2
    ∧ endsWithDigit Base.b10 ([0x31, 0x5F].take 2) = false
    ∧ integralLiteral IntegralT.Int (some ⟨0, [0x31, 0x5F]⟩) [] ({} : ParseError)
        = Outcome.ret ⟨some 2, 1, 10, [0x31], {}⟩ := by
  decide

/-- C26, as amended. For every base and every input, the run consumed by
`possiblyNumericCharacters` is the longest prefix that starts with a digit of
the base and goes on with digits of the base and underscores (an underscore is
consumed wherever it comes after the first digit): the byte after the run is
no digit, and after a non-empty run no underscore. `numericCharacters` fails
with `InvalidLiteral` exactly when the run is empty. On a non-empty run
`baseNLiteral` hands the run without its underscores to `std::stoul`, and the
buffer it leaves is that text, whatever the buffer held before. -/
theorem numericCharacters_digit_run (base : Base) (T : IntegralT) (p : Nat)
    (bytes buffer : List Nat) (error : ParseError) :
    bytes = digitRunOf base bytes ++ bytes.drop (digitRunOf base bytes).length
    ∧ (digitRunOf base bytes = [] ∨ isDigitRun base (digitRunOf base bytes) = true)
    ∧ headIs (bytes.drop (digitRunOf base bytes).length) (isBaseN base) = false
    ∧ (digitRunOf base bytes = []
        ∨ headIs (bytes.drop (digitRunOf base bytes).length) (fun c => c == 0x5F) = false)
    ∧ possiblyNumericCharacters base (some ⟨p, bytes⟩)
        = some (p + (digitRunOf base bytes).length)
    ∧ numericCharacters base T.typeFor (some ⟨p, bytes⟩) error
        = (if digitRunOf base bytes = [] then
            ⟨none, (), { error := ParseErrorType.InvalidLiteral, type := some T.typeFor,
                         position := some p }⟩
          else ⟨some (p + (digitRunOf base bytes).length), (), error⟩)
    ∧ baseNLiteral base T (some ⟨p, bytes⟩) buffer error
        = (if digitRunOf base bytes = [] then
            Outcome.ret ⟨none, 0, buffer,
              { error := ParseErrorType.InvalidLiteral, type := some T.typeFor,
                position := some p }⟩
          else
            match stoul (extractWithoutUnderscore (digitRunOf base bytes)) base.toNat with
            | Except.error e => Outcome.throws e
            | Except.ok out =>
              if out > T.max then
                Outcome.ret ⟨none, 0, extractWithoutUnderscore (digitRunOf base bytes),
                  { error := ParseErrorType.LiteralOutOfRange, type := some T.typeFor,
                    position := some p }⟩
              else Outcome.ret ⟨some (p + (digitRunOf base bytes).length), out,
                  extractWithoutUnderscore (digitRunOf base bytes), error⟩) := by
  obtain ⟨h1, h2, h3, h4⟩ := digitRunOf_props base bytes
  have hloop := possiblyNumericCharactersLoop_digitRunOf base p bytes
  have hnum : ∀ ty, numericCharacters base ty (some ⟨p, bytes⟩) error
      = (if digitRunOf base bytes = [] then
          ⟨none, (), { error := ParseErrorType.InvalidLiteral, type := some ty,
                       position := some p }⟩
        else ⟨some (p + (digitRunOf base bytes).length), (), error⟩) := by
    intro ty
    simp only [numericCharacters, possiblyNumericCharacters, hloop]
    by_cases hnil : digitRunOf base bytes = []
    · simp [hnil]
    · have hlen : ¬ (p + (digitRunOf base bytes).length = p) := by
        have := List.length_pos.mpr hnil
        omega
      rw [if_neg hlen, if_neg hnil]
  refine ⟨h1, h2, h3, h4, ?_, hnum T.typeFor, ?_⟩
  · simp only [possiblyNumericCharacters, hloop]
  · unfold baseNLiteral
    simp only [hnum T.typeFor]
    by_cases hnil : digitRunOf base bytes = []
    · simp only [hnil, if_true]
    · have htake : bytes.take (p + (digitRunOf base bytes).length - p) = digitRunOf base bytes := by
        have e : p + (digitRunOf base bytes).length - p = (digitRunOf base bytes).length := by
          omega
        rw [e]
        have htk : ∀ (a b l : List Nat), l = a ++ b → l.take a.length = a := by
          intro a b l h
          rw [h]
          exact List.take_left' rfl
        exact htk _ _ _ h1
      simp only [if_neg hnil, htake]

/-- C26 as amended, at the input `1_2_ ` in base 10: the run is `1_2_`, the
position returned is 4, and the text converted and left in the buffer is
`12`. -/
theorem numericCharacters_digit_run_witness :
    digitRunOf Base.b10 [0x31, 0x5F, 0x32, 0x5F, 0x20] = [0x31, 0x5F, 0x32, 0x5F]
    ∧ possiblyNumericCharacters Base.b10 (some ⟨0, [0x31, 0x5F, 0x32, 0x5F, 0x20]⟩) = some 4
    ∧ baseNLiteral Base.b10 IntegralT.Int (some ⟨0, [0x31, 0x5F, 0x32, 0x5F, 0x20]⟩) [0x39]
        ({} : ParseError) = Outcome.ret ⟨some 4, 12, [0x31, 0x32], {}⟩ := by
  have h := numericCharacters_digit_run Base.b10 IntegralT.Int 0
    [0x31, 0x5F, 0x32, 0x5F, 0x20] [0x39] {}
  refine ⟨by decide, ?_, ?_⟩
  · rw [h.2.2.2.2.1]
    decide
  · rw [h.2.2.2.2.2.2]
    decide

/-! ## Positions and error slots of all parsers -/

theorem sat_ret {α : Type} (P : α → Prop) (a : α) (h : P a) : (Outcome.ret a).Sat P := h

theorem sat_of_eq_ret {α : Type} (P : α → Prop) (o : Outcome α) (a : α) (h : o.Sat P)
    (ha : o = Outcome.ret a) : P a := by
  rw [ha] at h
  exact h

theorem sat_ne_assertion {α : Type} (P : α → Prop) (o : Outcome α) (h : o.Sat P) :
    o ≠ Outcome.assertion := by
  intro ha
  rw [ha] at h
  exact h

theorem sat_mono {α : Type} (P Q : α → Prop) (o : Outcome α) (h : o.Sat P)
    (hpq : ∀ a, P a → Q a) : o.Sat Q := by
  cases o with
  | ret a => exact hpq a h
  | throws e => trivial
  | undefinedBehaviour => trivial
  | assertion => exact h
  | outOfFuel => trivial

theorem sat_bind {α β : Type} (P : α → Prop) (Q : β → Prop) (o : Outcome α)
    (f : α → Outcome β) (h : o.Sat P) (hf : ∀ a, P a → (f a).Sat Q) : (o.bind f).Sat Q := by
  cases o with
  | ret a => exact hf a h
  | throws e => trivial
  | undefinedBehaviour => trivial
  | assertion => exact h
  | outOfFuel => trivial

theorem ite_sat {α : Type} (P : α → Prop) (c : Prop) [Decidable c] (a b : Outcome α)
    (ha : c → a.Sat P) (hb : ¬ c → b.Sat P) : (if c then a else b).Sat P := by
  split_ifs with h
  · exact ha h
  · exact hb h

theorem advances_mono (start len start' len' : Nat) (error : ParseError) (pos : Option Nat)
    (err : ParseError) (h : Advances start len error pos err) (h1 : start' ≤ start)
    (h2 : start + len ≤ start' + len') : Advances start' len' error pos err := by
  cases pos with
  | none => exact h
  | some e =>
    obtain ⟨a, b, c⟩ := h
    exact ⟨by omega, by omega, c⟩

theorem advances_some (start len : Nat) (error : ParseError) (e : Nat) (h1 : start < e)
    (h2 : e ≤ start + len) : Advances start len error (some e) error := ⟨h1, h2, rfl⟩

theorem advances_none (start len : Nat) (error err : ParseError)
    (h : err.error ≠ ParseErrorType.NoError) : Advances start len error none err := h

theorem escapedChar_sat (p : Nat) (rest : List Nat) (error : ParseError) :
    (escapedChar (some ⟨p, 0x5C :: rest⟩) error).Sat
      (fun r => Advances p (rest.length + 1) error r.pos r.error) := by
  cases rest with
  | nil => simp [escapedChar, Outcome.Sat, Advances]
  | cons c1 rest2 =>
    simp only [escapedChar, ne_eq, not_true_eq_false, if_false, List.length_cons]
    iterate 10
      apply ite_sat
      · intro _
        exact advances_some _ _ _ _ (by omega) (by omega)
      intro _
    apply ite_sat
    · intro h
      have h4 := h.1
      exact advances_some _ _ _ _ (by omega) (by omega)
    · intro _
      simp [Outcome.Sat, Advances]

theorem escapedUnicode_sat (p : Nat) (rest out : List Nat) (error : ParseError) :
    (escapedUnicode (some ⟨p, 0x5C :: rest⟩) out error).Sat
      (fun r => Advances p (rest.length + 1) error r.pos r.error) := by
  cases rest with
  | nil => simp [escapedUnicode, Outcome.Sat, Advances]
  | cons c1 rest2 =>
    simp only [escapedUnicode, ne_eq, not_true_eq_false, if_false, List.length_cons]
    apply ite_sat <;> intro h1
    · exact advances_some _ _ _ _ (by omega) (by omega)
    · apply ite_sat <;> intro h2
      · exact advances_some _ _ _ _ (by omega) (by omega)
      · exact sat_bind _ _ _ _ (escapedChar_sat p (c1 :: rest2) error) (fun r hr => hr)

theorem identifierLoop_bounds : ∀ (l : List Nat) (i : Nat),
    i ≤ identifierLoop i l ∧ identifierLoop i l ≤ i + l.length
  | [], i => by simp [identifierLoop]
  | c :: cs, i => by
    have ih := identifierLoop_bounds cs (i + 1)
    simp only [identifierLoop, List.length_cons]
    split_ifs
    · omega
    · omega

theorem identifier_advances (i : Nat) (l : List Nat) (error : ParseError) :
    Advances i l.length error (identifier (some ⟨i, l⟩) error).pos
      (identifier (some ⟨i, l⟩) error).error := by
  cases l with
  | nil => simp [identifier, Advances]
  | cons c cs =>
    have hb := identifierLoop_bounds cs (i + 1)
    simp only [identifier, List.length_cons]
    split_ifs
    · simp [Advances]
    · exact advances_some _ _ _ _ (by omega) (by omega)

theorem prefixMatch_some (p : Nat) (bytes k : List Nat) (e : Nat)
    (h : prefixMatch (some ⟨p, bytes⟩) k = some e) :
    e = p + k.length ∧ k.length ≤ bytes.length := by
  unfold prefixMatch at h
  simp only at h
  split_ifs at h with h1 h2
  simp only [Option.some.injEq] at h
  exact ⟨h.symm, by omega⟩

theorem boolLiteral_advances (p : Nat) (l : List Nat) (error : ParseError) :
    Advances p l.length error (boolLiteral (some ⟨p, l⟩) error).pos
      (boolLiteral (some ⟨p, l⟩) error).error := by
  unfold boolLiteral
  simp only
  cases h1 : prefixMatch (some ⟨p, l⟩) kwTrue with
  | some e =>
    obtain ⟨he, hl⟩ := prefixMatch_some p l kwTrue e h1
    simp only [kwTrue, List.length_cons, List.length_nil] at he hl
    exact advances_some _ _ _ _ (by omega) (by omega)
  | none =>
    cases h2 : prefixMatch (some ⟨p, l⟩) kwFalse with
    | some e =>
      obtain ⟨he, hl⟩ := prefixMatch_some p l kwFalse e h2
      simp only [kwFalse, List.length_cons, List.length_nil] at he hl
      exact advances_some _ _ _ _ (by omega) (by omega)
    | none => simp [Advances]

theorem characterLiteralFail_sat (data : Option ArrayReference) (start len : Nat)
    (error : ParseError) :
    (characterLiteralFail data).Sat (fun r => Advances start len error r.pos r.error) := by
  simp [characterLiteralFail, Outcome.Sat, Advances]

theorem characterLiteral_sat (p : Nat) (l : List Nat) (error : ParseError) :
    (characterLiteral (some ⟨p, l⟩) error).Sat
      (fun r => Advances p l.length error r.pos r.error) := by
  unfold characterLiteral
  split
  · rename_i q c0 c1 c2 rest heq
    simp only [Option.some.injEq, ArrayReference.mk.injEq] at heq
    obtain ⟨hq, hl⟩ := heq
    subst hq
    subst hl
    apply ite_sat <;> intro h0
    · apply ite_sat <;> intro h1
      · simp only [List.length_cons]
        exact advances_some _ _ _ _ (by omega) (by omega)
      · apply ite_sat <;> intro h2
        · subst h2
          apply sat_bind _ _ _ _ (escapedChar_sat (p + 1) (c2 :: rest) error)
          intro r hr
          cases hpos : r.pos with
          | none => exact characterLiteralFail_sat _ _ _ _
          | some i =>
            rw [hpos] at hr
            obtain ⟨ha, hb, hc⟩ := hr
            simp only [List.length_cons] at hb
            simp only
            cases hd : (0x5C :: c2 :: rest).drop (i - (p + 1)) with
            | nil => exact characterLiteralFail_sat _ _ _ _
            | cons q tl =>
              have hlen := congrArg List.length hd
              simp only [List.length_drop, List.length_cons] at hlen
              simp only
              apply ite_sat <;> intro h3
              · simp only [Outcome.Sat, Advances, List.length_cons]
                exact ⟨by omega, by omega, hc⟩
              · exact characterLiteralFail_sat _ _ _ _
        · exact characterLiteralFail_sat _ _ _ _
    · exact characterLiteralFail_sat _ _ _ _
  · exact characterLiteralFail_sat _ _ _ _

theorem possiblyNumericCharactersLoop_bounds (base : Base) : ∀ (l : List Nat) (first : Bool)
    (i : Nat), i ≤ possiblyNumericCharactersLoop base first i l
      ∧ possiblyNumericCharactersLoop base first i l ≤ i + l.length
  | [], first, i => by simp [possiblyNumericCharactersLoop]
  | c :: cs, first, i => by
    have ih := possiblyNumericCharactersLoop_bounds base cs false (i + 1)
    simp only [possiblyNumericCharactersLoop, List.length_cons]
    split_ifs
    · omega
    · omega

theorem numericCharacters_advances (base : Base) (ty : DdlType) (p : Nat) (l : List Nat)
    (error : ParseError) :
    Advances p l.length error (numericCharacters base ty (some ⟨p, l⟩) error).pos
      (numericCharacters base ty (some ⟨p, l⟩) error).error := by
  have hb := possiblyNumericCharactersLoop_bounds base l true p
  simp only [numericCharacters, possiblyNumericCharacters]
  split_ifs with h
  · simp [Advances]
  · exact advances_some _ _ _ _ (by omega) (by omega)

theorem baseNLiteral_sat (base : Base) (T : IntegralT) (p : Nat) (l buffer : List Nat)
    (error : ParseError) :
    (baseNLiteral base T (some ⟨p, l⟩) buffer error).Sat
      (fun r => Advances p l.length error r.pos r.error) := by
  have hn := numericCharacters_advances base T.typeFor p l error
  unfold baseNLiteral
  simp only
  cases hpos : (numericCharacters base T.typeFor (some ⟨p, l⟩) error).pos with
  | none =>
    rw [hpos] at hn
    exact hn
  | some i =>
    rw [hpos] at hn
    simp only
    split
    · trivial
    · split_ifs
      · simp [Outcome.Sat, Advances]
      · exact hn

/-- The base that `integralLiteral` returns when it goes past the sign. -/
theorem integralLiteralBody_sat (T : IntegralT) (sign : Int) (i : Nat) (rest buffer : List Nat)
    (error : ParseError) :
    (integralLiteralBody T sign i rest buffer error).Sat
      (fun r => Advances i rest.length error r.pos r.error
        ∧ (r.base = 2 ∨ r.base = 8 ∨ r.base = 10 ∨ r.base = 16 ∨ r.base = 256)) := by
  have fin : ∀ (base : Int) (b : Base) (q : Nat) (l : List Nat), i ≤ q →
      q + l.length ≤ i + rest.length →
      (base = 2 ∨ base = 8 ∨ base = 10 ∨ base = 16 ∨ base = 256) →
      ((baseNLiteral b T (some ⟨q, l⟩) buffer error).bind (fun r =>
          (Outcome.ret ⟨r.pos, wrapT T (sign * (r.value : Int)), base, r.buffer, r.error⟩ :
            Outcome IntegralResult))).Sat
        (fun r => Advances i rest.length error r.pos r.error
          ∧ (r.base = 2 ∨ r.base = 8 ∨ r.base = 10 ∨ r.base = 16 ∨ r.base = 256)) := by
    intro base b q l h1 h2 hbase
    apply sat_bind _ _ _ _ (baseNLiteral_sat b T q l buffer error)
    intro r hr
    exact ⟨advances_mono _ _ _ _ _ _ _ hr h1 h2, hbase⟩
  have dec := fin 10 Base.b10 i rest (Nat.le_refl _) (Nat.le_refl _) (by simp)
  unfold integralLiteralBody
  simp only
  cases rest with
  | nil => exact dec
  | cons c0 tl =>
    simp only
    apply ite_sat <;> intro h0
    · apply sat_bind _ _ _ _ (characterLiteral_sat i (c0 :: tl) error)
      intro r hr
      exact ⟨hr, by simp⟩
    · cases tl with
      | nil => exact dec
      | cons c1 tl2 =>
        simp only
        apply ite_sat <;> intro h1
        · have hp := h1.2
          apply ite_sat <;> intro h2
          · exact fin 16 Base.b16 (i + 2) tl2 (by omega) (by simp only [List.length_cons]; omega)
              (by simp)
          · apply ite_sat <;> intro h3
            · exact fin 8 Base.b8 (i + 2) tl2 (by omega) (by simp only [List.length_cons]; omega)
                (by simp)
            · apply ite_sat <;> intro h4
              · exact fin 2 Base.b2 (i + 2) tl2 (by omega)
                  (by simp only [List.length_cons]; omega) (by simp)
              · exfalso
                revert hp
                simp only [isBinaryPrefix]
                revert h2 h3 h4
                simp
                omega
        · exact dec

theorem integralLiteral_sat (T : IntegralT) (p : Nat) (l buffer : List Nat)
    (error : ParseError) :
    (integralLiteral T (some ⟨p, l⟩) buffer error).Sat
      (fun r => Advances p l.length error r.pos r.error) := by
  unfold integralLiteral
  simp only
  cases l with
  | nil => simp [Outcome.Sat, Advances]
  | cons c cs =>
    simp only [List.length_cons]
    apply ite_sat <;> intro h0
    · exact sat_mono _ _ _ (integralLiteralBody_sat T 1 (p + 1) cs buffer error)
        (fun r hr => advances_mono _ _ _ _ _ _ _ hr.1 (by omega) (by omega))
    · apply ite_sat <;> intro h1
      · apply ite_sat <;> intro h2
        · simp [Outcome.Sat, Advances]
        · exact sat_mono _ _ _ (integralLiteralBody_sat T (-1) (p + 1) cs buffer error)
            (fun r hr => advances_mono _ _ _ _ _ _ _ hr.1 (by omega) (by omega))
      · exact sat_mono _ _ _ (integralLiteralBody_sat T 1 p (c :: cs) buffer error)
          (fun r hr => advances_mono _ _ _ _ _ _ _ hr.1 (by omega)
            (by simp only [List.length_cons]; omega))

theorem floatingPointFinish_sat (T : FloatT) (d : ArrayReference) (buffer : List Nat)
    (pos : Option Nat) (error err : ParseError)
    (h : Advances d.ptr d.bytes.length error pos err) :
    (floatingPointFinish T d buffer pos err).Sat
      (fun r => Advances d.ptr d.bytes.length error r.pos r.error) := by
  cases pos with
  | none => exact h
  | some e =>
    simp only [floatingPointFinish]
    split
    · trivial
    · exact h

theorem floatingPointExponent_sat (T : FloatT) (d : ArrayReference) (i : Nat)
    (rest buffer : List Nat) (error : ParseError) (h1 : d.ptr < i)
    (h2 : i + rest.length = d.ptr + d.bytes.length) :
    (floatingPointExponent T d i rest buffer error).Sat
      (fun r => Advances d.ptr d.bytes.length error r.pos r.error) := by
  have here : Advances d.ptr d.bytes.length error (some i) error :=
    advances_some _ _ _ _ h1 (by omega)
  unfold floatingPointExponent
  cases rest with
  | nil => exact floatingPointFinish_sat T d buffer (some i) error error here
  | cons c tl =>
    simp only [List.length_cons] at h2
    simp only
    apply ite_sat <;> intro h0
    · cases tl with
      | nil => trivial
      | cons s tl2 =>
        simp only [List.length_cons] at h2
        simp only
        apply floatingPointFinish_sat
        split_ifs
        · exact advances_mono _ _ _ _ _ _ _
            (numericCharacters_advances Base.b10 T.typeFor (i + 2) tl2 error) (by omega)
            (by omega)
        · exact advances_mono _ _ _ _ _ _ _
            (numericCharacters_advances Base.b10 T.typeFor (i + 1) (s :: tl2) error) (by omega)
            (by simp only [List.length_cons]; omega)
    · exact floatingPointFinish_sat T d buffer (some i) error error here

theorem floatingPointDecimal_sat (T : FloatT) (d : ArrayReference) (i : Nat)
    (rest buffer : List Nat) (error : ParseError) (h1 : d.ptr ≤ i)
    (h2 : i + rest.length = d.ptr + d.bytes.length) :
    (floatingPointDecimal T d i rest buffer error).Sat
      (fun r => Advances d.ptr d.bytes.length error r.pos r.error) := by
  have hinv : (Outcome.ret ⟨none, FloatValue.zero, buffer,
      { error := ParseErrorType.InvalidLiteral, type := some T.typeFor,
        position := some d.ptr }⟩ : Outcome (BufParsed FloatValue)).Sat
      (fun r => Advances d.ptr d.bytes.length error r.pos r.error) := by
    simp [Outcome.Sat, Advances]
  have hb := possiblyNumericCharactersLoop_bounds Base.b10 rest true i
  have hlen : (rest.drop (possiblyNumericCharactersLoop Base.b10 true i rest - i)).length
      = rest.length - (possiblyNumericCharactersLoop Base.b10 true i rest - i) :=
    List.length_drop _ _
  have plain : possiblyNumericCharactersLoop Base.b10 true i rest ≠ i →
      (floatingPointExponent T d (possiblyNumericCharactersLoop Base.b10 true i rest)
        (rest.drop (possiblyNumericCharactersLoop Base.b10 true i rest - i)) buffer error).Sat
        (fun r => Advances d.ptr d.bytes.length error r.pos r.error) := by
    intro hne
    exact floatingPointExponent_sat T d _ _ buffer error (by omega) (by omega)
  unfold floatingPointDecimal
  simp only
  split
  · rename_i c c' tl heq
    rw [heq] at hlen
    simp only [List.length_cons] at hlen
    apply ite_sat <;> intro h0
    · apply ite_sat <;> intro h3
      · exact hinv
      · have hb2 := possiblyNumericCharactersLoop_bounds Base.b10 (c' :: tl) true
          (possiblyNumericCharactersLoop Base.b10 true i rest + 1)
        simp only [List.length_cons] at hb2
        apply floatingPointExponent_sat T d _ _ buffer error (by omega)
        rw [List.length_drop]
        simp only [List.length_cons]
        omega
    · apply ite_sat <;> intro h3
      · exact hinv
      · exact plain (fun h => h3 h.symm)
  · apply ite_sat <;> intro h3
    · exact hinv
    · exact plain (fun h => h3 h.symm)

theorem floatingPointBody_sat (T : FloatT) (d : ArrayReference) (negated : Bool) (i : Nat)
    (rest buffer : List Nat) (error : ParseError) (h1 : d.ptr ≤ i)
    (h2 : i + rest.length = d.ptr + d.bytes.length) :
    (floatingPointBody T d negated i rest buffer error).Sat
      (fun r => Advances d.ptr d.bytes.length error r.pos r.error) := by
  have dec := floatingPointDecimal_sat T d i rest buffer error h1 h2
  have fin : ∀ (b : Base) (l : List Nat), i + 2 + l.length = d.ptr + d.bytes.length →
      ((baseNLiteral b T.integralTypeFor (some ⟨i + 2, l⟩) buffer error).bind (fun r =>
          (Outcome.ret ⟨r.pos, FloatValue.fromBits negated r.value, r.buffer, r.error⟩ :
            Outcome (BufParsed FloatValue)))).Sat
        (fun r => Advances d.ptr d.bytes.length error r.pos r.error) := by
    intro b l hl
    apply sat_bind _ _ _ _ (baseNLiteral_sat b T.integralTypeFor (i + 2) l buffer error)
    intro r hr
    exact advances_mono _ _ _ _ _ _ _ hr (by omega) (by omega)
  unfold floatingPointBody
  simp only
  split
  · rename_i c0 c1 tl2
    simp only [List.length_cons] at h2
    apply ite_sat <;> intro h0
    · have hp := h0.2
      apply ite_sat <;> intro h3
      · exact fin Base.b16 tl2 (by omega)
      · apply ite_sat <;> intro h4
        · exact fin Base.b8 tl2 (by omega)
        · apply ite_sat <;> intro h5
          · exact fin Base.b2 tl2 (by omega)
          · exfalso
            revert hp
            simp only [isBinaryPrefix]
            revert h3 h4 h5
            simp
            omega
    · exact dec
  · exact dec

theorem floatingPointLiteral_sat (T : FloatT) (p : Nat) (l buffer : List Nat)
    (error : ParseError) :
    (floatingPointLiteral T (some ⟨p, l⟩) buffer error).Sat
      (fun r => Advances p l.length error r.pos r.error) := by
  unfold floatingPointLiteral
  simp only
  cases l with
  | nil => simp [Outcome.Sat, Advances]
  | cons c cs =>
    simp only
    apply ite_sat <;> intro h0
    · exact floatingPointBody_sat T ⟨p, c :: cs⟩ false (p + 1) cs buffer error
        (by simp) (by simp only [List.length_cons]; omega)
    · apply ite_sat <;> intro h1
      · exact floatingPointBody_sat T ⟨p, c :: cs⟩ true (p + 1) cs buffer error
          (by simp) (by simp only [List.length_cons]; omega)
      · exact floatingPointBody_sat T ⟨p, c :: cs⟩ false p (c :: cs) buffer error
          (by simp) rfl

theorem lineCommentEnd_bounds : ∀ (l : List Nat) (j e : Nat), lineCommentEnd j l = some e →
    j < e ∧ e ≤ j + l.length
  | [], j, e, h => by simp [lineCommentEnd] at h
  | c :: cs, j, e, h => by
    simp only [lineCommentEnd] at h
    simp only [List.length_cons]
    split_ifs at h
    · simp only [Option.some.injEq] at h
      omega
    · have := lineCommentEnd_bounds cs (j + 1) e h
      omega

theorem blockCommentEnd_bounds : ∀ (l : List Nat) (j e : Nat), blockCommentEnd j l = some e →
    j < e ∧ e ≤ j + l.length
  | [], j, e, h => by simp [blockCommentEnd] at h
  | c :: cs, j, e, h => by
    simp only [blockCommentEnd] at h
    simp only [List.length_cons]
    split_ifs at h with h0
    · simp only [Option.some.injEq] at h
      have hlen : 0 < cs.length := List.length_pos.mpr h0.2.1
      omega
    · have := blockCommentEnd_bounds cs (j + 1) e h
      omega

theorem whitespaceLoop_sat : ∀ (fuel i : Nat) (l : List Nat),
    (whitespaceLoop fuel i l).Sat (fun e => i ≤ e ∧ e ≤ i + l.length)
  | 0, _, _ => by simp [whitespaceLoop, Outcome.Sat]
  | fuel + 1, i, [] => by simp [whitespaceLoop, Outcome.Sat]
  | fuel + 1, i, c :: cs => by
    have here : (Outcome.ret i : Outcome Nat).Sat (fun e => i ≤ e ∧ e ≤ i + (c :: cs).length) :=
      ⟨Nat.le_refl _, by omega⟩
    simp only [whitespaceLoop]
    apply ite_sat <;> intro h0
    · exact sat_mono _ _ _ (whitespaceLoop_sat fuel (i + 1) cs)
        (fun e he => ⟨by omega, by simp only [List.length_cons]; omega⟩)
    · cases cs with
      | nil => exact here
      | cons c1 rest =>
        simp only
        apply ite_sat <;> intro h1
        · have hend : ∀ i', (if c1 = 0x2F then lineCommentEnd (i + 2) rest
              else blockCommentEnd (i + 2) rest) = some i' →
              i + 2 < i' ∧ i' ≤ i + 2 + rest.length := by
            intro i' h
            split_ifs at h
            · exact lineCommentEnd_bounds rest (i + 2) i' h
            · exact blockCommentEnd_bounds rest (i + 2) i' h
          cases hc : (if c1 = 0x2F then lineCommentEnd (i + 2) rest
              else blockCommentEnd (i + 2) rest) with
          | none => exact whitespaceLoop_sat fuel i (c :: c1 :: rest)
          | some i' =>
            obtain ⟨ha, hb⟩ := hend i' hc
            simp only
            refine sat_mono _ _ _
              (whitespaceLoop_sat fuel i' ((c :: c1 :: rest).drop (i' - i))) (fun e he => ?_)
            rw [List.length_drop] at he
            simp only [List.length_cons] at he ⊢
            omega
        · exact here

theorem whitespace_sat (fuel p : Nat) (l : List Nat) :
    (whitespace fuel (some ⟨p, l⟩)).Sat
      (fun w => ∃ e, w = some e ∧ p ≤ e ∧ e ≤ p + l.length) := by
  unfold whitespace
  simp only
  apply sat_bind _ _ _ _ (whitespaceLoop_sat fuel p l)
  intro e he
  exact ⟨e, rfl, he⟩

theorem stringLiteralLoop_sat : ∀ (fuel i : Nat) (l out : List Nat) (error : ParseError),
    (stringLiteralLoop fuel i l out error).Sat
      (fun r => Advances i l.length error r.pos r.error)
  | 0, _, _, _, _ => by simp [stringLiteralLoop, Outcome.Sat]
  | fuel + 1, i, [], out, error => by simp [stringLiteralLoop, Outcome.Sat, Advances]
  | fuel + 1, i, c :: cs, out, error => by
    simp only [stringLiteralLoop]
    apply ite_sat <;> intro h0
    · simp [Outcome.Sat, Advances]
    · apply ite_sat <;> intro h1
      · subst h1
        apply sat_bind _ _ _ _ (escapedUnicode_sat i cs out error)
        intro r hr
        cases hpos : r.pos with
        | none => trivial
        | some i' =>
          rw [hpos] at hr
          obtain ⟨ha, hb, hc⟩ := hr
          simp only
          rw [hc]
          refine sat_mono _ _ _
            (stringLiteralLoop_sat fuel i' ((0x5C :: cs).drop (i' - i)) r.value error)
            (fun r' hr' => advances_mono _ _ _ _ _ _ _ hr' (by omega) ?_)
          rw [List.length_drop]
          simp only [List.length_cons]
          omega
      · apply ite_sat <;> intro h2
        · apply sat_bind _ _ _ _ (whitespace_sat fuel (i + 1) cs)
          rintro w ⟨j, rfl, hj1, hj2⟩
          have here : (Outcome.ret ⟨some j, out, error⟩ : Outcome (Parsed (List Nat))).Sat
              (fun r => Advances i (c :: cs).length error r.pos r.error) :=
            advances_some _ _ _ _ (by omega) (by simp only [List.length_cons]; omega)
          simp only
          split
          · rename_i q q' tl heq
            have hlen := congrArg List.length heq
            rw [List.length_drop] at hlen
            simp only [List.length_cons] at hlen
            apply ite_sat <;> intro h3
            · exact here
            · refine sat_mono _ _ _ (stringLiteralLoop_sat fuel (j + 1) (q' :: tl) out error)
                (fun r' hr' => advances_mono _ _ _ _ _ _ _ hr' (by omega) ?_)
              simp only [List.length_cons]
              omega
          · exact here
        · refine sat_mono _ _ _ (stringLiteralLoop_sat fuel (i + 1) cs (out ++ [c]) error)
            (fun r' hr' => advances_mono _ _ _ _ _ _ _ hr' (by omega) ?_)
          simp only [List.length_cons]
          omega

theorem stringLiteral_sat (fuel p : Nat) (l : List Nat) (error : ParseError) :
    (stringLiteral fuel (some ⟨p, l⟩) error).Sat
      (fun r => Advances p l.length error r.pos r.error) := by
  unfold stringLiteral
  simp only
  cases l with
  | nil => simp [Outcome.Sat, Advances]
  | cons c cs =>
    simp only
    apply ite_sat <;> intro h0
    · simp [Outcome.Sat, Advances]
    · exact sat_mono _ _ _ (stringLiteralLoop_sat fuel (p + 1) cs [] error)
        (fun r hr => advances_mono _ _ _ _ _ _ _ hr (by omega)
          (by simp only [List.length_cons]; omega))

theorem nameLiteral_advances (p : Nat) (l : List Nat) (error : ParseError) :
    Advances p l.length error (nameLiteral (some ⟨p, l⟩) error).pos
      (nameLiteral (some ⟨p, l⟩) error).error := by
  unfold nameLiteral
  simp only
  cases l with
  | nil => simp [Advances]
  | cons c cs =>
    have hid := identifier_advances (p + 1) cs error
    simp only
    split_ifs with h0
    · simp [Advances]
    · cases hpos : (identifier (some ⟨p + 1, cs⟩) error).pos with
      | none =>
        rw [hpos] at hid
        exact hid
      | some i =>
        rw [hpos] at hid
        exact advances_mono _ _ _ _ _ _ _ hid (by omega)
          (by simp only [List.length_cons]; omega)

theorem referenceLiteralLoop_sat : ∀ (fuel i : Nat) (l : List Nat) (error : ParseError),
    (referenceLiteralLoop fuel i l error).Sat
      (fun r => Advances (i - 1) (l.length + 1) error r.1 r.2 ∨
        (r.1 = some i ∧ r.2 = error))
  | 0, _, _, _ => by simp [referenceLiteralLoop, Outcome.Sat]
  | fuel + 1, i, [], error => by simp [referenceLiteralLoop, Outcome.Sat]
  | fuel + 1, i, c :: cs, error => by
    simp only [referenceLiteralLoop]
    apply ite_sat <;> intro h0
    · exact Or.inr ⟨rfl, rfl⟩
    · have hid := identifier_advances (i + 1) cs error
      cases hpos : (identifier (some ⟨i + 1, cs⟩) error).pos with
      | none =>
        rw [hpos] at hid
        exact Or.inl hid
      | some i' =>
        rw [hpos] at hid
        obtain ⟨ha, hb, hc⟩ := hid
        simp only
        rw [hc]
        refine sat_mono _ _ _ (referenceLiteralLoop_sat fuel i' (cs.drop (i' - (i + 1))) error)
          (fun r hr => Or.inl ?_)
        rcases hr with hr | ⟨h1, h2⟩
        · refine advances_mono _ _ _ _ _ _ _ hr (by omega) ?_
          rw [List.length_drop]
          simp only [List.length_cons]
          omega
        · rw [h1, h2]
          exact advances_some _ _ _ _ (by omega) (by simp only [List.length_cons]; omega)

theorem referenceLiteral_sat (fuel p : Nat) (l : List Nat) (error : ParseError) :
    (referenceLiteral fuel (some ⟨p, l⟩) error).Sat
      (fun r => Advances p l.length error r.pos r.error) := by
  unfold referenceLiteral
  simp only
  cases l with
  | nil => simp [Outcome.Sat, Advances]
  | cons c cs =>
    simp only
    cases hnull : prefixMatch (some ⟨p, c :: cs⟩) kwNull with
    | some e =>
      obtain ⟨he, hl⟩ := prefixMatch_some p (c :: cs) kwNull e hnull
      simp only [kwNull, List.length_cons, List.length_nil] at he hl
      exact advances_some _ _ _ _ (by omega) (by simp only [List.length_cons]; omega)
    | none =>
      simp only
      apply ite_sat <;> intro h0
      · simp [Outcome.Sat, Advances]
      · have hid := identifier_advances (p + 1) cs error
        have hlooped : (match (identifier (some ⟨p + 1, cs⟩) error).pos with
            | none => Outcome.ret (none, (identifier (some ⟨p + 1, cs⟩) error).error)
            | some i => referenceLiteralLoop fuel i (cs.drop (i - (p + 1)))
                (identifier (some ⟨p + 1, cs⟩) error).error).Sat
            (fun (r : Option Nat × ParseError) => Advances p (c :: cs).length error r.1 r.2) := by
          cases hpos : (identifier (some ⟨p + 1, cs⟩) error).pos with
          | none =>
            rw [hpos] at hid
            exact hid
          | some i =>
            rw [hpos] at hid
            obtain ⟨ha, hb, hc⟩ := hid
            simp only
            rw [hc]
            refine sat_mono _ _ _ (referenceLiteralLoop_sat fuel i (cs.drop (i - (p + 1))) error)
              (fun r hr => ?_)
            rcases hr with hr | ⟨h1, h2⟩
            · refine advances_mono _ _ _ _ _ _ _ hr (by omega) ?_
              rw [List.length_drop]
              simp only [List.length_cons]
              omega
            · rw [h1, h2]
              exact advances_some _ _ _ _ (by omega) (by simp only [List.length_cons]; omega)
        apply sat_bind _ _ _ _ hlooped
        intro r hr
        cases h1 : r.1 with
        | none =>
          rw [h1] at hr
          exact hr
        | some i =>
          rw [h1] at hr
          exact hr

theorem possiblyTypeLiteralFrom_some (p : Nat) (l : List Nat) (e : Nat) (t : DdlType) :
    ∀ (tb : List (List Nat × DdlType)),
      possiblyTypeLiteralFrom (some ⟨p, l⟩) tb = (some e, t) →
      ∃ k ∈ tb, e = p + k.1.length ∧ k.1.length ≤ l.length
  | [], h => by simp [possiblyTypeLiteralFrom] at h
  | (k, t') :: more, h => by
    simp only [possiblyTypeLiteralFrom] at h
    cases hk : prefixMatch (some ⟨p, l⟩) k with
    | some c =>
      rw [hk] at h
      simp only [Prod.mk.injEq, Option.some.injEq] at h
      obtain ⟨he, hl⟩ := prefixMatch_some p l k c hk
      exact ⟨(k, t'), List.mem_cons_self _ _, by rw [← h.1]; exact he, hl⟩
    | none =>
      rw [hk] at h
      obtain ⟨k', hk', h1, h2⟩ := possiblyTypeLiteralFrom_some p l e t more h
      exact ⟨k', List.mem_cons_of_mem _ hk', h1, h2⟩

theorem possiblyTypeLiteral_bounds (p : Nat) (l : List Nat) (e : Nat) (t : DdlType)
    (h : possiblyTypeLiteral (some ⟨p, l⟩) = (some e, t)) : p < e ∧ e ≤ p + l.length := by
  obtain ⟨k, hk, h1, h2⟩ := possiblyTypeLiteralFrom_some p l e t typeTable h
  have hne := List.length_pos.mpr (typeTable_nonempty k hk)
  omega

theorem typeLiteral_advances (p : Nat) (l : List Nat) (error : ParseError) :
    Advances p l.length error (typeLiteral (some ⟨p, l⟩) error).pos
      (typeLiteral (some ⟨p, l⟩) error).error := by
  unfold typeLiteral
  simp only
  cases l with
  | nil => simp [Advances]
  | cons c cs =>
    simp only
    rcases hp : possiblyTypeLiteral (some ⟨p, c :: cs⟩) with ⟨_ | e, t⟩
    · simp [Advances]
    · obtain ⟨ha, hb⟩ := possiblyTypeLiteral_bounds p (c :: cs) e t hp
      exact advances_some _ _ _ _ ha hb

theorem propertyValue_sat (fuel p : Nat) (l : List Nat) (o : PropertyOutputs) :
    (propertyValue fuel (some ⟨p, l⟩) o).Sat
      (fun r => Advances p l.length o.error r.pos r.out.error) := by
  unfold propertyValue
  simp only
  cases l with
  | nil => simp [Outcome.Sat, Advances]
  | cons c cs =>
    simp only
    apply ite_sat <;> intro h0
    · exact sat_bind _ _ _ _ (stringLiteral_sat fuel p (c :: cs) o.error) (fun r hr => hr)
    · apply ite_sat <;> intro h1
      · exact sat_bind _ _ _ _ (referenceLiteral_sat fuel p (c :: cs) o.error) (fun r hr => hr)
      · apply ite_sat <;> intro h2
        · apply ite_sat <;> intro h3
          · exact sat_bind _ _ _ _
              (floatingPointLiteral_sat FloatT.Float p (c :: cs) o.buffer o.error)
              (fun r hr => hr)
          · have hbody : integralLiteral IntegralT.Int (some ⟨p, c :: cs⟩) o.buffer o.error
                = integralLiteralBody IntegralT.Int 1 p (c :: cs) o.buffer o.error := by
              have n1 : ¬ (c = 0x2B) := by omega
              have n2 : ¬ (c = 0x2D) := by omega
              simp only [integralLiteral, if_neg n1, if_neg n2]
            rw [hbody]
            apply sat_bind _ _ _ _
              (integralLiteralBody_sat IntegralT.Int 1 p (c :: cs) o.buffer o.error)
            rintro r ⟨hr, hbase⟩
            apply ite_sat <;> intro h4
            · exact hr
            · apply ite_sat <;> intro h5
              · exact hr
              · apply ite_sat <;> intro h6
                · exact hr
                · exfalso
                  rcases hbase with h | h | h | h | h
                  · exact h4 (Or.inl h)
                  · exact h4 (Or.inr (Or.inl h))
                  · exact h5 h
                  · exact h4 (Or.inr (Or.inr h))
                  · exact h6 h
        · cases hn : prefixMatch (some ⟨p, c :: cs⟩) kwNull with
          | some e =>
            obtain ⟨he, hl⟩ := prefixMatch_some p (c :: cs) kwNull e hn
            simp only [kwNull, List.length_cons, List.length_nil] at he hl
            exact advances_some _ _ _ _ (by omega) (by simp only [List.length_cons]; omega)
          | none =>
            cases ht : prefixMatch (some ⟨p, c :: cs⟩) kwTrue with
            | some e =>
              obtain ⟨he, hl⟩ := prefixMatch_some p (c :: cs) kwTrue e ht
              simp only [kwTrue, List.length_cons, List.length_nil] at he hl
              exact advances_some _ _ _ _ (by omega) (by simp only [List.length_cons]; omega)
            | none =>
              cases hf : prefixMatch (some ⟨p, c :: cs⟩) kwFalse with
              | some e =>
                obtain ⟨he, hl⟩ := prefixMatch_some p (c :: cs) kwFalse e hf
                simp only [kwFalse, List.length_cons, List.length_nil] at he hl
                exact advances_some _ _ _ _ (by omega) (by simp only [List.length_cons]; omega)
              | none =>
                rcases hp : possiblyTypeLiteral (some ⟨p, c :: cs⟩) with ⟨_ | e, t⟩
                · simp [Outcome.Sat, Advances]
                · obtain ⟨ha, hb⟩ := possiblyTypeLiteral_bounds p (c :: cs) e t hp
                  exact advances_some _ _ _ _ ha hb

theorem advances_bounds (start len : Nat) (error : ParseError) (pos : Option Nat)
    (err : ParseError) (e : Nat) (h : Advances start len error pos err) (he : pos = some e) :
    start < e ∧ e ≤ start + len := by
  subst he
  exact ⟨h.1, h.2.1⟩

theorem advances_iff (start len : Nat) (error : ParseError) (pos : Option Nat)
    (err : ParseError) (h : Advances start len error pos err)
    (h0 : error.error = ParseErrorType.NoError) :
    (pos = none ↔ err.error ≠ ParseErrorType.NoError) := by
  cases pos with
  | none => simpa using h
  | some e =>
    obtain ⟨-, -, hc⟩ := h
    rw [hc]
    simp [h0]

theorem escapedUnicode_starts (q : Nat) (l out : List Nat) (error : ParseError)
    (r : Parsed (List Nat)) (h : escapedUnicode (some ⟨q, l⟩) out error = Outcome.ret r) :
    ∃ tl, l = 0x5C :: tl := by
  cases l with
  | nil => simp [escapedUnicode] at h
  | cons a tl =>
    by_cases ha : a = 0x5C
    · exact ⟨tl, by rw [ha]⟩
    · simp [escapedUnicode, ha] at h

/-- C24. Positions are absolute, the view of `l.length` bytes starts at `p`;
the end offset is `e - p`. For each of `identifier`, `boolLiteral`,
`characterLiteral`, `integralLiteral<T>`, `floatingPointLiteral<T>`,
`stringLiteral`, `nameLiteral`, `referenceLiteral`, `typeLiteral` and
`propertyValue`, a call that returns a position `e` other than the null one
has `p < e` and `e ≤ p + l.length`; for `whitespace`, `escapedChar` and
`escapedUnicode` it has `p ≤ e` and `e ≤ p + l.length`. -/
theorem cursor_within_span (fuel p : Nat) (l : List Nat) (e : Nat) (error : ParseError)
    (buffer out : List Nat) (T : IntegralT) (F : FloatT) (o : PropertyOutputs) :
    ((identifier (some ⟨p, l⟩) error).pos = some e → p < e ∧ e ≤ p + l.length)
    ∧ ((boolLiteral (some ⟨p, l⟩) error).pos = some e → p < e ∧ e ≤ p + l.length)
    ∧ (∀ r, characterLiteral (some ⟨p, l⟩) error = Outcome.ret r → r.pos = some e →
        p < e ∧ e ≤ p + l.length)
    ∧ (∀ r, integralLiteral T (some ⟨p, l⟩) buffer error = Outcome.ret r → r.pos = some e →
        p < e ∧ e ≤ p + l.length)
    ∧ (∀ r, floatingPointLiteral F (some ⟨p, l⟩) buffer error = Outcome.ret r →
        r.pos = some e → p < e ∧ e ≤ p + l.length)
    ∧ (∀ r, stringLiteral fuel (some ⟨p, l⟩) error = Outcome.ret r → r.pos = some e →
        p < e ∧ e ≤ p + l.length)
    ∧ ((nameLiteral (some ⟨p, l⟩) error).pos = some e → p < e ∧ e ≤ p + l.length)
    ∧ (∀ r, referenceLiteral fuel (some ⟨p, l⟩) error = Outcome.ret r → r.pos = some e →
        p < e ∧ e ≤ p + l.length)
    ∧ ((typeLiteral (some ⟨p, l⟩) error).pos = some e → p < e ∧ e ≤ p + l.length)
    ∧ (∀ r, propertyValue fuel (some ⟨p, l⟩) o = Outcome.ret r → r.pos = some e →
        p < e ∧ e ≤ p + l.length)
    ∧ (whitespace fuel (some ⟨p, l⟩) = Outcome.ret (some e) → p ≤ e ∧ e ≤ p + l.length)
    ∧ (∀ r, escapedChar (some ⟨p, l⟩) error = Outcome.ret r → r.pos = some e →
        p ≤ e ∧ e ≤ p + l.length)
    ∧ (∀ r, escapedUnicode (some ⟨p, l⟩) out error = Outcome.ret r → r.pos = some e →
        p ≤ e ∧ e ≤ p + l.length) := by
  refine ⟨?_, ?_, ?_, ?_, ?_, ?_, ?_, ?_, ?_, ?_, ?_, ?_, ?_⟩
  · exact advances_bounds _ _ _ _ _ _ (identifier_advances p l error)
  · exact advances_bounds _ _ _ _ _ _ (boolLiteral_advances p l error)
  · intro r hr
    exact advances_bounds _ _ _ _ _ _ (sat_of_eq_ret _ _ r (characterLiteral_sat p l error) hr)
  · intro r hr
    exact advances_bounds _ _ _ _ _ _
      (sat_of_eq_ret _ _ r (integralLiteral_sat T p l buffer error) hr)
  · intro r hr
    exact advances_bounds _ _ _ _ _ _
      (sat_of_eq_ret _ _ r (floatingPointLiteral_sat F p l buffer error) hr)
  · intro r hr
    exact advances_bounds _ _ _ _ _ _
      (sat_of_eq_ret _ _ r (stringLiteral_sat fuel p l error) hr)
  · exact advances_bounds _ _ _ _ _ _ (nameLiteral_advances p l error)
  · intro r hr
    exact advances_bounds _ _ _ _ _ _
      (sat_of_eq_ret _ _ r (referenceLiteral_sat fuel p l error) hr)
  · exact advances_bounds _ _ _ _ _ _ (typeLiteral_advances p l error)
  · intro r hr
    exact advances_bounds _ _ _ _ _ _ (sat_of_eq_ret _ _ r (propertyValue_sat fuel p l o) hr)
  · intro h
    obtain ⟨e', he', h1, h2⟩ := sat_of_eq_ret _ _ _ (whitespace_sat fuel p l) h
    simp only [Option.some.injEq] at he'
    subst he'
    exact ⟨h1, h2⟩
  · intro r hr hpos
    obtain ⟨tl, rfl⟩ := escapedChar_starts p l error r hr
    have h := advances_bounds _ _ _ _ _ _
      (sat_of_eq_ret _ _ r (escapedChar_sat p tl error) hr) hpos
    simp only [List.length_cons]
    omega
  · intro r hr hpos
    obtain ⟨tl, rfl⟩ := escapedUnicode_starts p l out error r hr
    have h := advances_bounds _ _ _ _ _ _
      (sat_of_eq_ret _ _ r (escapedUnicode_sat p tl out error) hr) hpos
    simp only [List.length_cons]
    omega

/-- C24, at the identifier `ab` (end offset 2 of 2), at the string `"a" x` (end
offset 4 of 5) and at the property value `12,` (end offset 2 of 3). -/
theorem cursor_within_span_witness :
    (0 < 2 ∧ 2 ≤ 0 + [0x61, 0x62].length)
    ∧ (0 < 4 ∧ 4 ≤ 0 + [0x22, 0x61, 0x22, 0x20, 0x78].length)
    ∧ (0 < 2 ∧ 2 ≤ 0 + [0x31, 0x32, 0x2C].length) :=
  ⟨(cursor_within_span 0 0 [0x61, 0x62] 2 {} [] [] IntegralT.Int FloatT.Float
      ⟨false, 0, FloatValue.zero, [], none, DdlType.Bool, [], {}⟩).1 (by decide),
   (cursor_within_span 5 0 [0x22, 0x61, 0x22, 0x20, 0x78] 4 {} [] [] IntegralT.Int FloatT.Float
      ⟨false, 0, FloatValue.zero, [], none, DdlType.Bool, [], {}⟩).2.2.2.2.2.1
      ⟨some 4, [0x61], {}⟩ (by decide) rfl,
   (cursor_within_span 5 0 [0x31, 0x32, 0x2C] 2 {} [] [] IntegralT.Int FloatT.Float
      ⟨false, 0, FloatValue.zero, [], none, DdlType.Bool, [], {}⟩).2.2.2.2.2.2.2.2.2.1
      ⟨some 2, InternalPropertyType.Integral,
        ⟨false, 12, FloatValue.zero, [], none, DdlType.Bool, [0x31, 0x32], {}⟩⟩
      (by decide) rfl⟩

/-- On every call that returns, the position returned is the null one exactly
when the error slot holds another kind than `NoError` after the call, the slot
being `NoError` before; this holds of all ten parsers, with or without
backslashes in the input. -/
theorem failure_by_value_on_return (fuel p : Nat) (l : List Nat) (error : ParseError)
    (buffer : List Nat) (T : IntegralT) (F : FloatT) (o : PropertyOutputs)
    (h0 : error.error = ParseErrorType.NoError) (ho : o.error.error = ParseErrorType.NoError) :
    ((identifier (some ⟨p, l⟩) error).pos = none
        ↔ (identifier (some ⟨p, l⟩) error).error.error ≠ ParseErrorType.NoError)
    ∧ ((boolLiteral (some ⟨p, l⟩) error).pos = none
        ↔ (boolLiteral (some ⟨p, l⟩) error).error.error ≠ ParseErrorType.NoError)
    ∧ (∀ r, characterLiteral (some ⟨p, l⟩) error = Outcome.ret r →
        (r.pos = none ↔ r.error.error ≠ ParseErrorType.NoError))
    ∧ (∀ r, integralLiteral T (some ⟨p, l⟩) buffer error = Outcome.ret r →
        (r.pos = none ↔ r.error.error ≠ ParseErrorType.NoError))
    ∧ (∀ r, floatingPointLiteral F (some ⟨p, l⟩) buffer error = Outcome.ret r →
        (r.pos = none ↔ r.error.error ≠ ParseErrorType.NoError))
    ∧ ((nameLiteral (some ⟨p, l⟩) error).pos = none
        ↔ (nameLiteral (some ⟨p, l⟩) error).error.error ≠ ParseErrorType.NoError)
    ∧ (∀ r, referenceLiteral fuel (some ⟨p, l⟩) error = Outcome.ret r →
        (r.pos = none ↔ r.error.error ≠ ParseErrorType.NoError))
    ∧ ((typeLiteral (some ⟨p, l⟩) error).pos = none
        ↔ (typeLiteral (some ⟨p, l⟩) error).error.error ≠ ParseErrorType.NoError)
    ∧ (∀ r, stringLiteral fuel (some ⟨p, l⟩) error = Outcome.ret r →
        (r.pos = none ↔ r.error.error ≠ ParseErrorType.NoError))
    ∧ (∀ r, propertyValue fuel (some ⟨p, l⟩) o = Outcome.ret r →
        (r.pos = none ↔ r.out.error.error ≠ ParseErrorType.NoError)) := by
  refine ⟨?_, ?_, ?_, ?_, ?_, ?_, ?_, ?_, ?_, ?_⟩
  · exact advances_iff _ _ _ _ _ (identifier_advances p l error) h0
  · exact advances_iff _ _ _ _ _ (boolLiteral_advances p l error) h0
  · intro r hr
    exact advances_iff _ _ _ _ _ (sat_of_eq_ret _ _ r (characterLiteral_sat p l error) hr) h0
  · intro r hr
    exact advances_iff _ _ _ _ _
      (sat_of_eq_ret _ _ r (integralLiteral_sat T p l buffer error) hr) h0
  · intro r hr
    exact advances_iff _ _ _ _ _
      (sat_of_eq_ret _ _ r (floatingPointLiteral_sat F p l buffer error) hr) h0
  · exact advances_iff _ _ _ _ _ (nameLiteral_advances p l error) h0
  · intro r hr
    exact advances_iff _ _ _ _ _
      (sat_of_eq_ret _ _ r (referenceLiteral_sat fuel p l error) hr) h0
  · exact advances_iff _ _ _ _ _ (typeLiteral_advances p l error) h0
  · intro r hr
    exact advances_iff _ _ _ _ _ (sat_of_eq_ret _ _ r (stringLiteral_sat fuel p l error) hr) h0
  · intro r hr
    exact advances_iff _ _ _ _ _ (sat_of_eq_ret _ _ r (propertyValue_sat fuel p l o) hr) ho

/-- C23, at the failing input. The input of twenty digits `9` is not null and
holds no backslash, and the error slot is `NoError`; `propertyValue` on it does
not return: the exception `std::out_of_range` of `std::stoul` leaves the
function through `integralLiteral<Int>`, so the failure comes with no position
and with no error kind written. -/
theorem propertyValue_failure_by_exception (fuel : Nat) :
    (0x5C : Nat) ∉ List.replicate 20 0x39
    ∧ propertyValue fuel (some ⟨0, List.replicate 20 0x39⟩)
        ⟨false, 0, FloatValue.zero, [], none, DdlType.Bool, [], {}⟩
      = Outcome.throws StdException.out_of_range := by
  refine ⟨by decide, ?_⟩
  have hi : integralLiteral IntegralT.Int (some ⟨0, List.replicate 20 0x39⟩) []
      ({} : ParseError) = Outcome.throws StdException.out_of_range := by decide
  have hf : floatScan (List.replicate 20 0x39) = false := by decide
  have e : List.replicate 20 0x39 = 0x39 :: List.replicate 19 0x39 := rfl
  have n1 : ¬ ((0x39 : Nat) = 0x22) := by decide
  have n2 : ¬ ((0x39 : Nat) = 0x25 ∨ (0x39 : Nat) = 0x24) := by decide
  have n3 : (0x30 ≤ 0x39 ∧ 0x39 ≤ 0x39) ∨ (0x39 : Nat) = 0x2E ∨ (0x39 : Nat) = 0x27 := by
    decide
  unfold propertyValue
  simp only [e, if_neg n1, if_neg n2, if_pos n3]
  rw [← e, hf, hi]
  rfl

/-- C30. No call of `integralLiteral`, `floatingPointLiteral` or `propertyValue`
ends in a failed assertion, on any input. The base that `integralLiteral<Int>`
returns on an input that starts as in the numeric branch of `propertyValue`
(a decimal digit, a dot or a single quote) is one of 2, 8, 10, 16, 256, also
when the position returned is the null one; and a byte for which
`isBinaryPrefix` holds is one of `x X o O b B`, the cases of the two
switches. -/
theorem unreachable_not_reached (fuel : Nat) (data : Option ArrayReference) (T : IntegralT)
    (F : FloatT) (buffer : List Nat) (error : ParseError) (o : PropertyOutputs) :
    integralLiteral T data buffer error ≠ Outcome.assertion
    ∧ floatingPointLiteral F data buffer error ≠ Outcome.assertion
    ∧ propertyValue fuel data o ≠ Outcome.assertion
    ∧ (∀ (p c : Nat) (cs : List Nat) (r : IntegralResult),
        ((0x30 ≤ c ∧ c ≤ 0x39) ∨ c = 0x2E ∨ c = 0x27) →
        integralLiteral IntegralT.Int (some ⟨p, c :: cs⟩) buffer error = Outcome.ret r →
        r.base = 2 ∨ r.base = 8 ∨ r.base = 10 ∨ r.base = 16 ∨ r.base = 256)
    ∧ (∀ c : Nat, isBinaryPrefix c = true →
        c = 0x78 ∨ c = 0x58 ∨ c = 0x6F ∨ c = 0x4F ∨ c = 0x62 ∨ c = 0x42) := by
  refine ⟨?_, ?_, ?_, ?_, ?_⟩
  · cases data with
    | none => simp [integralLiteral]
    | some d => exact sat_ne_assertion _ _ (integralLiteral_sat T d.ptr d.bytes buffer error)
  · cases data with
    | none => simp [floatingPointLiteral]
    | some d =>
      exact sat_ne_assertion _ _ (floatingPointLiteral_sat F d.ptr d.bytes buffer error)
  · cases data with
    | none => simp [propertyValue]
    | some d => exact sat_ne_assertion _ _ (propertyValue_sat fuel d.ptr d.bytes o)
  · intro p c cs r hc hr
    have n1 : ¬ (c = 0x2B) := by omega
    have n2 : ¬ (c = 0x2D) := by omega
    simp only [integralLiteral, if_neg n1, if_neg n2] at hr
    exact (sat_of_eq_ret _ _ r
      (integralLiteralBody_sat IntegralT.Int 1 p (c :: cs) buffer error) hr).2
  · intro c hc
    simp only [isBinaryPrefix] at hc
    revert hc
    simp
    omega

/-- C30, at the input `'a` (a character literal without its closing quote):
`integralLiteral<Int>` fails and the base it returns is 256. -/
theorem unreachable_not_reached_witness :
    integralLiteral IntegralT.Int (some ⟨0, [0x27, 0x61]⟩) [] ({} : ParseError)
      = Outcome.ret ⟨none, 0, 256, [],
          { error := ParseErrorType.InvalidCharacterLiteral, position := some 0 }⟩
    ∧ ((256 : Int) = 2 ∨ (256 : Int) = 8 ∨ (256 : Int) = 10 ∨ (256 : Int) = 16
        ∨ (256 : Int) = 256)
    ∧ (0x78 = 0x78 ∨ 0x78 = 0x58 ∨ 0x78 = 0x6F ∨ 0x78 = 0x4F ∨ 0x78 = 0x62 ∨ 0x78 = 0x42) :=
  ⟨by decide,
   (unreachable_not_reached 0 none IntegralT.Int FloatT.Float [] {}
      ⟨false, 0, FloatValue.zero, [], none, DdlType.Bool, [], {}⟩).2.2.2.1 0 0x27 [0x61]
      ⟨none, 0, 256, [], { error := ParseErrorType.InvalidCharacterLiteral, position := some 0 }⟩
      (by decide) (by decide),
   (unreachable_not_reached 0 none IntegralT.Int FloatT.Float [] {}
      ⟨false, 0, FloatValue.zero, [], none, DdlType.Bool, [], {}⟩).2.2.2.2 0x78 (by decide)⟩

/-- The output fields after a call of `propertyValue` that returns a position
other than the null one: apart from the buffer, the only field that differs
from its value before the call is the one of the tag returned, except on the
`null` branch, where the tag is `Reference` and the field written is
`stringValue`. -/
theorem propertyValue_fields (fuel p : Nat) (l : List Nat) (o : PropertyOutputs) :
    (propertyValue fuel (some ⟨p, l⟩) o).Sat (fun r => r.pos ≠ none →
      (r.tag = InternalPropertyType.String
          ∧ r.out = { o with stringValue := r.out.stringValue })
      ∨ (r.tag = InternalPropertyType.Reference
          ∧ (r.out = { o with referenceValue := r.out.referenceValue }
            ∨ (prefixMatch (some ⟨p, l⟩) kwNull ≠ none
                ∧ r.out = { o with stringValue := kwNull })))
      ∨ (r.tag = InternalPropertyType.Float
          ∧ r.out = { o with floatingPointValue := r.out.floatingPointValue,
                             buffer := r.out.buffer })
      ∨ ((r.tag = InternalPropertyType.Binary ∨ r.tag = InternalPropertyType.Integral
            ∨ r.tag = InternalPropertyType.Character)
          ∧ r.out = { o with integerValue := r.out.integerValue, buffer := r.out.buffer })
      ∨ (r.tag = InternalPropertyType.Bool ∧ r.out = { o with boolValue := r.out.boolValue })
      ∨ (r.tag = InternalPropertyType.Type_
          ∧ r.out = { o with typeValue := r.out.typeValue })) := by
  unfold propertyValue
  simp only
  cases l with
  | nil => simp [Outcome.Sat]
  | cons c cs =>
    simp only
    apply ite_sat <;> intro h0
    · apply sat_bind _ _ _ _ (stringLiteral_sat fuel p (c :: cs) o.error)
      intro r hr hpos
      cases hp : r.pos with
      | none => exact absurd hp hpos
      | some e =>
        rw [hp] at hr
        exact Or.inl ⟨rfl, by simp [hr.2.2]⟩
    · apply ite_sat <;> intro h1
      · apply sat_bind _ _ _ _ (referenceLiteral_sat fuel p (c :: cs) o.error)
        intro r hr hpos
        cases hp : r.pos with
        | none => exact absurd hp hpos
        | some e =>
          rw [hp] at hr
          exact Or.inr (Or.inl ⟨rfl, Or.inl (by simp [hr.2.2])⟩)
      · apply ite_sat <;> intro h2
        · apply ite_sat <;> intro h3
          · apply sat_bind _ _ _ _
              (floatingPointLiteral_sat FloatT.Float p (c :: cs) o.buffer o.error)
            intro r hr hpos
            cases hp : r.pos with
            | none => exact absurd hp hpos
            | some e =>
              rw [hp] at hr
              exact Or.inr (Or.inr (Or.inl ⟨rfl, by simp [hr.2.2]⟩))
          · have hbody : integralLiteral IntegralT.Int (some ⟨p, c :: cs⟩) o.buffer o.error
                = integralLiteralBody IntegralT.Int 1 p (c :: cs) o.buffer o.error := by
              have n1 : ¬ (c = 0x2B) := by omega
              have n2 : ¬ (c = 0x2D) := by omega
              simp only [integralLiteral, if_neg n1, if_neg n2]
            rw [hbody]
            apply sat_bind _ _ _ _
              (integralLiteralBody_sat IntegralT.Int 1 p (c :: cs) o.buffer o.error)
            rintro r ⟨hr, hbase⟩
            have herr : r.pos ≠ none → r.error = o.error := by
              intro hpos
              cases hp : r.pos with
              | none => exact absurd hp hpos
              | some e =>
                rw [hp] at hr
                exact hr.2.2
            apply ite_sat <;> intro h4
            · intro hpos
              exact Or.inr (Or.inr (Or.inr (Or.inl ⟨Or.inl rfl, by simp [herr hpos]⟩)))
            · apply ite_sat <;> intro h5
              · intro hpos
                exact Or.inr (Or.inr (Or.inr (Or.inl ⟨Or.inr (Or.inl rfl),
                  by simp [herr hpos]⟩)))
              · apply ite_sat <;> intro h6
                · intro hpos
                  exact Or.inr (Or.inr (Or.inr (Or.inl ⟨Or.inr (Or.inr rfl),
                    by simp [herr hpos]⟩)))
                · exfalso
                  rcases hbase with h | h | h | h | h
                  · exact h4 (Or.inl h)
                  · exact h4 (Or.inr (Or.inl h))
                  · exact h5 h
                  · exact h4 (Or.inr (Or.inr h))
                  · exact h6 h
        · cases hn : prefixMatch (some ⟨p, c :: cs⟩) kwNull with
          | some e =>
            intro _
            exact Or.inr (Or.inl ⟨rfl, Or.inr ⟨by simp, rfl⟩⟩)
          | none =>
            cases ht : prefixMatch (some ⟨p, c :: cs⟩) kwTrue with
            | some e =>
              intro _
              exact Or.inr (Or.inr (Or.inr (Or.inr (Or.inl ⟨rfl, rfl⟩))))
            | none =>
              cases hf : prefixMatch (some ⟨p, c :: cs⟩) kwFalse with
              | some e =>
                intro _
                exact Or.inr (Or.inr (Or.inr (Or.inr (Or.inl ⟨rfl, rfl⟩))))
              | none =>
                rcases hp : possiblyTypeLiteral (some ⟨p, c :: cs⟩) with ⟨_ | e, t⟩
                · intro hpos
                  exact absurd rfl hpos
                · intro _
                  exact Or.inr (Or.inr (Or.inr (Or.inr (Or.inr ⟨rfl, rfl⟩))))

/-- The calls that the statements about returned positions do not speak of:
on a literal that ends right after the `e` of an exponent,
`floatingPointLiteral` reads the byte at `data.end()`; here on `5e`, also
through the float branch of `propertyValue` on `5.e`. -/
theorem floatingPointLiteral_exponent_at_end (fuel : Nat) :
    floatingPointLiteral FloatT.Float (some ⟨0, [0x35, 0x65]⟩) [] ({} : ParseError)
      = Outcome.undefinedBehaviour
    ∧ propertyValue fuel (some ⟨0, [0x35, 0x2E, 0x65]⟩)
        ⟨false, 0, FloatValue.zero, [], none, DdlType.Bool, [], {}⟩
      = Outcome.undefinedBehaviour := by
  refine ⟨by decide, ?_⟩
  have hf : floatingPointLiteral FloatT.Float (some ⟨0, [0x35, 0x2E, 0x65]⟩) []
      ({} : ParseError) = Outcome.undefinedBehaviour := by decide
  have hs : floatScan [0x35, 0x2E, 0x65] = true := by decide
  have n1 : ¬ ((0x35 : Nat) = 0x22) := by decide
  have n2 : ¬ ((0x35 : Nat) = 0x25 ∨ (0x35 : Nat) = 0x24) := by decide
  have n3 : (0x30 ≤ 0x35 ∧ 0x35 ≤ 0x39) ∨ (0x35 : Nat) = 0x2E ∨ (0x35 : Nat) = 0x27 := by
    decide
  unfold propertyValue
  simp only [if_neg n1, if_neg n2, if_pos n3, hs, if_true, hf]
  rfl

/-! ## Equality of spans -/

theorem strncmpEq_iff_takeWhile : ∀ (a b : List Nat), a.length = b.length →
    (strncmpEq a b a.length = true
      ↔ a.takeWhile (fun c => c != 0) = b.takeWhile (fun c => c != 0))
  | [], [], _ => by simp [strncmpEq]
  | [], _ :: _, h => by simp at h
  | _ :: _, [], h => by simp at h
  | x :: a, y :: b, h => by
    have hlen : a.length = b.length := by simpa using h
    have ih := strncmpEq_iff_takeWhile a b hlen
    by_cases hxy : x = y
    · subst hxy
      by_cases hx : x = 0
      · subst hx
        simp [strncmpEq]
      · simp [strncmpEq, hx, ih]
    · by_cases hx : x = 0
      · subst hx
        have hy : y ≠ 0 := fun h0 => hxy h0.symm
        simp [strncmpEq, hxy, hy]
      · by_cases hy : y = 0
        · subst hy
          simp [strncmpEq, hx]
        · simp [strncmpEq, hxy, hx, hy]

/-- What `equals` decides: whether the two spans have the same length and the
same bytes up to their first zero byte; the bytes after it are not compared. -/
theorem equals_iff (a b : List Nat) :
    equals a b = true
      ↔ a.length = b.length
        ∧ a.takeWhile (fun c => c != 0) = b.takeWhile (fun c => c != 0) := by
  unfold equals equalsPrefix
  rw [Bool.and_eq_true, beq_iff_eq]
  constructor
  · rintro ⟨h1, h2⟩
    exact ⟨h1, (strncmpEq_iff_takeWhile a b h1).mp h2⟩
  · rintro ⟨h1, h2⟩
    exact ⟨h1, (strncmpEq_iff_takeWhile a b h1).mpr h2⟩

/-- On spans of which one holds no zero byte `equals` is equality of the
spans. -/
theorem equals_iff_eq (a b : List Nat) (hz : ∀ x ∈ b, x ≠ 0) : equals a b = true ↔ a = b := by
  unfold equals equalsPrefix
  rw [Bool.and_eq_true, beq_iff_eq]
  constructor
  · rintro ⟨h1, h2⟩
    exact (strncmpEq_eq_iff a b h1 hz).mp h2
  · rintro rfl
    exact ⟨rfl, (strncmpEq_eq_iff a a rfl hz).mpr rfl⟩

/-- C31, at the failing input. The spans `a`, zero, `b` and `a`, zero, `c` have
the same length, agree up to and including the zero byte and differ in their
last byte, and `equals` says they are equal: `strncmp` stops at the zero
byte. -/
theorem equals_zero_byte :
    [0x61, 0x00, 0x62].length = [0x61, 0x00, 0x63].length
    ∧ [0x61, 0x00, 0x62] ≠ [0x61, 0x00, 0x63]
    ∧ equals [0x61, 0x00, 0x62] [0x61, 0x00, 0x63] = true := by
  decide

/-! ## Failures of reference literals -/

theorem identifier_no_start (q b : Nat) (tl : List Nat) (error : ParseError)
    (hb : isIdentStart b = false) :
    identifier (some ⟨q, b :: tl⟩) error
      = ⟨none, (), { error := ParseErrorType.InvalidIdentifier, position := some q }⟩ := by
  have h1 : (!isAlpha b && b != 0x5F) = true := by
    rw [isIdentStart_iff] at hb
    cases h1 : isAlpha b <;> cases h2 : (b == 0x5F) <;> simp_all
  simp [identifier, h1]

theorem identifier_none_shape (q : Nat) (l : List Nat) (error : ParseError)
    (h : (identifier (some ⟨q, l⟩) error).pos = none) :
    l = [] ∨ ∃ b tl, l = b :: tl ∧ isIdentStart b = false := by
  cases l with
  | nil => exact Or.inl rfl
  | cons c cs =>
    right
    cases hc : isIdentStart c with
    | false => exact ⟨c, cs, rfl, hc⟩
    | true =>
      rw [identifier_start q c cs error hc] at h
      simp at h

/-- The loop of `referenceLiteral` over a chain of segments followed by a `%`
after which `identifier` fails: the loop ends with the null position and the
error of that call of `identifier`. -/
theorem referenceLiteralLoop_dangling (ids : List (List Nat)) (bad : List Nat)
    (hids : ∀ id ∈ ids, isIdentifierText id = true) (error : ParseError)
    (fuel i : Nat) (hfuel : ids.length < fuel)
    (hbad : (identifier (some ⟨i + (segments ids).length + 1, bad⟩) error).pos = none) :
    referenceLiteralLoop fuel i (segments ids ++ 0x25 :: bad) error
      = Outcome.ret (none,
          (identifier (some ⟨i + (segments ids).length + 1, bad⟩) error).error) := by
  induction ids generalizing fuel i with
  | nil =>
    obtain ⟨f, rfl⟩ : ∃ f, fuel = f + 1 := ⟨fuel - 1, by simp at hfuel; omega⟩
    simp only [segments, List.length_nil, Nat.add_zero, List.nil_append] at hbad ⊢
    simp only [referenceLiteralLoop, ne_eq, not_true_eq_false, if_false, hbad]
  | cons id more ih =>
    obtain ⟨f, rfl⟩ : ∃ f, fuel = f + 1 := ⟨fuel - 1, by simp at hfuel; omega⟩
    have hid := hids id (List.mem_cons_self _ _)
    have hmore : ∀ x ∈ more, isIdentifierText x = true :=
      fun x hx => hids x (List.mem_cons_of_mem _ hx)
    have hhead : headIs (segments more ++ 0x25 :: bad) isIdentByte = false := by
      cases more <;> rfl
    have hident := identifier_text (i + 1) id (segments more ++ 0x25 :: bad) error hid hhead
    have hdrop : List.drop (i + 1 + id.length - (i + 1)) (id ++ (segments more ++ 0x25 :: bad))
        = segments more ++ 0x25 :: bad := by
      rw [Nat.add_sub_cancel_left, List.drop_left]
    have hlen : more.length < f := by
      simp only [List.length_cons] at hfuel
      omega
    have e : segments (id :: more) ++ 0x25 :: bad
        = 0x25 :: (id ++ (segments more ++ 0x25 :: bad)) := by
      simp [segments]
    have e2 : i + (segments (id :: more)).length + 1
        = i + 1 + id.length + (segments more).length + 1 := by
      simp [segments]
      omega
    rw [e2] at hbad ⊢
    rw [e]
    simp only [referenceLiteralLoop, ne_eq, not_true_eq_false, if_false, hident, hdrop]
    exact ih hmore f (i + 1 + id.length) hlen hbad

/-- A run of the loop of `referenceLiteral` that ends with the null position
has read a chain of segments and then a `%` after which `identifier`
failed. -/
theorem referenceLiteralLoop_none (fuel : Nat) :
    ∀ (i : Nat) (l : List Nat) (error err : ParseError),
      referenceLiteralLoop fuel i l error = Outcome.ret (none, err) →
      headIs l isIdentByte = false →
      ∃ ids bad, l = segments ids ++ 0x25 :: bad
        ∧ (∀ id ∈ ids, isIdentifierText id = true)
        ∧ (bad = [] ∨ ∃ b tl, bad = b :: tl ∧ isIdentStart b = false)
        ∧ ids.length < fuel := by
  induction fuel with
  | zero =>
    intro i l error err h
    simp [referenceLiteralLoop] at h
  | succ f ih =>
    intro i l error err h hl
    cases l with
    | nil => simp [referenceLiteralLoop] at h
    | cons c cs =>
      by_cases hc : c = 0x25
      · subst hc
        simp only [referenceLiteralLoop, ne_eq, not_true_eq_false, if_false] at h
        cases hp : (identifier (some ⟨i + 1, cs⟩) error).pos with
        | none =>
          exact ⟨[], cs, by simp [segments], by simp,
            identifier_none_shape (i + 1) cs error hp, by simp⟩
        | some i' =>
          rw [hp] at h
          simp only at h
          obtain ⟨s, rest', hcs, hs, hr', hi', he'⟩ := identifier_some (i + 1) cs error i' hp
          have hdrop : List.drop (i' - (i + 1)) cs = rest' := by
            rw [hi', hcs, Nat.add_sub_cancel_left, List.drop_left]
          rw [hdrop, he'] at h
          obtain ⟨ids, bad, hl', hids, hbad, hlen⟩ := ih i' rest' error err h hr'
          refine ⟨s :: ids, bad, ?_, ?_, hbad, ?_⟩
          · simp [segments, hcs, hl']
          · intro x hx
            rcases List.mem_cons.1 hx with rfl | hx
            · exact hs
            · exact hids x hx
          · simp only [List.length_cons]
            omega
      · simp [referenceLiteralLoop, hc] at h

/-- C17, amended. The failures of `referenceLiteral` on a non-empty input and
the error each one leaves. (1) The first byte is neither `$` nor `%` and the
input does not begin with `null`: `InvalidLiteral` tagged `Type::Reference` at
the start of the input. (2) A sigil, or a sigil with an identifier and a chain
of `%` segments and then one more `%`, followed by the end of the input:
`ExpectedIdentifier`, the error of `identifier`, without type and position.
(3) The same followed by a byte that cannot start an identifier:
`InvalidIdentifier` at that byte, the error of `identifier`. Every input on
which the call returns the null position has one of these shapes, and with
fuel above the number of bytes the call returns. -/
theorem referenceLiteral_failure (fuel p : Nat) (error : ParseError) :
    (∀ c cs, c ≠ 0x24 → c ≠ 0x25 → ¬ kwNull <+: c :: cs →
      referenceLiteral fuel (some ⟨p, c :: cs⟩) error
        = Outcome.ret ⟨none, none,
            { error := ParseErrorType.InvalidLiteral, type := some DdlType.Reference,
              position := some p }⟩)
    ∧ (∀ s, s = 0x24 ∨ s = 0x25 →
      referenceLiteral fuel (some ⟨p, [s]⟩) error
        = Outcome.ret ⟨none, none, { error := ParseErrorType.ExpectedIdentifier }⟩)
    ∧ (∀ s b tl, s = 0x24 ∨ s = 0x25 → isIdentStart b = false →
      referenceLiteral fuel (some ⟨p, s :: b :: tl⟩) error
        = Outcome.ret ⟨none, none,
            { error := ParseErrorType.InvalidIdentifier, position := some (p + 1) }⟩)
    ∧ (∀ s id0 ids, s = 0x24 ∨ s = 0x25 → isIdentifierText id0 = true →
      (∀ id ∈ ids, isIdentifierText id = true) → ids.length < fuel →
      referenceLiteral fuel (some ⟨p, s :: (id0 ++ (segments ids ++ [0x25]))⟩) error
        = Outcome.ret ⟨none, none, { error := ParseErrorType.ExpectedIdentifier }⟩)
    ∧ (∀ s id0 ids b tl, s = 0x24 ∨ s = 0x25 → isIdentifierText id0 = true →
      (∀ id ∈ ids, isIdentifierText id = true) → ids.length < fuel →
      isIdentStart b = false →
      referenceLiteral fuel (some ⟨p, s :: (id0 ++ (segments ids ++ 0x25 :: b :: tl))⟩) error
        = Outcome.ret ⟨none, none,
            { error := ParseErrorType.InvalidIdentifier,
              position := some (p + 1 + id0.length + (segments ids).length + 1) }⟩)
    ∧ (∀ c cs r, referenceLiteral fuel (some ⟨p, c :: cs⟩) error = Outcome.ret r →
      r.pos = none →
      (c ≠ 0x24 ∧ c ≠ 0x25 ∧ ¬ kwNull <+: c :: cs)
      ∨ ((c = 0x24 ∨ c = 0x25)
        ∧ ∃ pre bad, cs = pre ++ bad
          ∧ (pre = [] ∨ ∃ id0 ids, isIdentifierText id0 = true
              ∧ (∀ id ∈ ids, isIdentifierText id = true)
              ∧ pre = id0 ++ (segments ids ++ [0x25]))
          ∧ (bad = [] ∨ ∃ b tl, bad = b :: tl ∧ isIdentStart b = false)))
    ∧ (∀ c cs, cs.length < fuel →
      ∃ r, referenceLiteral fuel (some ⟨p, c :: cs⟩) error = Outcome.ret r) := by
  have hz : ∀ x ∈ kwNull, x ≠ 0 := by decide
  have dangling : ∀ s id0 ids bad, s = 0x24 ∨ s = 0x25 → isIdentifierText id0 = true →
      (∀ id ∈ ids, isIdentifierText id = true) → ids.length < fuel →
      (identifier (some ⟨p + 1 + id0.length + (segments ids).length + 1, bad⟩) error).pos
        = none →
      referenceLiteral fuel (some ⟨p, s :: (id0 ++ (segments ids ++ 0x25 :: bad))⟩) error
        = Outcome.ret ⟨none, none,
            (identifier (some ⟨p + 1 + id0.length + (segments ids).length + 1, bad⟩)
              error).error⟩ := by
    intro s id0 ids bad hs hid0 hids hfuel hbad
    have hhead : headIs (segments ids ++ 0x25 :: bad) isIdentByte = false := by
      cases ids <;> rfl
    have hident := identifier_text (p + 1) id0 (segments ids ++ 0x25 :: bad) error hid0 hhead
    have hdrop : List.drop (p + 1 + id0.length - (p + 1))
        (id0 ++ (segments ids ++ 0x25 :: bad)) = segments ids ++ 0x25 :: bad := by
      rw [Nat.add_sub_cancel_left, List.drop_left]
    rw [referenceLiteral_sigil fuel p s _ error hs, hident]
    simp only [hdrop,
      referenceLiteralLoop_dangling ids bad hids error fuel (p + 1 + id0.length) hfuel hbad,
      bind_ret]
  refine ⟨?_, ?_, ?_, ?_, ?_, ?_, ?_⟩
  · intro c cs h1 h2 hnull
    have hpm : prefixMatch (some ⟨p, c :: cs⟩) kwNull = none := by
      rw [prefixMatch_eq p (c :: cs) kwNull hz, if_neg hnull]
    simp only [referenceLiteral, hpm, if_pos (And.intro h1 h2)]
  · intro s hs
    rw [referenceLiteral_sigil fuel p s [] error hs]
    rfl
  · intro s b tl hs hb
    rw [referenceLiteral_sigil fuel p s (b :: tl) error hs,
      identifier_no_start (p + 1) b tl error hb]
    rfl
  · intro s id0 ids hs hid0 hids hfuel
    exact dangling s id0 ids [] hs hid0 hids hfuel rfl
  · intro s id0 ids b tl hs hid0 hids hfuel hb
    have hbad := identifier_no_start (p + 1 + id0.length + (segments ids).length + 1) b tl
      error hb
    have h := dangling s id0 ids (b :: tl) hs hid0 hids hfuel (by rw [hbad])
    rw [h, hbad]
  · intro c cs r h hpos
    by_cases hsig : c = 0x24 ∨ c = 0x25
    · right
      refine ⟨hsig, ?_⟩
      rw [referenceLiteral_sigil fuel p c cs error hsig] at h
      obtain ⟨l, hl, hr⟩ := bind_eq_ret _ _ _ h
      cases hl1 : l.1 with
      | some e =>
        rw [hl1] at hr
        simp only [Outcome.ret.injEq] at hr
        subst hr
        simp at hpos
      | none =>
        cases hp : (identifier (some ⟨p + 1, cs⟩) error).pos with
        | none =>
          exact ⟨[], cs, rfl, Or.inl rfl, identifier_none_shape (p + 1) cs error hp⟩
        | some i =>
          rw [hp] at hl
          simp only at hl
          obtain ⟨id0, rest0, hcs, hid0, hr0, hi, herr⟩ :=
            identifier_some (p + 1) cs error i hp
          have hdrop : List.drop (i - (p + 1)) cs = rest0 := by
            rw [hi, hcs, Nat.add_sub_cancel_left, List.drop_left]
          rw [hdrop, herr] at hl
          have hl' : referenceLiteralLoop fuel i rest0 error = Outcome.ret (none, l.2) := by
            rw [hl, ← hl1]
          obtain ⟨ids, bad, hrest0, hids, hbad, -⟩ :=
            referenceLiteralLoop_none fuel i rest0 error l.2 hl' hr0
          refine ⟨id0 ++ (segments ids ++ [0x25]), bad, ?_, Or.inr ⟨id0, ids, hid0, hids, rfl⟩,
            hbad⟩
          rw [hcs, hrest0]
          simp
    · left
      have hsig' : c ≠ 0x24 ∧ c ≠ 0x25 := by omega
      refine ⟨hsig'.1, hsig'.2, fun hnull => ?_⟩
      have hpm : prefixMatch (some ⟨p, c :: cs⟩) kwNull = some (p + kwNull.length) := by
        rw [prefixMatch_eq p (c :: cs) kwNull hz, if_pos hnull]
      simp only [referenceLiteral, hpm, Outcome.ret.injEq] at h
      subst h
      simp at hpos
  · intro c cs hfuel
    by_cases hsig : c = 0x24 ∨ c = 0x25
    · rw [referenceLiteral_sigil fuel p c cs error hsig]
      cases hp : (identifier (some ⟨p + 1, cs⟩) error).pos with
      | none => exact ⟨_, rfl⟩
      | some i =>
        simp only
        obtain ⟨pos, err, hl, -⟩ := referenceLiteralLoop_total fuel i (cs.drop (i - (p + 1)))
          (identifier (some ⟨p + 1, cs⟩) error).error (by
            simp only [List.length_drop]
            omega)
        rw [hl, bind_ret]
        cases pos with
        | none => exact ⟨_, rfl⟩
        | some e => exact ⟨_, rfl⟩
    · have hsig' : c ≠ 0x24 ∧ c ≠ 0x25 := by omega
      cases hpm : prefixMatch (some ⟨p, c :: cs⟩) kwNull with
      | some e => exact ⟨⟨some e, none, error⟩, by simp only [referenceLiteral, hpm]⟩
      | none =>
        exact ⟨⟨none, none, ParseError.mk ParseErrorType.InvalidLiteral
          (some DdlType.Reference) (some p)⟩, by simp only [referenceLiteral, hpm, if_pos hsig']⟩

/-- Witness of C17 as amended: `x1` fails with `InvalidLiteral` tagged
`Type::Reference`, `$1` with `InvalidIdentifier` at the byte `1`, `$foo%` with
`ExpectedIdentifier`, and `$foo%bar%1` with `InvalidIdentifier` at the last
byte. -/
theorem referenceLiteral_failure_witness :
    referenceLiteral 2 (some ⟨0, [0x78, 0x31]⟩) ({} : ParseError)
        = Outcome.ret ⟨none, none,
            { error := ParseErrorType.InvalidLiteral, type := some DdlType.Reference,
              position := some 0 }⟩
    ∧ referenceLiteral 2 (some ⟨0, [0x24, 0x31]⟩) ({} : ParseError)
        = Outcome.ret ⟨none, none,
            { error := ParseErrorType.InvalidIdentifier, position := some (0 + 1) }⟩
    ∧ referenceLiteral 2 (some ⟨0, 0x24 :: ([0x66, 0x6F, 0x6F] ++ (segments [] ++ [0x25]))⟩)
          ({} : ParseError)
        = Outcome.ret ⟨none, none, { error := ParseErrorType.ExpectedIdentifier }⟩
    ∧ referenceLiteral 2
          (some ⟨0, 0x24 :: ([0x66, 0x6F, 0x6F]
            ++ (segments [[0x62, 0x61, 0x72]] ++ 0x25 :: 0x31 :: []))⟩) ({} : ParseError)
        = Outcome.ret ⟨none, none,
            { error := ParseErrorType.InvalidIdentifier,
              position := some (0 + 1 + [0x66, 0x6F, 0x6F].length
                + (segments [[0x62, 0x61, 0x72]]).length + 1) }⟩ :=
  ⟨(referenceLiteral_failure 2 0 {}).1 0x78 [0x31] (by decide) (by decide) (by decide),
   (referenceLiteral_failure 2 0 {}).2.2.1 0x24 0x31 [] (by decide) (by decide),
   (referenceLiteral_failure 2 0 {}).2.2.2.1 0x24 [0x66, 0x6F, 0x6F] [] (by decide) (by decide)
      (by decide) (by decide),
   (referenceLiteral_failure 2 0 {}).2.2.2.2.1 0x24 [0x66, 0x6F, 0x6F] [[0x62, 0x61, 0x72]]
      0x31 [] (by decide) (by decide) (by decide) (by decide) (by decide)⟩

end OpenDdl
